import Mathlib

/-!
Verification of the `catalog` ordered key-value store.

The development shallowly embeds the two tree implementations of the
repository:

* `Catalog.BNode` / `Catalog.BTree` model the in-memory reference B-tree of
  `src/tree.rs` (vectors become `List`s, in-place mutation becomes functional
  update, and every place where the Rust code can panic — out-of-bounds
  indexing, `unwrap`, integer underflow, `todo!()` — is modelled by an
  `Option` result whose `none` value marks the panic).
* `Catalog.Mem` models the buffer-backed tree of `src/memtree.rs` and
  `src/memtree/context.rs`.  The byte buffer and the suballocator are
  modelled by an association-list store of nodes keyed by abstract node
  identifiers together with a remaining-capacity counter; an allocation
  failure (the Rust code asserts on a null pointer) is a panic.

The binary searches of the source recurse on shrinking slices; here they
take the slice length as an explicit structural fuel so that the functions
compute by `rfl`/`decide`.  The fuel equals the length at every call, which
makes the embedded functions total on exactly the inputs where the source
terminates.
-/

namespace Catalog

/-! ## Data model (`src/tree.rs`) -/

/-- `BNode` from `src/tree.rs`: a branch holds separator intervals and child
nodes, a leaf holds key-value entries. -/
inductive BNode (K V : Type) where
  | leaf : List (K × V) → BNode K V
  | branch : List K → List (BNode K V) → BNode K V

/-- `MIN_ITEMS_IN_NODE` from `src/tree.rs`. -/
def MIN_ITEMS_IN_NODE : Nat := 2

/-- `MAX_ITEMS_IN_NODE` from `src/tree.rs`. -/
def MAX_ITEMS_IN_NODE : Nat := 4

variable {K V : Type}

/-- `BNode::len` from `src/tree.rs`. -/
def BNode.len : BNode K V → Nat
  | .leaf es => es.length
  | .branch _ cs => cs.length

/-- `BNode::first` from `src/tree.rs`: for a branch,
`children.first().and_then(|child| child.first())`; for a leaf,
`children.first()`. -/
def BNode.first : BNode K V → Option (K × V)
  | .leaf es => es.head?
  | .branch _ [] => none
  | .branch _ (c :: _) => c.first

mutual

/-- In-order entry list of a node (the semantic contents of the subtree). -/
def BNode.toList : BNode K V → List (K × V)
  | .leaf es => es
  | .branch _ cs => toListCh cs

/-- In-order entry list of a list of children. -/
def toListCh : List (BNode K V) → List (K × V)
  | [] => []
  | c :: cs => c.toList ++ toListCh cs

end

mutual

/-- Nesting depth of a node (used to tell structurally different trees
apart). -/
def BNode.depth : BNode K V → Nat
  | .leaf _ => 1
  | .branch _ cs => depthCh cs + 1

/-- Maximum depth over a list of children. -/
def depthCh : List (BNode K V) → Nat
  | [] => 0
  | c :: cs => max c.depth (depthCh cs)

end

mutual

/-- Structural size of a node, used as the iterator's termination fuel. -/
def BNode.size : BNode K V → Nat
  | .leaf es => 2 + es.length
  | .branch _ cs => 2 + sizeCh cs

/-- Total structural size of a list of children. -/
def sizeCh : List (BNode K V) → Nat
  | [] => 0
  | c :: cs => c.size + sizeCh cs

end

/-- Structural induction principle for `BNode` giving the inductive
hypothesis for every child of a branch. -/
def BNode.inductionOn {P : BNode K V → Prop}
    (hleaf : ∀ es, P (.leaf es))
    (hbranch : ∀ ivs cs, (∀ c ∈ cs, P c) → P (.branch ivs cs)) : ∀ t, P t
  | .leaf es => hleaf es
  | .branch ivs cs => hbranch ivs cs fun c hc =>
      BNode.inductionOn hleaf hbranch c
termination_by t => sizeOf t
decreasing_by
  have := List.sizeOf_lt_of_mem hc
  simp only [BNode.branch.sizeOf_spec]
  omega

/-! ## Searches

`find_idx_from_interval` from `src/tree.rs` (binary search over the interval
list) and the standard library `slice::binary_search_by` used by the leaf
code, modelled from its documented comparator-driven halving.  Both recurse
on shrinking slices; the structural fuel is the current slice length. -/

variable [LinearOrder K]

/-- Body of `find_idx_from_interval` from `src/tree.rs`; the fuel is an upper
bound on the slice length. -/
def find_idx_go : Nat → List K → K → Nat
  | 0, _, _ => 0
  | _, [], _ => 0
  | fuel + 1, ivs, k =>
    let halfway := ivs.length / 2
    match ivs[halfway]? with
    | none => 0
    | some pivot =>
      if k < pivot then find_idx_go fuel (ivs.take halfway) k
      else if pivot < k then halfway + 1 + find_idx_go fuel (ivs.drop (halfway + 1)) k
      else halfway + 1

/-- `find_idx_from_interval` from `src/tree.rs`. -/
def find_idx_from_interval (ivs : List K) (k : K) : Nat :=
  find_idx_go ivs.length ivs k

/-- Body of `slice::binary_search_by` with comparator
`|child_key| child_key.0.cmp(key)` as used in `src/tree.rs`; `.inl` is
`Ok(index)`, `.inr` is `Err(insertion_index)`. -/
def binSearchGo : Nat → List (K × V) → K → Sum Nat Nat
  | 0, _, _ => .inr 0
  | _, [], _ => .inr 0
  | fuel + 1, es, k =>
    let halfway := es.length / 2
    match es[halfway]? with
    | none => .inr 0
    | some e =>
      if e.1 < k then
        match binSearchGo fuel (es.drop (halfway + 1)) k with
        | .inl i => .inl (halfway + 1 + i)
        | .inr i => .inr (halfway + 1 + i)
      else if k < e.1 then binSearchGo fuel (es.take halfway) k
      else .inl halfway

/-- `slice::binary_search_by` on a leaf entry slice. -/
def binSearch (es : List (K × V)) (k : K) : Sum Nat Nat :=
  binSearchGo es.length es k

/-! ## Tree operations (`src/tree.rs`) -/

/-- `BNode::split` from `src/tree.rs`.  The Rust method mutates `self` into
the left half and returns the right half; here both halves are returned.
`none` models the panic on `children_halfway - 1` underflow or an
out-of-range `intervals.remove`. -/
def BNode.split : BNode K V → Option (BNode K V × BNode K V)
  | .leaf es =>
    let halfway := es.length / 2
    some (.leaf (es.take halfway), .leaf (es.drop halfway))
  | .branch ivs cs =>
    let childrenHalfway := cs.length / 2
    if childrenHalfway = 0 then none
    else
      let intervalHalfway := childrenHalfway - 1
      if intervalHalfway < (ivs.take (intervalHalfway + 1)).length then
        some (.branch ((ivs.take (intervalHalfway + 1)).eraseIdx intervalHalfway)
                (cs.take childrenHalfway),
              .branch (ivs.drop (intervalHalfway + 1)) (cs.drop childrenHalfway))
      else none

/-- `BNode::merged` from `src/tree.rs`.  `none` models the `todo!()` panic in
the leaf-branch case. -/
def BNode.merged (a b : BNode K V) : Option (BNode K V) :=
  match b.first with
  | none => some a
  | some (bk, _) =>
    match a, b with
    | .branch ai ac, .branch bi bc => some (.branch (ai ++ bk :: bi) (ac ++ bc))
    | .branch ai ac, .leaf _ => some (.branch (ai ++ [bk]) (ac ++ [b]))
    | .leaf _, .branch _ _ => none
    | .leaf _, .leaf _ => some (.branch [bk] [a, b])

/-- The child-split step of `BNode::insert` (`src/tree.rs` lines 185-193):
if the freshly updated child exceeds `MAX_ITEMS_IN_NODE` it is split, the
right half's first key becomes a new interval at `idx`, and the right half
is inserted at `idx + 1`. -/
def splitChildStep (ivs : List K) (cs : List (BNode K V)) (idx : Nat)
    (c' : BNode K V) : Option (List K × List (BNode K V)) :=
  if MAX_ITEMS_IN_NODE < c'.len then
    match c'.split with
    | none => none
    | some (cl, cr) =>
      match cr.first with
      | none => none
      | some (m, _) =>
        if idx ≤ ivs.length ∧ idx + 1 ≤ cs.length then
          some (ivs.insertIdx idx m, ((cs.set idx cl).insertIdx (idx + 1) cr))
        else none
  else some (ivs, cs.set idx c')

/-- The self-split step of `BNode::insert` (`src/tree.rs` lines 195-205):
if the branch itself exceeds `MAX_ITEMS_IN_NODE` children it splits and
replaces itself by a two-child branch over the halves. -/
def selfSplitStep (ivs2 : List K) (cs2 : List (BNode K V)) : Option (BNode K V) :=
  if MAX_ITEMS_IN_NODE < cs2.length then
    match BNode.split (.branch ivs2 cs2) with
    | none => none
    | some (l, r) =>
      match r.first with
      | none => none
      | some (m, _) => some (.branch [m] [l, r])
  else some (.branch ivs2 cs2)

/-- The rebalancing step of `BNode::remove` (`src/tree.rs` lines 238-250):
if the updated child at `idx` fell below `MIN_ITEMS_IN_NODE`, merge it with
its left sibling when one exists, otherwise with its right sibling when one
exists, dropping the corresponding parent interval. -/
def mergeStep (ivs : List K) (cs1 : List (BNode K V)) (idx : Nat) :
    Option (List K × List (BNode K V)) :=
  match cs1[idx]? with
  | none => none
  | some c' =>
    if c'.len < MIN_ITEMS_IN_NODE then
      if 0 < idx then
        match cs1[idx - 1]? with
        | none => none
        | some a =>
          match a.merged c' with
          | none => none
          | some m =>
            if idx - 1 < ivs.length then
              some (ivs.eraseIdx (idx - 1), (cs1.set idx m).eraseIdx (idx - 1))
            else none
      else if idx + 1 < cs1.length then
        match cs1[idx + 1]? with
        | none => none
        | some b =>
          match c'.merged b with
          | none => none
          | some m =>
            if idx < ivs.length then
              some (ivs.eraseIdx idx, (cs1.set idx m).eraseIdx (idx + 1))
            else none
      else some (ivs, cs1)
    else some (ivs, cs1)

mutual

/-- `BNode::get` from `src/tree.rs`.  The outer `Option` is the panic
monad: `none` models the out-of-bounds `children[idx]` panic (reached, for
example, on the freshly created empty root). -/
def BNode.get : BNode K V → K → Option (Option V)
  | .leaf es, k =>
    match binSearch es k with
    | .inl i =>
      match es[i]? with
      | some e => some (some e.2)
      | none => none
    | .inr _ => some none
  | .branch ivs cs, k => getChild cs (find_idx_from_interval ivs k) k

/-- `children[idx].get(key)` of `src/tree.rs`: descend into the `idx`-th
child, panicking (`none`) when the index is out of bounds. -/
def getChild : List (BNode K V) → Nat → K → Option (Option V)
  | [], _, _ => none
  | c :: _, 0, k => c.get k
  | _ :: cs, n + 1, k => getChild cs n k

end

mutual

/-- `BNode::insert` from `src/tree.rs`.  Returns the updated node and the
previously associated value; `none` is a panic (out-of-bounds index or a
failed `first().unwrap()`). -/
def BNode.insert : BNode K V → K → V → Option (BNode K V × Option V)
  | .leaf es, k, v =>
    match binSearch es k with
    | .inl i =>
      match es[i]? with
      | some e => some (.leaf (es.set i (e.1, v)), some e.2)
      | none => none
    | .inr i =>
      if i ≤ es.length then some (.leaf (es.insertIdx i (k, v)), none)
      else none
  | .branch ivs cs, k, v =>
    if cs.isEmpty then some (.branch ivs (cs ++ [.leaf [(k, v)]]), none)
    else
      let idx := find_idx_from_interval ivs k
      match insertChild cs idx k v with
      | none => none
      | some (c', prev) =>
        match splitChildStep ivs cs idx c' with
        | none => none
        | some (ivs2, cs2) =>
          match selfSplitStep ivs2 cs2 with
          | none => none
          | some t' => some (t', prev)

/-- `children[idx].insert(key, val)` of `src/tree.rs`. -/
def insertChild : List (BNode K V) → Nat → K → V → Option (BNode K V × Option V)
  | [], _, _, _ => none
  | c :: _, 0, k, v => c.insert k v
  | _ :: cs, n + 1, k, v => insertChild cs n k v

end

mutual

/-- `BNode::remove` from `src/tree.rs`.  Returns the updated node and the
removed value; `none` is a panic (out-of-bounds index or the `todo!()`
inside `BNode::merged`). -/
def BNode.remove : BNode K V → K → Option (BNode K V × Option V)
  | .leaf es, k =>
    match binSearch es k with
    | .inl i =>
      match es[i]? with
      | some e => some (.leaf (es.eraseIdx i), some e.2)
      | none => none
    | .inr _ => some (.leaf es, none)
  | .branch ivs cs, k =>
    if cs.isEmpty then some (.branch ivs cs, none)
    else
      let idx := find_idx_from_interval ivs k
      match removeChild cs idx k with
      | none => none
      | some (c', prev) =>
        match mergeStep ivs (cs.set idx c') idx with
        | none => none
        | some (ivs2, cs2) => some (.branch ivs2 cs2, prev)

/-- `children[idx].remove(key)` of `src/tree.rs`. -/
def removeChild : List (BNode K V) → Nat → K → Option (BNode K V × Option V)
  | [], _, _ => none
  | c :: _, 0, k => c.remove k
  | _ :: cs, n + 1, k => removeChild cs n k

end

/-- `BTree` from `src/tree.rs`. -/
structure BTree (K V : Type) where
  root : BNode K V

/-- `BTree::new` from `src/tree.rs`: the root starts as an empty branch. -/
def BTree.new : BTree K V := ⟨.branch [] []⟩

/-- `BTree::get` from `src/tree.rs`. -/
def BTree.get (t : BTree K V) (k : K) : Option (Option V) := t.root.get k

/-- `BTree::insert` from `src/tree.rs`. -/
def BTree.insert (t : BTree K V) (k : K) (v : V) : Option (BTree K V × Option V) :=
  match t.root.insert k v with
  | none => none
  | some (r, prev) => some (⟨r⟩, prev)

/-- `BTree::remove` from `src/tree.rs`. -/
def BTree.remove (t : BTree K V) (k : K) : Option (BTree K V × Option V) :=
  match t.root.remove k with
  | none => none
  | some (r, prev) => some (⟨r⟩, prev)

/-! ## The iterator (`BTreeIter` from `src/tree.rs`)

The Rust iterator keeps a stack of `(node, next_index)` frames, pushed and
popped at the vector's end; here the head of the list is the top of the
stack. -/

/-- Weight of one iterator frame: the size of the not-yet-visited suffix. -/
def frameWeight : BNode K V × Nat → Nat
  | (.branch _ cs, i) => sizeCh (cs.drop i) + 1
  | (.leaf es, i) => (es.drop i).length + 1

/-- Total weight of an iterator stack; an upper bound on the number of
`next` calls it can take. -/
def stackWeight (st : List (BNode K V × Nat)) : Nat :=
  (st.map frameWeight).sum

/-- Body of `BTreeIter::next` from `src/tree.rs`.  The Rust method recurses
after pushing or popping a frame; the structural fuel is the stack weight,
which strictly drops at every recursive call. -/
def iterNextGo : Nat → List (BNode K V × Nat) → Option ((K × V) × List (BNode K V × Nat))
  | 0, _ => none
  | _ + 1, [] => none
  | fuel + 1, (n, i) :: rest =>
    match n with
    | .branch ivs cs =>
      if h : i < cs.length then
        iterNextGo fuel ((cs[i], 0) :: (.branch ivs cs, i + 1) :: rest)
      else iterNextGo fuel rest
    | .leaf es =>
      if h : i < es.length then some (es[i], (.leaf es, i + 1) :: rest)
      else iterNextGo fuel rest

/-- `BTreeIter::next` from `src/tree.rs`. -/
def iterNext (st : List (BNode K V × Nat)) : Option ((K × V) × List (BNode K V × Nat)) :=
  iterNextGo (stackWeight st) st

/-- Body of collecting the whole iterator: call `next` until it returns
`none`, as a `for` loop over the iterator does. -/
def iterToListGo : Nat → List (BNode K V × Nat) → List (K × V)
  | 0, _ => []
  | fuel + 1, st =>
    match iterNext st with
    | none => []
    | some (e, st') => e :: iterToListGo fuel st'

/-- Collect the whole iterator output. -/
def iterToList (st : List (BNode K V × Nat)) : List (K × V) :=
  iterToListGo (stackWeight st + 1) st

/-- `BTree::iter` from `src/tree.rs`: the initial stack holds the root with
index 0; `iterList` is the sequence the iterator yields. -/
def BTree.iterList (t : BTree K V) : List (K × V) := iterToList [(t.root, 0)]

/-! ## Association-list semantics

The intended meaning of a tree is its in-order entry list; the public
operations are specified against first-match lookup, sorted
insert-or-overwrite and first-match erase on that list. -/

/-- First-match lookup in an association list. -/
def lookupKV : List (K × V) → K → Option V
  | [], _ => none
  | e :: l, k => if e.1 = k then some e.2 else lookupKV l k

/-- Sorted insert-or-overwrite; on an equal key the stored key is kept and
only the value is replaced, as the leaf code does. -/
def insUpd (k : K) (v : V) : List (K × V) → List (K × V)
  | [] => [(k, v)]
  | e :: l =>
    if k < e.1 then (k, v) :: e :: l
    else if k = e.1 then (e.1, v) :: l
    else e :: insUpd k v l

/-- Remove the first entry with the given key. -/
def eraseKV (k : K) : List (K × V) → List (K × V)
  | [] => []
  | e :: l => if e.1 = k then l else e :: eraseKV k l

/-- Number of leading entries whose key is strictly below `k`; the insertion
point `Err` index of a successful binary search on a sorted slice. -/
def rankLt (k : K) : List (K × V) → Nat
  | [] => 0
  | e :: l => if e.1 < k then rankLt k l + 1 else 0

/-- Number of leading intervals that are `≤ k`; on a sorted interval list
this is the child index `find_idx_from_interval` computes. -/
def rank (k : K) : List K → Nat
  | [] => 0
  | i :: ivs => if i ≤ k then rank k ivs + 1 else 0

/-! ## Structural invariants

`wfNode lo hi t` is the ordering invariant of §3 of the specification
relative to an optional strict enclosing window: leaf entries are strictly
sorted, every key lies in `[lo, hi)`, a branch has `len + 1` children for
`len` intervals, the intervals are strictly increasing inside `(lo, hi)`,
and child `i` is well-formed between its adjacent intervals. -/

/-- `lo ≤ k` against an optional lower bound. -/
def loLeB : Option K → K → Bool
  | none, _ => true
  | some l, k => decide (l ≤ k)

/-- `lo < k` against an optional lower bound. -/
def loLtB : Option K → K → Bool
  | none, _ => true
  | some l, k => decide (l < k)

/-- `k < hi` against an optional upper bound. -/
def hiGtB : Option K → K → Bool
  | none, _ => true
  | some h, k => decide (k < h)

/-- `k` lies in the window `[lo, hi)`. -/
def inB (lo hi : Option K) (k : K) : Bool := loLeB lo k && hiGtB hi k

/-- Leaf entries have strictly ascending keys. -/
def ascKeys : List (K × V) → Bool
  | [] => true
  | [_] => true
  | a :: b :: l => decide (a.1 < b.1) && ascKeys (b :: l)

mutual

/-- Ordering invariant of a node inside the window `[lo, hi)`. -/
def wfNode : Option K → Option K → BNode K V → Bool
  | lo, hi, .leaf es => ascKeys es && es.all fun e => inB lo hi e.1
  | lo, hi, .branch ivs cs => wfCh lo hi ivs cs

/-- Ordering invariant of a branch frame: intervals `ivs` partition the
window over the children `cs`. -/
def wfCh : Option K → Option K → List K → List (BNode K V) → Bool
  | lo, hi, [], [c] => wfNode lo hi c
  | lo, hi, i :: ivs, c :: cs =>
    loLtB lo i && hiGtB hi i && wfNode lo (some i) c && wfCh (some i) hi ivs cs
  | _, _, _, _ => false

end

mutual

/-- Every leaf of the subtree is nonempty. -/
def neB : BNode K V → Bool
  | .leaf es => !es.isEmpty
  | .branch _ cs => neChB cs

/-- Every leaf below one of the children is nonempty. -/
def neChB : List (BNode K V) → Bool
  | [] => true
  | c :: cs => neB c && neChB cs

end

/-- Discriminator for the node kind. -/
def isLeafB : BNode K V → Bool
  | .leaf _ => true
  | .branch _ _ => false

/-- All nodes of a list are leaves, or all are branches. -/
def kindUniform (cs : List (BNode K V)) : Bool :=
  cs.all isLeafB || cs.all fun c => !isLeafB c

mutual

/-- Sibling kinds are uniform everywhere in the subtree (the balanced-depth
invariant of the specification implies this). -/
def homB : BNode K V → Bool
  | .leaf _ => true
  | .branch _ cs => kindUniform cs && homChB cs

/-- `homB` for every child. -/
def homChB : List (BNode K V) → Bool
  | [] => true
  | c :: cs => homB c && homChB cs

end

mutual

/-- Every leaf of the subtree holds at least `MIN_ITEMS_IN_NODE` entries
(the specification's lower bound, restricted to leaves). -/
def leavesMin2 : BNode K V → Bool
  | .leaf es => decide (MIN_ITEMS_IN_NODE ≤ es.length)
  | .branch _ cs => leavesMin2Ch cs

/-- `leavesMin2` for every child. -/
def leavesMin2Ch : List (BNode K V) → Bool
  | [] => true
  | c :: cs => leavesMin2 c && leavesMin2Ch cs

end

mutual

/-- Every node of the subtree, the top node included, holds at most
`MAX_ITEMS_IN_NODE` entries. -/
def maxOKB : BNode K V → Bool
  | .leaf es => decide (es.length ≤ MAX_ITEMS_IN_NODE)
  | .branch _ cs => decide (cs.length ≤ MAX_ITEMS_IN_NODE) && maxOKChB cs

/-- `maxOKB` for every child. -/
def maxOKChB : List (BNode K V) → Bool
  | [] => true
  | c :: cs => maxOKB c && maxOKChB cs

end

/-- Every strict descendant of the node holds at most `MAX_ITEMS_IN_NODE`
entries (the node's own count is unconstrained). -/
def belowMaxOK : BNode K V → Bool
  | .leaf _ => true
  | .branch _ cs => maxOKChB cs

mutual

/-- Every strict descendant of the node holds at least `MIN_ITEMS_IN_NODE`
entries: the specification's lower-bound invariant, which exempts the
root. -/
def minOKBelow : BNode K V → Bool
  | .leaf _ => true
  | .branch _ cs => minOKChB cs

/-- Children hold at least `MIN_ITEMS_IN_NODE` entries, recursively. -/
def minOKChB : List (BNode K V) → Bool
  | [] => true
  | c :: cs => (decide (MIN_ITEMS_IN_NODE ≤ c.len) && minOKBelow c) && minOKChB cs

end

/-! ## Iterator refinement target -/

/-- Entries a single iterator frame still has to deliver. -/
def restEnt : BNode K V × Nat → List (K × V)
  | (.branch _ cs, i) => toListCh (cs.drop i)
  | (.leaf es, i) => es.drop i

/-- Entries an iterator stack still has to deliver, top frame first. -/
def stackRest (st : List (BNode K V × Nat)) : List (K × V) :=
  st.flatMap restEnt

/-! ## The buffer-backed tree (`src/memtree.rs` and `src/memtree/context.rs`)

The buffer is modelled as a store of allocated nodes addressed by `NodeId`
(in the source, byte offsets; here abstract allocation numbers), together
with the allocator's remaining capacity: `alloc_branch`/`alloc_leaf` assert
that the raw allocation did not fail, so an exhausted allocator is a panic,
modelled as `none` — and, because the functions thread the store
explicitly, the store at the moment of the panic is returned alongside.
The tree control block of the specification (`magic`, `root_offset`) is
carried in the state as `magic` and `rootRec`. -/

/-- A node in the buffer: `Branch { children: [BranchEntry { interval,
node_id }] }` or `Leaf { children: [LeafEntry { key, value }] }`. -/
inductive MNode (K V : Type) where
  | mbranch : List (K × Nat) → MNode K V
  | mleaf : List (K × V) → MNode K V

/-- The managed buffer: allocated nodes by id, the next fresh id, the
allocator's remaining capacity (number of further allocations it can
satisfy), and the tree control block (magic tag and root offset) of the
specification's on-buffer layout. -/
structure MState (K V : Type) where
  store : List (Nat × MNode K V)
  nextId : Nat
  cap : Nat
  magic : Bool
  rootRec : Nat

/-- Reading the node behind an id (`BNodeContext::node`); `none` models a
read of a freed or never-allocated offset. -/
def lookupStore : List (Nat × MNode K V) → Nat → Option (MNode K V)
  | [], _ => none
  | e :: l, id => if e.1 = id then some e.2 else lookupStore l id

/-- Overwriting the node behind an id in place (a `NodeMut` write). -/
def storeUpd (id : Nat) (n : MNode K V) : List (Nat × MNode K V) → List (Nat × MNode K V)
  | [] => []
  | e :: l => if e.1 = id then (e.1, n) :: l else e :: storeUpd id n l

/-- In-place node write, keeping every other component of the state. -/
def storeSet (st : MState K V) (id : Nat) (n : MNode K V) : MState K V :=
  { st with store := storeUpd id n st.store }

/-- `BNodeContext::alloc_branch`/`alloc_leaf`: `none` models the
`assert!(!ptr.is_null())` panic when the allocator is exhausted. -/
def mAlloc (st : MState K V) (n : MNode K V) : Option (Nat × MState K V) :=
  if st.cap = 0 then none
  else some (st.nextId,
    { store := (st.nextId, n) :: st.store
      nextId := st.nextId + 1
      cap := st.cap - 1
      magic := st.magic
      rootRec := st.rootRec })

/-- `BNodeContext::free`: drop the binding of an id. -/
def mFreeGo (id : Nat) : List (Nat × MNode K V) → List (Nat × MNode K V)
  | [] => []
  | e :: l => if e.1 = id then l else e :: mFreeGo id l

/-- `BNodeContext::free` on the state. -/
def mFree (st : MState K V) (id : Nat) : MState K V :=
  { st with store := mFreeGo id st.store }

/-- `find_idx_from_interval` from `src/memtree.rs`: it recurses over
`&entries[1..]` (the first interval is a sentinel that is never compared),
and taking that subslice of an *empty* entry list is an out-of-bounds panic,
modelled as `none`.  The recursive body is the same halving search as the
reference tree's `find_idx_from_interval`. -/
def memFindIdx (entries : List (K × Nat)) (k : K) : Option Nat :=
  match entries with
  | [] => none
  | _ :: tail => some (find_idx_from_interval (tail.map Prod.fst) k)

/-- `get` from `src/memtree.rs`.  Note the source computes
`find_idx_from_interval` *before* the `idx >= branch.children.len()` guard,
so the guard cannot prevent the panic on an empty branch.  The fuel bounds
the descent depth (`none` on exhaustion; any fuel above the tree's depth is
enough). -/
def memGetGo : Nat → MState K V → Nat → K → Option (Option V)
  | 0, _, _, _ => none
  | fuel + 1, st, id, k =>
    match lookupStore st.store id with
    | none => none
    | some (.mbranch entries) =>
      match memFindIdx entries k with
      | none => none
      | some idx =>
        if entries.length ≤ idx then some none
        else
          match entries[idx]? with
          | none => none
          | some e => memGetGo fuel st e.2 k
    | some (.mleaf es) =>
      match binSearch es k with
      | .inl i =>
        match es[i]? with
        | some e => some (some e.2)
        | none => none
      | .inr _ => some none

/-- `insert` from `src/memtree.rs` (the split/merge code is commented out in
the source).  Returns `(result, state)` where `result = none` is a panic —
the state at that moment is kept, because the `assert!` aborts without
unwinding, so nothing allocated earlier is freed — and otherwise
`result = some (newNodeId?, previousValue?)` exactly as the source's
`(Option<NodeId>, Option<V>)`. -/
def memInsertGo : Nat → MState K V → Nat → K → V →
    Option (Option Nat × Option V) × MState K V
  | 0, st, _, _, _ => (none, st)
  | fuel + 1, st, id, k, v =>
    match lookupStore st.store id with
    | none => (none, st)
    | some (.mbranch entries) =>
      if entries.length = 0 then
        match mAlloc st (.mleaf [(k, v)]) with
        | none => (none, st)
        | some (leafId, st1) =>
          match mAlloc st1 (.mbranch [(k, leafId)]) with
          | none => (none, st1)
          | some (brId, st2) => (some (some brId, none), st2)
      else
        match memFindIdx entries k with
        | none => (none, st)
        | some idx =>
          match entries[idx]? with
          | none => (none, st)
          | some e =>
            match memInsertGo fuel st e.2 k v with
            | (none, st2) => (none, st2)
            | (some (none, prev), st2) => (some (none, prev), st2)
            | (some (some nc, prev), st2) =>
              (some (none, prev),
                mFree (storeSet st2 id (.mbranch (entries.set idx (e.1, nc)))) e.2)
    | some (.mleaf es) =>
      match binSearch es k with
      | .inl i =>
        match es[i]? with
        | none => (none, st)
        | some e =>
          (some (none, some e.2), storeSet st id (.mleaf (es.set i (e.1, v))))
      | .inr i =>
        if i ≤ es.length then
          match mAlloc st (.mleaf (es.insertIdx i (k, v))) with
          | none => (none, st)
          | some (nid, st1) => (some (some nid, none), st1)
        else (none, st)

/-- `remove` from `src/memtree.rs` (the rebalancing code is commented out in
the source): the leaf entry is removed in place via `Leaf::remove`. -/
def memRemoveGo : Nat → MState K V → Nat → K →
    Option (Option Nat × Option V) × MState K V
  | 0, st, _, _ => (none, st)
  | fuel + 1, st, id, k =>
    match lookupStore st.store id with
    | none => (none, st)
    | some (.mbranch entries) =>
      if entries.isEmpty then (some (none, none), st)
      else
        match memFindIdx entries k with
        | none => (none, st)
        | some idx =>
          match entries[idx]? with
          | none => (none, st)
          | some e =>
            match memRemoveGo fuel st e.2 k with
            | (none, st2) => (none, st2)
            | (some (_, prev), st2) => (some (none, prev), st2)
    | some (.mleaf es) =>
      match binSearch es k with
      | .inl i =>
        match es[i]? with
        | none => (none, st)
        | some e =>
          (some (none, some e.2), storeSet st id (.mleaf (es.eraseIdx i)))
      | .inr _ => (some (none, none), st)

/-- The buffer-backed handle `BTree` of `src/memtree.rs`: the context (here
the state) plus the root id. -/
structure MTree (K V : Type) where
  st : MState K V
  root : Nat

/-- `BTree::new` from `src/memtree.rs`: initialize the allocator over the
buffer and allocate the empty root branch (`alloc_branch(0)`), panicking
(`none`) when the buffer cannot hold it.  Modelled from the spec: `new`
additionally writes the tree control block (magic tag and root offset);
the source keeps the root only in the in-memory handle. -/
def memNew (cap : Nat) : Option (MTree K V) :=
  match mAlloc
      { store := []
        nextId := 0
        cap := cap
        magic := false
        rootRec := 0 } (.mbranch []) with
  | none => none
  | some (rootId, st1) =>
    some { st := { st1 with magic := true, rootRec := rootId }, root := rootId }

/-- `BTree::get` from `src/memtree.rs`. -/
def MTree.get (fuel : Nat) (t : MTree K V) (k : K) : Option (Option V) :=
  memGetGo fuel t.st t.root k

/-- `BTree::insert` from `src/memtree.rs`: on a root replacement the handle
swaps in the new root id and frees the old root.  Modelled from the spec:
the root record in the buffer is updated alongside (the source keeps the
root only in the in-memory handle). -/
def MTree.insert (fuel : Nat) (t : MTree K V) (k : K) (v : V) :
    Option (Option V) × MTree K V :=
  match memInsertGo fuel t.st t.root k v with
  | (none, st2) => (none, { st := st2, root := t.root })
  | (some (none, prev), st2) => (some prev, { st := st2, root := t.root })
  | (some (some nr, prev), st2) =>
    (some prev,
      { st := { (mFree st2 t.root) with rootRec := nr }, root := nr })

/-- `BTree::remove` from `src/memtree.rs`, with the same spec-modelled root
record maintenance as `MTree.insert`. -/
def MTree.remove (fuel : Nat) (t : MTree K V) (k : K) :
    Option (Option V) × MTree K V :=
  match memRemoveGo fuel t.st t.root k with
  | (none, st2) => (none, { st := st2, root := t.root })
  | (some (none, prev), st2) => (some prev, { st := st2, root := t.root })
  | (some (some nr, prev), st2) =>
    (some prev,
      { st := { (mFree st2 t.root) with rootRec := nr }, root := nr })

/-- Modelled from the spec: `load(buffer)` reads the tree control block,
checks the magic tag and resumes with the recorded root, without
allocating; the source's `load` is referenced by the tests
(`restore_from_buffer`) but missing from `src/`. -/
def memLoad (st : MState K V) : Option (MTree K V) :=
  if st.magic then some { st := st, root := st.rootRec } else none

/-- Modelled from the spec: `iter()` of the buffer-backed tree visits the
tree in order (the source has no `iter` for `memtree`); the fuel bounds the
descent depth. -/
def memIterGo : Nat → MState K V → Nat → List (K × V)
  | 0, _, _ => []
  | fuel + 1, st, id =>
    match lookupStore st.store id with
    | none => []
    | some (.mleaf es) => es
    | some (.mbranch entries) => entries.flatMap fun e => memIterGo fuel st e.2

/-- A recorded public mutation, for the round-trip statement. -/
inductive MOp (K V : Type) where
  | ins : K → V → MOp K V
  | del : K → MOp K V

/-- Apply a sequence of public operations to a handle (each with the given
descent fuel). -/
def applyMOps (fuel : Nat) : List (MOp K V) → MTree K V → MTree K V
  | [], t => t
  | .ins k v :: ops, t => applyMOps fuel ops (MTree.insert fuel t k v).2
  | .del k :: ops, t => applyMOps fuel ops (MTree.remove fuel t k).2

/-! ## Search characterizations -/

/-- Keys of an entry list. -/
def keysOf (es : List (K × V)) : List K := es.map Prod.fst

lemma rank_le_length (k : K) (l : List K) : rank k l ≤ l.length := by
  induction l with
  | nil => simp [rank]
  | cons i l ih =>
    simp only [rank, List.length_cons]
    split <;> omega

lemma rank_append (k : K) (l1 l2 : List K) :
    rank k (l1 ++ l2) =
      if rank k l1 = l1.length then l1.length + rank k l2 else rank k l1 := by
  induction l1 with
  | nil => simp [rank]
  | cons i l ih =>
    by_cases h : i ≤ k
    · simp only [List.cons_append, List.append_eq, rank, List.length_cons, if_pos h, ih]
      by_cases h2 : rank k l = l.length
      · rw [if_pos h2, if_pos (by omega)]
        omega
      · rw [if_neg h2, if_neg (by omega)]
    · simp only [List.cons_append, List.append_eq, rank, List.length_cons, if_neg h]
      have := rank_le_length k l
      rw [if_neg (by omega)]

lemma rank_eq_length {k : K} {l : List K} (h : ∀ i ∈ l, i ≤ k) :
    rank k l = l.length := by
  induction l with
  | nil => simp [rank]
  | cons i l ih =>
    simp only [rank, List.length_cons]
    rw [if_pos (h i (by simp))]
    rw [ih fun j hj => h j (by simp [hj])]

lemma find_idx_go_eq_rank :
    ∀ (fuel : Nat) (ivs : List K) (k : K), ivs.Pairwise (· < ·) →
      ivs.length ≤ fuel → find_idx_go fuel ivs k = rank k ivs := by
  intro fuel
  induction fuel with
  | zero =>
    intro ivs k _ hlen
    cases ivs with
    | nil => simp [find_idx_go, rank]
    | cons i l => simp at hlen
  | succ fuel ih =>
    intro ivs k hs hlen
    cases ivs with
    | nil => simp [find_idx_go, rank]
    | cons i0 rest =>
      have hlt0 : (i0 :: rest).length / 2 < (i0 :: rest).length :=
        Nat.div_lt_self (by simp) (by omega)
      have hstep : find_idx_go (fuel + 1) (i0 :: rest) k =
          (match (i0 :: rest)[(i0 :: rest).length / 2]? with
            | none => 0
            | some pivot =>
              if k < pivot then find_idx_go fuel ((i0 :: rest).take ((i0 :: rest).length / 2)) k
              else if pivot < k then (i0 :: rest).length / 2 + 1 +
                find_idx_go fuel ((i0 :: rest).drop ((i0 :: rest).length / 2 + 1)) k
              else (i0 :: rest).length / 2 + 1) := rfl
      rw [hstep, List.getElem?_eq_getElem hlt0]
      set l : List K := i0 :: rest with hl
      set h : Nat := l.length / 2 with hh
      have hlt : h < l.length := hlt0
      have hsplit : l = l.take h ++ l.drop h := (List.take_append_drop h l).symm
      have hdrop : l.drop h = l[h] :: l.drop (h + 1) := List.drop_eq_getElem_cons hlt
      have hlentake : (l.take h).length = h := by
        simp [List.length_take]
        omega
      have htakes : (l.take h).Pairwise (· < ·) := hs.sublist (List.take_sublist h l)
      have hdrops : (l.drop (h + 1)).Pairwise (· < ·) := hs.sublist (List.drop_sublist (h + 1) l)
      have htakelt : ∀ j (hj : j < (l.take h).length), (l.take h)[j] < l[h] := by
        intro j hj
        rw [List.getElem_take]
        exact List.pairwise_iff_getElem.mp hs j h (by omega) hlt (by omega)
      have hdropgt : ∀ j (hj : j < (l.drop (h + 1)).length), l[h] < (l.drop (h + 1))[j] := by
        intro j hj
        rw [List.getElem_drop]
        have := List.pairwise_iff_getElem.mp hs h (h + 1 + j) hlt
          (by simp [List.length_drop] at hj; omega) (by omega)
        exact this
      show (if k < l[h] then find_idx_go fuel (l.take h) k
        else if l[h] < k then h + 1 + find_idx_go fuel (l.drop (h + 1)) k
        else h + 1) = rank k l
      have hranktake : rank k l = if rank k (l.take h) = h
          then h + rank k (l.drop h) else rank k (l.take h) := by
        conv_lhs => rw [hsplit]
        rw [rank_append, hlentake]
      by_cases hklt : k < l[h]
      · rw [if_pos hklt]
        rw [ih (l.take h) k htakes (by rw [hlentake]; omega)]
        rw [hranktake]
        by_cases heq : rank k (l.take h) = h
        · rw [if_pos heq, hdrop]
          simp only [rank, if_neg (not_le.mpr hklt)]
          omega
        · rw [if_neg heq]
      · rw [if_neg hklt]
        have hletake : rank k (l.take h) = h := by
          have hall : ∀ j ∈ l.take h, j ≤ k := by
            intro j hj
            obtain ⟨idx, hidx, hjeq⟩ := List.getElem_of_mem hj
            subst hjeq
            exact le_trans (le_of_lt (htakelt idx hidx)) (not_lt.mp hklt)
          rw [rank_eq_length hall, hlentake]
        by_cases hpk : l[h] < k
        · rw [if_pos hpk]
          rw [ih (l.drop (h + 1)) k hdrops (by rw [List.length_drop]; omega)]
          rw [hranktake, if_pos hletake, hdrop]
          simp only [rank, if_pos (le_of_lt hpk)]
          omega
        · rw [if_neg hpk]
          have hkey : l[h] = k := le_antisymm (not_lt.mp hklt) (not_lt.mp hpk)
          have hdropz : rank k (l.drop (h + 1)) = 0 := by
            cases hd : l.drop (h + 1) with
            | nil => simp [rank]
            | cons x xs =>
              have hx : l[h] < x := by
                have := hdropgt 0 (by simp [hd])
                simpa [hd] using this
              simp only [rank]
              rw [if_neg (by rw [← hkey]; exact not_le.mpr hx)]
          rw [hranktake, if_pos hletake, hdrop]
          simp only [rank, if_pos (le_of_eq hkey)]
          omega

lemma find_idx_eq_rank {ivs : List K} (hs : ivs.Pairwise (· < ·)) (k : K) :
    find_idx_from_interval ivs k = rank k ivs :=
  find_idx_go_eq_rank ivs.length ivs k hs le_rfl

lemma rankLt_le_length (k : K) (es : List (K × V)) : rankLt k es ≤ es.length := by
  induction es with
  | nil => simp [rankLt]
  | cons e l ih =>
    simp only [rankLt, List.length_cons]
    split <;> omega

lemma rankLt_append (k : K) (l1 l2 : List (K × V)) :
    rankLt k (l1 ++ l2) =
      if rankLt k l1 = l1.length then l1.length + rankLt k l2 else rankLt k l1 := by
  induction l1 with
  | nil => simp [rankLt]
  | cons e l ih =>
    by_cases h : e.1 < k
    · simp only [List.cons_append, List.append_eq, rankLt, List.length_cons, if_pos h, ih]
      by_cases h2 : rankLt k l = l.length
      · rw [if_pos h2, if_pos (by omega)]
        omega
      · rw [if_neg h2, if_neg (by omega)]
    · simp only [List.cons_append, List.append_eq, rankLt, List.length_cons, if_neg h]
      have := rankLt_le_length k l
      rw [if_neg (by omega)]

lemma rankLt_eq_length {k : K} {es : List (K × V)} (h : ∀ e ∈ es, e.1 < k) :
    rankLt k es = es.length := by
  induction es with
  | nil => simp [rankLt]
  | cons e l ih =>
    simp only [rankLt, List.length_cons]
    rw [if_pos (h e (by simp))]
    rw [ih fun x hx => h x (by simp [hx])]

lemma binSearchGo_spec :
    ∀ (fuel : Nat) (es : List (K × V)) (k : K),
      es.Pairwise (fun a b => a.1 < b.1) → es.length ≤ fuel →
      (∃ i, ∃ hi : i < es.length, binSearchGo fuel es k = .inl i ∧ (es[i]).1 = k) ∨
      (binSearchGo fuel es k = .inr (rankLt k es) ∧ ∀ e ∈ es, e.1 ≠ k) := by
  intro fuel
  induction fuel with
  | zero =>
    intro es k _ hlen
    cases es with
    | nil => right; simp [binSearchGo, rankLt]
    | cons e l => simp at hlen
  | succ fuel ih =>
    intro es k hs hlen
    cases es with
    | nil => right; simp [binSearchGo, rankLt]
    | cons e0 rest =>
      have hlt0 : (e0 :: rest).length / 2 < (e0 :: rest).length :=
        Nat.div_lt_self (by simp) (by omega)
      have hstep : binSearchGo (fuel + 1) (e0 :: rest) k =
          (match (e0 :: rest)[(e0 :: rest).length / 2]? with
            | none => .inr 0
            | some e =>
              if e.1 < k then
                match binSearchGo fuel ((e0 :: rest).drop ((e0 :: rest).length / 2 + 1)) k with
                | .inl i => .inl ((e0 :: rest).length / 2 + 1 + i)
                | .inr i => .inr ((e0 :: rest).length / 2 + 1 + i)
              else if k < e.1 then binSearchGo fuel ((e0 :: rest).take ((e0 :: rest).length / 2)) k
              else .inl ((e0 :: rest).length / 2)) := rfl
      have hval : binSearchGo (fuel + 1) (e0 :: rest) k =
          (if (e0 :: rest)[(e0 :: rest).length / 2].1 < k then
            (match binSearchGo fuel ((e0 :: rest).drop ((e0 :: rest).length / 2 + 1)) k with
              | .inl i => Sum.inl ((e0 :: rest).length / 2 + 1 + i)
              | .inr i => Sum.inr ((e0 :: rest).length / 2 + 1 + i))
          else if k < (e0 :: rest)[(e0 :: rest).length / 2].1 then
            binSearchGo fuel ((e0 :: rest).take ((e0 :: rest).length / 2)) k
          else .inl ((e0 :: rest).length / 2)) := by
        rw [hstep, List.getElem?_eq_getElem hlt0]
      clear hstep
      set l : List (K × V) := e0 :: rest with hl
      set h : Nat := l.length / 2 with hh
      have hlt : h < l.length := hlt0
      have hsplit : l = l.take h ++ l.drop h := (List.take_append_drop h l).symm
      have hdrop : l.drop h = l[h] :: l.drop (h + 1) := List.drop_eq_getElem_cons hlt
      have hlentake : (l.take h).length = h := by
        simp [List.length_take]
        omega
      have hlendrop : (l.drop (h + 1)).length = l.length - (h + 1) := List.length_drop _ _
      have htakes : (l.take h).Pairwise (fun a b => a.1 < b.1) :=
        hs.sublist (List.take_sublist h l)
      have hdrops : (l.drop (h + 1)).Pairwise (fun a b => a.1 < b.1) :=
        hs.sublist (List.drop_sublist (h + 1) l)
      have htakelt : ∀ j (hj : j < (l.take h).length), (l.take h)[j].1 < l[h].1 := by
        intro j hj
        rw [List.getElem_take]
        exact List.pairwise_iff_getElem.mp hs j h (by omega) hlt (by omega)
      have hdropgt : ∀ j (hj : j < (l.drop (h + 1)).length), l[h].1 < (l.drop (h + 1))[j].1 := by
        intro j hj
        rw [List.getElem_drop]
        exact List.pairwise_iff_getElem.mp hs h (h + 1 + j) hlt (by omega) (by omega)
      by_cases hpk : l[h].1 < k
      · rcases ih (l.drop (h + 1)) k hdrops (by omega) with ⟨i, hi, heq, hkey⟩ | ⟨heq, hnone⟩
        · left
          refine ⟨h + 1 + i, by omega, ?_, ?_⟩
          · rw [hval, if_pos hpk, heq]
          · rw [List.getElem_drop] at hkey
            exact hkey
        · right
          constructor
          · rw [hval, if_pos hpk, heq]
            have htfull : rankLt k (l.take h) = h := by
              have hall : ∀ e ∈ l.take h, e.1 < k := by
                intro e he
                obtain ⟨idx, hidx, hjeq⟩ := List.getElem_of_mem he
                subst hjeq
                exact lt_trans (htakelt idx hidx) hpk
              rw [rankLt_eq_length hall, hlentake]
            have hrl : rankLt k l = h + 1 + rankLt k (l.drop (h + 1)) := by
              conv_lhs => rw [hsplit]
              rw [rankLt_append, hlentake, htfull, if_pos rfl, hdrop]
              simp only [rankLt, if_pos hpk]
              omega
            rw [hrl]
          · intro e he
            rw [hsplit, hdrop] at he
            rcases List.mem_append.mp he with hin | hin
            · obtain ⟨idx, hidx, hjeq⟩ := List.getElem_of_mem hin
              subst hjeq
              exact ne_of_lt (lt_trans (htakelt idx hidx) hpk)
            · rcases List.mem_cons.mp hin with rfl | hin
              · exact ne_of_lt hpk
              · exact hnone e hin
      · by_cases hkp : k < l[h].1
        · rcases ih (l.take h) k htakes (by rw [hlentake]; omega) with
            ⟨i, hi, heq, hkey⟩ | ⟨heq, hnone⟩
          · left
            refine ⟨i, by omega, ?_, ?_⟩
            · rw [hval, if_neg hpk, if_pos hkp, heq]
            · rw [List.getElem_take] at hkey
              exact hkey
          · right
            constructor
            · rw [hval, if_neg hpk, if_pos hkp, heq]
              have hrl : rankLt k l = rankLt k (l.take h) := by
                conv_lhs => rw [hsplit]
                rw [rankLt_append, hlentake]
                by_cases h2 : rankLt k (l.take h) = h
                · rw [if_pos h2, hdrop]
                  simp only [rankLt, if_neg (not_lt.mpr (le_of_lt hkp))]
                  omega
                · rw [if_neg h2]
              rw [hrl]
            · intro e he
              rw [hsplit, hdrop] at he
              rcases List.mem_append.mp he with hin | hin
              · exact hnone e hin
              · rcases List.mem_cons.mp hin with rfl | hin
                · exact (ne_of_lt hkp).symm
                · obtain ⟨idx, hidx, hjeq⟩ := List.getElem_of_mem hin
                  subst hjeq
                  exact (ne_of_lt (lt_trans hkp (hdropgt idx hidx))).symm
        · left
          refine ⟨h, hlt, ?_, le_antisymm (not_lt.mp hkp) (not_lt.mp hpk)⟩
          rw [hval, if_neg hpk, if_neg hkp]

lemma binSearch_inl {es : List (K × V)} {k : K} {i : Nat}
    (hs : es.Pairwise (fun a b => a.1 < b.1)) (h : binSearch es k = .inl i) :
    ∃ hi : i < es.length, (es[i]).1 = k := by
  rcases binSearchGo_spec es.length es k hs le_rfl with ⟨j, hj, heq, hkey⟩ | ⟨heq, _⟩
  · rw [binSearch] at h
    rw [h] at heq
    cases heq
    exact ⟨hj, hkey⟩
  · rw [binSearch] at h
    rw [h] at heq
    cases heq

lemma binSearch_inr {es : List (K × V)} {k : K} {j : Nat}
    (hs : es.Pairwise (fun a b => a.1 < b.1)) (h : binSearch es k = .inr j) :
    j = rankLt k es ∧ ∀ e ∈ es, e.1 ≠ k := by
  rcases binSearchGo_spec es.length es k hs le_rfl with ⟨i, hi, heq, hkey⟩ | ⟨heq, hnone⟩
  · rw [binSearch] at h
    rw [h] at heq
    cases heq
  · rw [binSearch] at h
    rw [h] at heq
    cases heq
    exact ⟨rfl, hnone⟩

/-! ## Association-list lemmas -/

lemma lookupKV_eq_none {es : List (K × V)} {k : K} (h : ∀ e ∈ es, e.1 ≠ k) :
    lookupKV es k = none := by
  induction es with
  | nil => rfl
  | cons e l ih =>
    simp only [lookupKV]
    rw [if_neg (h e (by simp))]
    exact ih fun x hx => h x (by simp [hx])

lemma lookupKV_getElem {es : List (K × V)} {k : K} {i : Nat}
    (hs : es.Pairwise (fun a b => a.1 < b.1)) (hi : i < es.length)
    (hk : (es[i]).1 = k) : lookupKV es k = some (es[i]).2 := by
  induction es generalizing i with
  | nil => simp at hi
  | cons e l ih =>
    cases i with
    | zero =>
      simp only [List.getElem_cons_zero] at hk ⊢
      simp [lookupKV, hk]
    | succ j =>
      have hj : j < l.length := by
        simp only [List.length_cons] at hi
        omega
      simp only [List.getElem_cons_succ] at hk ⊢
      have hne : e.1 ≠ k := by
        have := (List.pairwise_cons.mp hs).1 (l[j]) (List.getElem_mem hj)
        rw [hk] at this
        exact ne_of_lt this
      simp only [lookupKV, if_neg hne]
      exact ih (List.pairwise_cons.mp hs).2 hj hk

lemma set_eq_insUpd {es : List (K × V)} {k : K} {i : Nat} (v : V)
    (hs : es.Pairwise (fun a b => a.1 < b.1)) (hi : i < es.length)
    (hk : (es[i]).1 = k) : es.set i ((es[i]).1, v) = insUpd k v es := by
  induction es generalizing i with
  | nil => simp at hi
  | cons e l ih =>
    cases i with
    | zero =>
      simp only [List.getElem_cons_zero, List.set_cons_zero] at hk ⊢
      rw [insUpd, if_neg (by rw [← hk]; exact lt_irrefl _), if_pos hk.symm, hk]
    | succ j =>
      have hj : j < l.length := by
        simp only [List.length_cons] at hi
        omega
      simp only [List.getElem_cons_succ, List.set_cons_succ] at hk ⊢
      have hlt : e.1 < k := by
        have := (List.pairwise_cons.mp hs).1 (l[j]) (List.getElem_mem hj)
        rw [hk] at this
        exact this
      rw [insUpd, if_neg (not_lt.mpr (le_of_lt hlt)), if_neg (ne_of_gt hlt)]
      rw [ih (List.pairwise_cons.mp hs).2 hj hk]

lemma insertIdx_rankLt_eq_insUpd {es : List (K × V)} {k : K} (v : V)
    (hnk : ∀ e ∈ es, e.1 ≠ k) :
    es.insertIdx (rankLt k es) (k, v) = insUpd k v es := by
  induction es with
  | nil => rfl
  | cons e l ih =>
    by_cases h : e.1 < k
    · simp only [rankLt, if_pos h, List.insertIdx_succ_cons]
      rw [insUpd, if_neg (not_lt.mpr (le_of_lt h)), if_neg (Ne.symm (hnk e (by simp)))]
      rw [ih fun x hx => hnk x (by simp [hx])]
    · have hke : k < e.1 := lt_of_le_of_ne (not_lt.mp h) (Ne.symm (hnk e (by simp)))
      simp only [rankLt, if_neg h, List.insertIdx_zero]
      rw [insUpd, if_pos hke]

lemma eraseIdx_eq_eraseKV {es : List (K × V)} {k : K} {i : Nat}
    (hs : es.Pairwise (fun a b => a.1 < b.1)) (hi : i < es.length)
    (hk : (es[i]).1 = k) : es.eraseIdx i = eraseKV k es := by
  induction es generalizing i with
  | nil => simp at hi
  | cons e l ih =>
    cases i with
    | zero =>
      simp only [List.getElem_cons_zero] at hk
      simp [List.eraseIdx_cons_zero, eraseKV, hk]
    | succ j =>
      have hj : j < l.length := by
        simp only [List.length_cons] at hi
        omega
      simp only [List.getElem_cons_succ] at hk
      have hlt : e.1 < k := by
        have := (List.pairwise_cons.mp hs).1 (l[j]) (List.getElem_mem hj)
        rw [hk] at this
        exact this
      simp only [List.eraseIdx_cons_succ, eraseKV, if_neg (ne_of_lt hlt)]
      rw [ih (List.pairwise_cons.mp hs).2 hj hk]

lemma eraseKV_not_mem {es : List (K × V)} {k : K} (h : ∀ e ∈ es, e.1 ≠ k) :
    eraseKV k es = es := by
  induction es with
  | nil => rfl
  | cons e l ih =>
    rw [eraseKV, if_neg (h e (by simp))]
    rw [ih fun x hx => h x (by simp [hx])]

lemma mem_insUpd_key {es : List (K × V)} {k : K} {v : V} :
    ∀ x ∈ insUpd k v es, x.1 = k ∨ ∃ e ∈ es, x.1 = e.1 := by
  induction es with
  | nil =>
    intro x hx
    simp only [insUpd, List.mem_singleton] at hx
    subst hx
    left; rfl
  | cons e l ih =>
    intro x hx
    rw [insUpd] at hx
    split_ifs at hx with h1 h2
    · rcases List.mem_cons.mp hx with rfl | hx
      · left; rfl
      · right; exact ⟨x, hx, rfl⟩
    · rcases List.mem_cons.mp hx with rfl | hx
      · right; exact ⟨e, by simp, rfl⟩
      · right; exact ⟨x, by simp [hx], rfl⟩
    · rcases List.mem_cons.mp hx with rfl | hx
      · right; exact ⟨x, by simp, rfl⟩
      · rcases ih x hx with hk | ⟨e2, he2, hxe⟩
        · left; exact hk
        · right; exact ⟨e2, by simp [he2], hxe⟩

lemma insUpd_pairwise {es : List (K × V)} {k : K} {v : V}
    (hs : es.Pairwise (fun a b => a.1 < b.1)) :
    (insUpd k v es).Pairwise (fun a b => a.1 < b.1) := by
  induction es with
  | nil => simp [insUpd]
  | cons e l ih =>
    rw [insUpd]
    obtain ⟨hhead, htail⟩ := List.pairwise_cons.mp hs
    split_ifs with h1 h2
    · refine List.pairwise_cons.mpr ⟨?_, hs⟩
      intro b hb
      rcases List.mem_cons.mp hb with rfl | hb
      · exact h1
      · exact lt_trans h1 (hhead b hb)
    · refine List.pairwise_cons.mpr ⟨?_, htail⟩
      intro b hb
      exact hhead b hb
    · refine List.pairwise_cons.mpr ⟨?_, ih htail⟩
      intro b hb
      rcases mem_insUpd_key b hb with hbk | ⟨e2, he2, hbe⟩
      · rw [hbk]
        exact lt_of_le_of_ne (not_lt.mp h1) (Ne.symm h2)
      · rw [hbe]
        exact hhead e2 he2

lemma lookupKV_insUpd_self (es : List (K × V)) (k : K) (v : V) :
    lookupKV (insUpd k v es) k = some v := by
  induction es with
  | nil => simp [insUpd, lookupKV]
  | cons e l ih =>
    rw [insUpd]
    split_ifs with h1 h2
    · simp [lookupKV]
    · simp [lookupKV, h2.symm]
    · have : e.1 ≠ k := fun hc => h2 hc.symm
      simp only [lookupKV, if_neg this]
      exact ih

lemma eraseKV_sublist (k : K) (es : List (K × V)) : List.Sublist (eraseKV k es) es := by
  induction es with
  | nil => simp [eraseKV]
  | cons e l ih =>
    rw [eraseKV]
    split_ifs with h
    · exact List.sublist_cons_self e l
    · exact List.Sublist.cons₂ e ih

lemma lookupKV_eraseKV_self {es : List (K × V)} {k : K}
    (hs : es.Pairwise (fun a b => a.1 < b.1)) :
    lookupKV (eraseKV k es) k = none := by
  induction es with
  | nil => rfl
  | cons e l ih =>
    obtain ⟨hhead, htail⟩ := List.pairwise_cons.mp hs
    rw [eraseKV]
    split_ifs with h
    · subst h
      refine lookupKV_eq_none fun x hx => ne_of_gt (hhead x hx)
    · simp only [lookupKV, if_neg h]
      exact ih htail

lemma lookupKV_append_right {l1 l2 : List (K × V)} {k : K}
    (h : ∀ e ∈ l1, e.1 ≠ k) :
    lookupKV (l1 ++ l2) k = lookupKV l2 k := by
  induction l1 with
  | nil => simp
  | cons e l ih =>
    simp only [List.cons_append, lookupKV, if_neg (h e (by simp))]
    exact ih fun x hx => h x (by simp [hx])

lemma lookupKV_append_left {l1 l2 : List (K × V)} {k : K}
    (h : ∀ e ∈ l2, e.1 ≠ k) :
    lookupKV (l1 ++ l2) k = lookupKV l1 k := by
  induction l1 with
  | nil => simp [lookupKV_eq_none h, lookupKV]
  | cons e l ih =>
    simp only [List.cons_append, lookupKV]
    split_ifs with h1
    · rfl
    · exact ih

lemma insUpd_append_right {l1 l2 : List (K × V)} {k : K} {v : V}
    (h : ∀ e ∈ l1, e.1 < k) :
    insUpd k v (l1 ++ l2) = l1 ++ insUpd k v l2 := by
  induction l1 with
  | nil => simp
  | cons e l ih =>
    have he := h e (by simp)
    simp only [List.cons_append, List.append_eq, insUpd, if_neg (not_lt.mpr (le_of_lt he)),
      if_neg (ne_of_gt he)]
    rw [ih fun x hx => h x (by simp [hx])]

lemma insUpd_append_left {l1 l2 : List (K × V)} {k : K} {v : V}
    (h : ∀ e ∈ l2, k < e.1) :
    insUpd k v (l1 ++ l2) = insUpd k v l1 ++ l2 := by
  induction l1 with
  | nil =>
    cases l2 with
    | nil => simp
    | cons e2 t2 =>
      simp only [List.nil_append, insUpd, if_pos (h e2 (by simp))]
      rfl
  | cons e l ih =>
    simp only [List.cons_append, List.append_eq, insUpd]
    split_ifs with h1 h2
    · rfl
    · rfl
    · rw [ih, List.cons_append]

lemma eraseKV_append_right {l1 l2 : List (K × V)} {k : K}
    (h : ∀ e ∈ l1, e.1 ≠ k) :
    eraseKV k (l1 ++ l2) = l1 ++ eraseKV k l2 := by
  induction l1 with
  | nil => simp
  | cons e l ih =>
    simp only [List.cons_append, List.append_eq, eraseKV, if_neg (h e (by simp))]
    rw [ih fun x hx => h x (by simp [hx])]

lemma eraseKV_append_left {l1 l2 : List (K × V)} {k : K}
    (h : ∀ e ∈ l2, e.1 ≠ k) :
    eraseKV k (l1 ++ l2) = eraseKV k l1 ++ l2 := by
  induction l1 with
  | nil => simp [eraseKV_not_mem h, eraseKV]
  | cons e l ih =>
    simp only [List.cons_append, List.append_eq, eraseKV]
    split_ifs with h1
    · rfl
    · rw [ih, List.cons_append]

/-! ## Well-formedness machinery -/

instance : IsTrans (K × V) fun a b => a.1 < b.1 :=
  ⟨fun _ _ _ h1 h2 => lt_trans h1 h2⟩

lemma ascKeys_iff {es : List (K × V)} :
    ascKeys es = true ↔ es.Pairwise (fun a b => a.1 < b.1) := by
  have hch : ascKeys es = true ↔ es.Chain' (fun a b => a.1 < b.1) := by
    induction es with
    | nil => simp [ascKeys]
    | cons a l ih =>
      cases l with
      | nil => simp [ascKeys]
      | cons b t =>
        rw [ascKeys, List.chain'_cons, Bool.and_eq_true, decide_eq_true_eq, ih]
  rw [hch]
  exact List.chain'_iff_pairwise

lemma wfCh_single {lo hi : Option K} {c : BNode K V} :
    wfCh lo hi [] [c] = wfNode lo hi c := rfl

lemma wfCh_cons {lo hi : Option K} {i : K} {ivs : List K} {c : BNode K V}
    {cs : List (BNode K V)} :
    wfCh lo hi (i :: ivs) (c :: cs) =
      (loLtB lo i && hiGtB hi i && wfNode lo (some i) c && wfCh (some i) hi ivs cs) := rfl

lemma wfCh_nil_nil {lo hi : Option K} : wfCh lo hi [] ([] : List (BNode K V)) = false := rfl

lemma wfCh_nil_cons2 {lo hi : Option K} {c c2 : BNode K V} {cs : List (BNode K V)} :
    wfCh lo hi [] (c :: c2 :: cs) = false := rfl

lemma wfCh_cons_nil {lo hi : Option K} {i : K} {ivs : List K} :
    wfCh lo hi (i :: ivs) ([] : List (BNode K V)) = false := rfl

lemma wfCh_cases {lo hi : Option K} {ivs : List K} {cs : List (BNode K V)}
    (h : wfCh lo hi ivs cs = true) :
    (∃ c, ivs = [] ∧ cs = [c] ∧ wfNode lo hi c = true) ∨
    (∃ i ivs2 c cs2, ivs = i :: ivs2 ∧ cs = c :: cs2 ∧ loLtB lo i = true ∧
      hiGtB hi i = true ∧ wfNode lo (some i) c = true ∧ wfCh (some i) hi ivs2 cs2 = true) := by
  cases ivs with
  | nil =>
    cases cs with
    | nil => rw [wfCh_nil_nil] at h; cases h
    | cons c cs2 =>
      cases cs2 with
      | nil => exact Or.inl ⟨c, rfl, rfl, by rwa [wfCh_single] at h⟩
      | cons c2 cs3 => rw [wfCh_nil_cons2] at h; cases h
  | cons i ivs2 =>
    cases cs with
    | nil => rw [wfCh_cons_nil] at h; cases h
    | cons c cs2 =>
      rw [wfCh_cons] at h
      simp only [Bool.and_eq_true] at h
      exact Or.inr ⟨i, ivs2, c, cs2, rfl, rfl, h.1.1.1, h.1.1.2, h.1.2, h.2⟩

lemma wfCh_length {lo hi : Option K} :
    ∀ {ivs : List K} {cs : List (BNode K V)},
      wfCh lo hi ivs cs = true → ivs.length + 1 = cs.length := by
  intro ivs
  induction ivs generalizing lo with
  | nil =>
    intro cs h
    rcases wfCh_cases h with ⟨c, _, rfl, _⟩ | ⟨_, _, _, _, hc, _, _⟩
    · rfl
    · cases hc
  | cons i ivs2 ih =>
    intro cs h
    rcases wfCh_cases h with ⟨c, hc, _, _⟩ | ⟨i2, ivs3, c, cs2, hiv, rfl, _, _, _, h2⟩
    · cases hc
    · cases hiv
      have := ih h2
      simp [← this]

/-! Bound-window comparison helpers. -/

lemma loLeB_of_loLtB {lo : Option K} {k : K} (h : loLtB lo k = true) : loLeB lo k = true := by
  cases lo with
  | none => rfl
  | some l =>
    simp only [loLtB, decide_eq_true_eq] at h
    simp [loLeB, le_of_lt h]

lemma loLeB_trans_le {lo : Option K} {a b : K} (h : loLeB lo a = true) (hab : a ≤ b) :
    loLeB lo b = true := by
  cases lo with
  | none => rfl
  | some l =>
    simp only [loLeB, decide_eq_true_eq] at h ⊢
    exact le_trans h hab

lemma loLtB_trans_le {lo : Option K} {a b : K} (h : loLtB lo a = true) (hab : a ≤ b) :
    loLtB lo b = true := by
  cases lo with
  | none => rfl
  | some l =>
    simp only [loLtB, decide_eq_true_eq] at h ⊢
    exact lt_of_lt_of_le h hab

lemma loLtB_of_loLeB_lt {lo : Option K} {a b : K} (h : loLeB lo a = true) (hab : a < b) :
    loLtB lo b = true := by
  cases lo with
  | none => rfl
  | some l =>
    simp only [loLeB, decide_eq_true_eq] at h
    simp only [loLtB, decide_eq_true_eq]
    exact lt_of_le_of_lt h hab

lemma hiGtB_trans_le {hi : Option K} {a b : K} (h : hiGtB hi a = true) (hba : b ≤ a) :
    hiGtB hi b = true := by
  cases hi with
  | none => rfl
  | some x =>
    simp only [hiGtB, decide_eq_true_eq] at h ⊢
    exact lt_of_le_of_lt hba h

lemma hiGtB_trans_lt {hi : Option K} {a b : K} (h : hiGtB hi a = true) (hba : b < a) :
    hiGtB hi b = true :=
  hiGtB_trans_le h (le_of_lt hba)

/-! Window monotonicity: a node well-formed in a window is well-formed in any
wider window. `loW lo2 lo` means `lo2` is a lower bound no stronger than
`lo`; `hiW hi2 hi` likewise for upper bounds. -/

/-- `lo2` is a weaker-or-equal lower bound than `lo`. -/
def loW : Option K → Option K → Prop
  | none, _ => True
  | some a, some b => a ≤ b
  | some _, none => False

/-- `hi2` is a weaker-or-equal upper bound than `hi`. -/
def hiW : Option K → Option K → Prop
  | none, _ => True
  | some a, some b => b ≤ a
  | some _, none => False

lemma loW_refl (lo : Option K) : loW lo lo := by
  cases lo <;> simp [loW]

lemma hiW_refl (hi : Option K) : hiW hi hi := by
  cases hi <;> simp [hiW]

lemma loLeB_of_loW {lo2 lo : Option K} {k : K} (hw : loW lo2 lo) (h : loLeB lo k = true) :
    loLeB lo2 k = true := by
  cases lo2 with
  | none => rfl
  | some a =>
    cases lo with
    | none => exact absurd hw (by simp [loW])
    | some b =>
      simp only [loW] at hw
      simp only [loLeB, decide_eq_true_eq] at h ⊢
      exact le_trans hw h

lemma loLtB_of_loW {lo2 lo : Option K} {k : K} (hw : loW lo2 lo) (h : loLtB lo k = true) :
    loLtB lo2 k = true := by
  cases lo2 with
  | none => rfl
  | some a =>
    cases lo with
    | none => exact absurd hw (by simp [loW])
    | some b =>
      simp only [loW] at hw
      simp only [loLtB, decide_eq_true_eq] at h ⊢
      exact lt_of_le_of_lt hw h

lemma hiGtB_of_hiW {hi2 hi : Option K} {k : K} (hw : hiW hi2 hi) (h : hiGtB hi k = true) :
    hiGtB hi2 k = true := by
  cases hi2 with
  | none => rfl
  | some a =>
    cases hi with
    | none => exact absurd hw (by simp [hiW])
    | some b =>
      simp only [hiW] at hw
      simp only [hiGtB, decide_eq_true_eq] at h ⊢
      exact lt_of_lt_of_le h hw

mutual

theorem wf_mono : ∀ (t : BNode K V) {lo hi lo2 hi2 : Option K},
    wfNode lo hi t = true → loW lo2 lo → hiW hi2 hi → wfNode lo2 hi2 t = true
  | .leaf es, lo, hi, lo2, hi2, h, hwl, hwh => by
    rw [wfNode] at h ⊢
    simp only [Bool.and_eq_true, List.all_eq_true] at h ⊢
    refine ⟨h.1, fun e he => ?_⟩
    have := h.2 e he
    simp only [inB, Bool.and_eq_true] at this ⊢
    exact ⟨loLeB_of_loW hwl this.1, hiGtB_of_hiW hwh this.2⟩
  | .branch ivs cs, lo, hi, lo2, hi2, h, hwl, hwh => by
    rw [wfNode] at h ⊢
    exact wfCh_mono ivs cs h hwl hwh

theorem wfCh_mono : ∀ (ivs : List K) (cs : List (BNode K V)) {lo hi lo2 hi2 : Option K},
    wfCh lo hi ivs cs = true → loW lo2 lo → hiW hi2 hi → wfCh lo2 hi2 ivs cs = true
  | [], cs, lo, hi, lo2, hi2, h, hwl, hwh => by
    rcases wfCh_cases h with ⟨c, _, rfl, hc⟩ | ⟨_, _, _, _, hc, _, _⟩
    · rw [wfCh_single]
      exact wf_mono c hc hwl hwh
    · cases hc
  | i :: ivs2, cs, lo, hi, lo2, hi2, h, hwl, hwh => by
    rcases wfCh_cases h with ⟨c, hc, _, _⟩ | ⟨i2, ivs3, c, cs2, hiv, rfl, h1, h2, h3, h4⟩
    · cases hc
    · cases hiv
      rw [wfCh_cons]
      simp only [Bool.and_eq_true]
      refine ⟨⟨⟨loLtB_of_loW hwl h1, hiGtB_of_hiW hwh h2⟩, wf_mono c h3 hwl (hiW_refl _)⟩, ?_⟩
      exact wfCh_mono ivs2 cs2 h4 (loW_refl _) hwh

end

mutual

theorem wf_bounds : ∀ (t : BNode K V) {lo hi : Option K}, wfNode lo hi t = true →
    ∀ e ∈ t.toList, loLeB lo e.1 = true ∧ hiGtB hi e.1 = true
  | .leaf es, lo, hi, h, e, he => by
    rw [wfNode] at h
    simp only [Bool.and_eq_true, List.all_eq_true] at h
    have := h.2 e (by rwa [BNode.toList] at he)
    simpa [inB, Bool.and_eq_true] using this
  | .branch ivs cs, lo, hi, h, e, he => by
    rw [wfNode] at h
    rw [BNode.toList] at he
    exact wfCh_bounds ivs cs h e he

theorem wfCh_bounds : ∀ (ivs : List K) (cs : List (BNode K V)) {lo hi : Option K},
    wfCh lo hi ivs cs = true →
    ∀ e ∈ toListCh cs, loLeB lo e.1 = true ∧ hiGtB hi e.1 = true
  | [], cs, lo, hi, h, e, he => by
    rcases wfCh_cases h with ⟨c, _, rfl, hc⟩ | ⟨_, _, _, _, hc, _, _⟩
    · rw [toListCh, toListCh] at he
      rw [List.append_nil] at he
      exact wf_bounds c hc e he
    · cases hc
  | i :: ivs2, cs, lo, hi, h, e, he => by
    rcases wfCh_cases h with ⟨c, hc, _, _⟩ | ⟨i2, ivs3, c, cs2, hiv, rfl, h1, h2, h3, h4⟩
    · cases hc
    · cases hiv
      rw [toListCh] at he
      rcases List.mem_append.mp he with hin | hin
      · obtain ⟨hl, hh⟩ := wf_bounds c h3 e hin
        refine ⟨hl, ?_⟩
        cases hi with
        | none => rfl
        | some x =>
          simp only [hiGtB, decide_eq_true_eq] at hh h2 ⊢
          exact lt_trans hh h2
      · obtain ⟨hl, hh⟩ := wfCh_bounds ivs2 cs2 h4 e hin
        refine ⟨?_, hh⟩
        cases lo with
        | none => rfl
        | some x =>
          simp only [loLeB, decide_eq_true_eq] at hl ⊢
          simp only [loLtB, decide_eq_true_eq] at h1
          exact le_trans (le_of_lt h1) hl

end

mutual

theorem wf_sorted : ∀ (t : BNode K V) {lo hi : Option K}, wfNode lo hi t = true →
    t.toList.Pairwise fun a b => a.1 < b.1
  | .leaf es, lo, hi, h => by
    rw [wfNode] at h
    simp only [Bool.and_eq_true] at h
    rw [BNode.toList]
    exact ascKeys_iff.mp h.1
  | .branch ivs cs, lo, hi, h => by
    rw [wfNode] at h
    rw [BNode.toList]
    exact wfCh_sorted ivs cs h

theorem wfCh_sorted : ∀ (ivs : List K) (cs : List (BNode K V)) {lo hi : Option K},
    wfCh lo hi ivs cs = true → (toListCh cs).Pairwise fun a b => a.1 < b.1
  | [], cs, lo, hi, h => by
    rcases wfCh_cases h with ⟨c, _, rfl, hc⟩ | ⟨_, _, _, _, hc, _, _⟩
    · rw [toListCh, toListCh, List.append_nil]
      exact wf_sorted c hc
    · cases hc
  | i :: ivs2, cs, lo, hi, h => by
    rcases wfCh_cases h with ⟨c, hc, _, _⟩ | ⟨i2, ivs3, c, cs2, hiv, rfl, h1, h2, h3, h4⟩
    · cases hc
    · cases hiv
      rw [toListCh]
      rw [List.pairwise_append]
      refine ⟨wf_sorted c h3, wfCh_sorted ivs2 cs2 h4, ?_⟩
      intro a ha b hb
      have hha := (wf_bounds c h3 a ha).2
      have hhb := (wfCh_bounds ivs2 cs2 h4 b hb).1
      simp only [hiGtB, decide_eq_true_eq] at hha
      simp only [loLeB, decide_eq_true_eq] at hhb
      exact lt_of_lt_of_le hha hhb

end

mutual

theorem ne_toList : ∀ (t : BNode K V) {lo hi : Option K},
    wfNode lo hi t = true → neB t = true → t.toList ≠ []
  | .leaf es, lo, hi, _, hne => by
    rw [neB] at hne
    rw [BNode.toList]
    simpa using hne
  | .branch ivs cs, lo, hi, h, hne => by
    rw [wfNode] at h
    rw [neB] at hne
    rw [BNode.toList]
    exact neCh_toList ivs cs h hne

theorem neCh_toList : ∀ (ivs : List K) (cs : List (BNode K V)) {lo hi : Option K},
    wfCh lo hi ivs cs = true → neChB cs = true → toListCh cs ≠ []
  | [], cs, lo, hi, h, hne => by
    rcases wfCh_cases h with ⟨c, _, rfl, hc⟩ | ⟨_, _, _, _, hc, _, _⟩
    · rw [neChB, Bool.and_eq_true] at hne
      rw [toListCh, toListCh, List.append_nil]
      exact ne_toList c hc hne.1
    · cases hc
  | i :: ivs2, cs, lo, hi, h, hne => by
    rcases wfCh_cases h with ⟨c, hc, _, _⟩ | ⟨i2, ivs3, c, cs2, hiv, rfl, h1, h2, h3, h4⟩
    · cases hc
    · cases hiv
      rw [neChB, Bool.and_eq_true] at hne
      rw [toListCh]
      intro hcon
      exact ne_toList c h3 hne.1 (List.append_eq_nil.mp hcon).1

end

mutual

theorem first_eq_head : ∀ (t : BNode K V) {lo hi : Option K},
    wfNode lo hi t = true → neB t = true → t.first = t.toList.head?
  | .leaf es, lo, hi, _, _ => by
    rw [BNode.first, BNode.toList]
  | .branch ivs cs, lo, hi, h, hne => by
    rw [wfNode] at h
    rw [neB] at hne
    rw [BNode.toList]
    exact firstCh_eq_head ivs cs h hne

theorem firstCh_eq_head : ∀ (ivs : List K) (cs : List (BNode K V)) {lo hi : Option K},
    wfCh lo hi ivs cs = true → neChB cs = true →
    (BNode.branch ivs cs).first = (toListCh cs).head?
  | [], cs, lo, hi, h, hne => by
    rcases wfCh_cases h with ⟨c, _, rfl, hc⟩ | ⟨_, _, _, _, hc, _, _⟩
    · rw [neChB, Bool.and_eq_true] at hne
      rw [BNode.first, toListCh, toListCh, List.append_nil]
      exact first_eq_head c hc hne.1
    · cases hc
  | i :: ivs2, cs, lo, hi, h, hne => by
    rcases wfCh_cases h with ⟨c, hc, _, _⟩ | ⟨i2, ivs3, c, cs2, hiv, rfl, h1, h2, h3, h4⟩
    · cases hc
    · cases hiv
      rw [neChB, Bool.and_eq_true] at hne
      rw [BNode.first, toListCh]
      rw [first_eq_head c h3 hne.1]
      cases htl : (BNode.toList c) with
      | nil => exact absurd htl (ne_toList c h3 hne.1)
      | cons e tl => simp

end

mutual

theorem wf_strengthen_first : ∀ (t : BNode K V) {lo hi : Option K} {em : K × V},
    wfNode lo hi t = true → neB t = true → t.first = some em →
    wfNode (some em.1) hi t = true
  | .leaf es, lo, hi, em, h, hne, hf => by
    rw [wfNode] at h ⊢
    simp only [Bool.and_eq_true, List.all_eq_true] at h ⊢
    refine ⟨h.1, fun e he => ?_⟩
    have hb := h.2 e he
    simp only [inB, Bool.and_eq_true] at hb ⊢
    refine ⟨?_, hb.2⟩
    rw [BNode.first] at hf
    cases es with
    | nil => cases hf
    | cons e0 tl =>
      simp only [List.head?_cons, Option.some.injEq] at hf
      subst hf
      have hs := ascKeys_iff.mp h.1
      simp only [loLeB, decide_eq_true_eq]
      rcases List.mem_cons.mp he with rfl | hin
      · exact le_refl _
      · exact le_of_lt ((List.pairwise_cons.mp hs).1 e hin)
  | .branch ivs cs, lo, hi, em, h, hne, hf => by
    rw [wfNode] at h ⊢
    rw [neB] at hne
    exact wfCh_strengthen_first ivs cs h hne hf

theorem wfCh_strengthen_first :
    ∀ (ivs : List K) (cs : List (BNode K V)) {lo hi : Option K} {em : K × V},
      wfCh lo hi ivs cs = true → neChB cs = true →
      (BNode.branch ivs cs).first = some em → wfCh (some em.1) hi ivs cs = true
  | [], cs, lo, hi, em, h, hne, hf => by
    rcases wfCh_cases h with ⟨c, _, rfl, hc⟩ | ⟨_, _, _, _, hc, _, _⟩
    · rw [neChB, Bool.and_eq_true] at hne
      rw [BNode.first] at hf
      rw [wfCh_single]
      exact wf_strengthen_first c hc hne.1 hf
    · cases hc
  | i :: ivs2, cs, lo, hi, em, h, hne, hf => by
    rcases wfCh_cases h with ⟨c, hc, _, _⟩ | ⟨i2, ivs3, c, cs2, hiv, rfl, h1, h2, h3, h4⟩
    · cases hc
    · cases hiv
      rw [neChB, Bool.and_eq_true] at hne
      rw [BNode.first] at hf
      have hcwf := wf_strengthen_first c h3 hne.1 hf
      have hmem : em ∈ c.toList := by
        rw [first_eq_head c h3 hne.1] at hf
        exact List.mem_of_mem_head? hf
      have hemi : em.1 < i := by
        have := (wf_bounds c h3 em hmem).2
        simpa [hiGtB] using this
      rw [wfCh_cons]
      simp only [Bool.and_eq_true]
      refine ⟨⟨⟨?_, h2⟩, hcwf⟩, h4⟩
      simp [loLtB, hemi]

end

/-! Decomposition of a branch frame at an interval position. -/

lemma wfCh_interval_bounds {lo hi : Option K} :
    ∀ {ivs : List K} {cs : List (BNode K V)}, wfCh lo hi ivs cs = true →
      ∀ j (hj : j < ivs.length), loLtB lo (ivs[j]) = true ∧ hiGtB hi (ivs[j]) = true := by
  intro ivs
  induction ivs generalizing lo with
  | nil => intro cs h j hj; simp at hj
  | cons i ivs2 ih =>
    intro cs h j hj
    rcases wfCh_cases h with ⟨c, hc, _, _⟩ | ⟨i2, ivs3, c, cs2, hiv, rfl, h1, h2, h3, h4⟩
    · cases hc
    · cases hiv
      cases j with
      | zero => exact ⟨h1, h2⟩
      | succ n =>
        simp only [List.length_cons] at hj
        have := ih h4 n (by omega)
        simp only [List.getElem_cons_succ]
        refine ⟨?_, this.2⟩
        have h0 := this.1
        cases lo with
        | none => rfl
        | some x =>
          simp only [loLtB, decide_eq_true_eq] at h0 h1 ⊢
          exact lt_trans h1 h0

lemma wfCh_take : ∀ (j : Nat) (ivs : List K) (cs : List (BNode K V)) {lo hi : Option K},
    wfCh lo hi ivs cs = true → ∀ hj : j < ivs.length,
    wfCh lo (some (ivs[j])) (ivs.take j) (cs.take (j + 1)) = true := by
  intro j
  induction j with
  | zero =>
    intro ivs cs lo hi h hj
    rcases wfCh_cases h with ⟨c, rfl, _, _⟩ | ⟨i, ivs2, c, cs2, rfl, rfl, h1, h2, h3, h4⟩
    · simp at hj
    · simp only [List.take_zero, List.take_succ_cons, List.getElem_cons_zero]
      rw [wfCh_single]
      exact h3
  | succ n ih =>
    intro ivs cs lo hi h hj
    rcases wfCh_cases h with ⟨c, rfl, _, _⟩ | ⟨i, ivs2, c, cs2, rfl, rfl, h1, h2, h3, h4⟩
    · simp at hj
    · simp only [List.length_cons] at hj
      have hj2 : n < ivs2.length := by omega
      simp only [List.take_succ_cons, List.getElem_cons_succ]
      rw [wfCh_cons]
      simp only [Bool.and_eq_true]
      have hlt := (wfCh_interval_bounds h4 n hj2).1
      refine ⟨⟨⟨h1, ?_⟩, h3⟩, ih ivs2 cs2 h4 hj2⟩
      simp only [loLtB, decide_eq_true_eq] at hlt
      simp [hiGtB, hlt]

lemma wfCh_drop : ∀ (j : Nat) (ivs : List K) (cs : List (BNode K V)) {lo hi : Option K},
    wfCh lo hi ivs cs = true → ∀ hj : j < ivs.length,
    wfCh (some (ivs[j])) hi (ivs.drop (j + 1)) (cs.drop (j + 1)) = true := by
  intro j
  induction j with
  | zero =>
    intro ivs cs lo hi h hj
    rcases wfCh_cases h with ⟨c, rfl, _, _⟩ | ⟨i, ivs2, c, cs2, rfl, rfl, h1, h2, h3, h4⟩
    · simp at hj
    · simpa using h4
  | succ n ih =>
    intro ivs cs lo hi h hj
    rcases wfCh_cases h with ⟨c, rfl, _, _⟩ | ⟨i, ivs2, c, cs2, rfl, rfl, h1, h2, h3, h4⟩
    · simp at hj
    · simp only [List.length_cons] at hj
      simpa using ih ivs2 cs2 h4 (by omega)

lemma toListCh_append (a b : List (BNode K V)) :
    toListCh (a ++ b) = toListCh a ++ toListCh b := by
  induction a with
  | nil => simp [toListCh]
  | cons c cs ih =>
    rw [List.cons_append, toListCh, toListCh, ih, List.append_assoc]

lemma wfCh_ivs_sorted {lo hi : Option K} {ivs : List K} {cs : List (BNode K V)}
    (h : wfCh lo hi ivs cs = true) : ivs.Pairwise (· < ·) := by
  rw [List.pairwise_iff_getElem]
  intro a b ha hb hab
  have hd := wfCh_drop a ivs cs h ha
  have hlen : b - a - 1 < (ivs.drop (a + 1)).length := by
    rw [List.length_drop]
    omega
  have hb2 := (wfCh_interval_bounds hd (b - a - 1) hlen).1
  rw [List.getElem_drop] at hb2
  simp only [show a + 1 + (b - a - 1) = b from by omega] at hb2
  simpa [loLtB] using hb2

lemma neChB_all {cs : List (BNode K V)} :
    neChB cs = true ↔ ∀ c ∈ cs, neB c = true := by
  induction cs with
  | nil => simp [neChB]
  | cons c cs2 ih =>
    rw [neChB, Bool.and_eq_true, ih]
    constructor
    · rintro ⟨h1, h2⟩ x hx
      rcases List.mem_cons.mp hx with rfl | hx
      · exact h1
      · exact h2 x hx
    · intro h
      exact ⟨h c (by simp), fun x hx => h x (by simp [hx])⟩

lemma insUpd_ne_nil (k : K) (v : V) (es : List (K × V)) : insUpd k v es ≠ [] := by
  cases es with
  | nil => simp [insUpd]
  | cons e l =>
    rw [insUpd]
    split_ifs <;> simp

mutual

theorem get_spec : ∀ (t : BNode K V) {lo hi : Option K} (k : K),
    wfNode lo hi t = true → t.get k = some (lookupKV t.toList k)
  | .leaf es, lo, hi, k, h => by
    rw [wfNode] at h
    simp only [Bool.and_eq_true] at h
    have hs := ascKeys_iff.mp h.1
    rw [BNode.get, BNode.toList]
    cases hbs : binSearch es k with
    | inl i =>
      obtain ⟨hi2, hk⟩ := binSearch_inl hs hbs
      show (match es[i]? with
        | some e => some (some e.2)
        | none => none) = some (lookupKV es k)
      rw [List.getElem?_eq_getElem hi2]
      rw [lookupKV_getElem hs hi2 hk]
    | inr j =>
      obtain ⟨_, hnone⟩ := binSearch_inr hs hbs
      show (some none : Option (Option V)) = some (lookupKV es k)
      rw [lookupKV_eq_none fun e he => hnone e he]
  | .branch ivs cs, lo, hi, k, h => by
    rw [wfNode] at h
    rw [BNode.get, BNode.toList]
    rw [find_idx_eq_rank (wfCh_ivs_sorted h)]
    exact getCh_spec ivs cs k h

theorem getCh_spec : ∀ (ivs : List K) (cs : List (BNode K V)) {lo hi : Option K} (k : K),
    wfCh lo hi ivs cs = true →
    getChild cs (rank k ivs) k = some (lookupKV (toListCh cs) k)
  | [], cs, lo, hi, k, h => by
    rcases wfCh_cases h with ⟨c, _, rfl, hc⟩ | ⟨_, _, _, _, hcon, _, _⟩
    · rw [show rank k ([] : List K) = 0 from rfl]
      rw [show getChild [c] 0 k = c.get k from rfl]
      rw [toListCh, toListCh, List.append_nil]
      exact get_spec c k hc
    · cases hcon
  | i :: ivs2, cs, lo, hi, k, h => by
    rcases wfCh_cases h with ⟨c, hcon, _, _⟩ | ⟨i2, ivs3, c, cs2, hiv, rfl, h1, h2, h3, h4⟩
    · cases hcon
    · cases hiv
      rw [toListCh]
      by_cases hik : i ≤ k
      · rw [show rank k (i :: ivs2) = rank k ivs2 + 1 from by rw [rank, if_pos hik]]
        rw [show getChild (c :: cs2) (rank k ivs2 + 1) k = getChild cs2 (rank k ivs2) k from rfl]
        rw [getCh_spec ivs2 cs2 k h4]
        rw [lookupKV_append_right]
        intro e he
        have := (wf_bounds c h3 e he).2
        simp only [hiGtB, decide_eq_true_eq] at this
        exact ne_of_lt (lt_of_lt_of_le this hik)
      · rw [show rank k (i :: ivs2) = 0 from by rw [rank, if_neg hik]]
        rw [show getChild (c :: cs2) 0 k = c.get k from rfl]
        rw [get_spec c k h3]
        rw [lookupKV_append_left]
        intro e he
        have := (wfCh_bounds ivs2 cs2 h4 e he).1
        simp only [loLeB, decide_eq_true_eq] at this
        have : k < e.1 := lt_of_lt_of_le (not_le.mp hik) this
        exact (ne_of_lt this).symm

end

lemma take_eraseIdx_last {α : Type} (l : List α) (n : Nat) (hn : 1 ≤ n) :
    (l.take n).eraseIdx (n - 1) = l.take (n - 1) := by
  rw [List.eraseIdx_eq_take_drop_succ, List.take_take, min_eq_left (by omega)]
  rw [show n - 1 + 1 = n from by omega, List.drop_take]
  simp

lemma split_wf {c' : BNode K V} {lo hi : Option K}
    (h : wfNode lo hi c' = true) (hne : neB c' = true) (hlen : 2 ≤ c'.len) :
    ∃ cl cr em, c'.split = some (cl, cr) ∧ cr.first = some em ∧
      wfNode lo (some em.1) cl = true ∧ wfNode (some em.1) hi cr = true ∧
      neB cl = true ∧ neB cr = true ∧
      cl.toList ++ cr.toList = c'.toList ∧
      loLtB lo em.1 = true ∧ hiGtB hi em.1 = true ∧ em ∈ cr.toList := by
  cases c' with
  | leaf es =>
    rw [BNode.len] at hlen
    rw [wfNode, Bool.and_eq_true] at h
    have hs := ascKeys_iff.mp h.1
    have hbd : ∀ e ∈ es, loLeB lo e.1 = true ∧ hiGtB hi e.1 = true := by
      intro e he
      have := (List.all_eq_true.mp h.2) e he
      simpa [inB, Bool.and_eq_true] using this
    set hf : Nat := es.length / 2 with hhf
    have hf1 : 1 ≤ hf := by omega
    have hflen : hf < es.length := by omega
    have hdropc : es.drop hf = es[hf] :: es.drop (hf + 1) := List.drop_eq_getElem_cons hflen
    refine ⟨.leaf (es.take hf), .leaf (es.drop hf), es[hf], rfl, ?_, ?_, ?_, ?_, ?_, ?_, ?_, ?_, ?_⟩
    · rw [BNode.first, hdropc]
      rfl
    · rw [wfNode, Bool.and_eq_true]
      constructor
      · exact ascKeys_iff.mpr (hs.sublist (List.take_sublist hf es))
      · rw [List.all_eq_true]
        intro e he
        obtain ⟨j, hj, rfl⟩ := List.getElem_of_mem he
        have hj2 : j < hf := by
          rw [List.length_take] at hj
          omega
        have hjeq : (es.take hf)[j] = es[j] := by
          rw [List.getElem_take]
        have hjlt : es[j].1 < es[hf].1 :=
          List.pairwise_iff_getElem.mp hs j hf (by omega) hflen hj2
        have hlo := (hbd (es[j]) (List.getElem_mem (by omega))).1
        simp only [inB, Bool.and_eq_true, hjeq]
        refine ⟨hlo, ?_⟩
        simp only [hiGtB, decide_eq_true_eq]
        exact hjlt
    · rw [wfNode, Bool.and_eq_true]
      constructor
      · exact ascKeys_iff.mpr (hs.sublist (List.drop_sublist hf es))
      · rw [List.all_eq_true]
        intro e he
        obtain ⟨j, hj, rfl⟩ := List.getElem_of_mem he
        have hj2 : j < es.length - hf := by
          rw [List.length_drop] at hj
          omega
        have hjeq : (es.drop hf)[j] = es[hf + j] := by
          rw [List.getElem_drop]
        have hjge : es[hf].1 ≤ es[hf + j].1 := by
          rcases Nat.eq_zero_or_pos j with rfl | hj0
          · simp
          · exact le_of_lt (List.pairwise_iff_getElem.mp hs hf (hf + j) hflen
              (by omega) (by omega))
        have hhi := (hbd (es[hf + j]) (List.getElem_mem (by omega))).2
        simp only [inB, Bool.and_eq_true, hjeq]
        refine ⟨?_, hhi⟩
        simp only [loLeB, decide_eq_true_eq]
        exact hjge
    · rw [neB]
      have h1 : es.take hf ≠ [] := by
        intro hcon
        have := congrArg List.length hcon
        rw [List.length_take, List.length_nil] at this
        omega
      simpa using h1
    · rw [neB]
      have h1 : es.drop hf ≠ [] := by
        intro hcon
        have := congrArg List.length hcon
        rw [List.length_drop, List.length_nil] at this
        omega
      simpa using h1
    · rw [BNode.toList, BNode.toList, BNode.toList]
      exact List.take_append_drop hf es
    · have h0 := hbd (es[0]) (List.getElem_mem (by omega))
      have h0f : es[0].1 < es[hf].1 :=
        List.pairwise_iff_getElem.mp hs 0 hf (by omega) hflen (by omega)
      exact loLtB_of_loLeB_lt h0.1 h0f
    · exact (hbd (es[hf]) (List.getElem_mem hflen)).2
    · show es[hf] ∈ es.drop hf
      rw [hdropc]
      exact List.mem_cons_self _ _
  | branch ivs cs =>
    rw [BNode.len] at hlen
    rw [wfNode] at h
    rw [neB] at hne
    have hlenr := wfCh_length h
    set ch : Nat := cs.length / 2 with hch
    have hch1 : 1 ≤ ch := by omega
    have hchlt : ch < cs.length := by omega
    have hih : ch - 1 < ivs.length := by omega
    have hguard : ch - 1 < (ivs.take (ch - 1 + 1)).length := by
      rw [List.length_take]
      omega
    have hsplit : BNode.split (.branch ivs cs) = some
        (.branch ((ivs.take (ch - 1 + 1)).eraseIdx (ch - 1)) (cs.take ch),
         .branch (ivs.drop (ch - 1 + 1)) (cs.drop ch)) := by
      rw [BNode.split]
      simp only [← hch]
      rw [if_neg (by omega), if_pos hguard]
    have hch0 : ch - 1 + 1 = ch := by omega
    have hivch : (ivs.take (ch - 1 + 1)).eraseIdx (ch - 1) = ivs.take (ch - 1) :=
      take_eraseIdx_last ivs (ch - 1 + 1) (by omega)
    have hwl : wfCh lo (some (ivs[ch - 1])) (ivs.take (ch - 1)) (cs.take ch) = true := by
      have := wfCh_take (ch - 1) ivs cs h hih
      rwa [hch0] at this
    have hwr : wfCh (some (ivs[ch - 1])) hi (ivs.drop ch) (cs.drop ch) = true := by
      have := wfCh_drop (ch - 1) ivs cs h hih
      rwa [hch0] at this
    have hner : neChB (cs.drop ch) = true := by
      rw [neChB_all]
      intro c hc
      exact neChB_all.mp hne c (List.mem_of_mem_drop hc)
    have hnel : neChB (cs.take ch) = true := by
      rw [neChB_all]
      intro c hc
      exact neChB_all.mp hne c (List.mem_of_mem_take hc)
    have hdlen : (cs.drop ch).length = cs.length - ch := List.length_drop _ _
    have hdivlen : (ivs.drop ch).length + 1 = (cs.drop ch).length := by
      rw [List.length_drop, List.length_drop]
      omega
    -- the right half is a well-formed branch frame, so it has a first entry
    have hfr : ∃ em, (BNode.branch (ivs.drop ch) (cs.drop ch)).first = some em := by
      have hhd := firstCh_eq_head (ivs.drop ch) (cs.drop ch) hwr hner
      have hnl := neCh_toList (ivs.drop ch) (cs.drop ch) hwr hner
      cases htl : toListCh (cs.drop ch) with
      | nil => exact absurd htl hnl
      | cons e tl =>
        refine ⟨e, ?_⟩
        rw [hhd, htl]
        rfl
    obtain ⟨em, hem⟩ := hfr
    have hmem : em ∈ toListCh (cs.drop ch) := by
      have hhd := firstCh_eq_head (ivs.drop ch) (cs.drop ch) hwr hner
      rw [hhd] at hem
      exact List.mem_of_mem_head? hem
    have hembd := wfCh_bounds (ivs.drop ch) (cs.drop ch) hwr em hmem
    have hstr : wfCh (some em.1) hi (ivs.drop ch) (cs.drop ch) = true :=
      wfCh_strengthen_first (ivs.drop ch) (cs.drop ch) hwr hner hem
    have hweak : wfCh lo (some em.1) (ivs.take (ch - 1)) (cs.take ch) = true := by
      refine wfCh_mono _ _ hwl (loW_refl _) ?_
      simp only [hiW]
      simpa [loLeB] using hembd.1
    refine ⟨.branch (ivs.take (ch - 1)) (cs.take ch),
      .branch (ivs.drop ch) (cs.drop ch), em, ?_, ?_, ?_, ?_, ?_, ?_, ?_, ?_, ?_, ?_⟩
    · rw [hsplit, hivch, hch0]
    · exact hem
    · rw [wfNode]
      exact hweak
    · rw [wfNode]
      exact hstr
    · rw [neB]
      exact hnel
    · rw [neB]
      exact hner
    · rw [BNode.toList, BNode.toList, BNode.toList]
      rw [← toListCh_append, List.take_append_drop]
    · -- the left half is nonempty and its keys sit strictly below em.1
      have hnltl := neCh_toList (ivs.take (ch - 1)) (cs.take ch) hweak hnel
      cases htl : toListCh (cs.take ch) with
      | nil => exact absurd htl hnltl
      | cons e0 tl =>
        have he0 : e0 ∈ toListCh (cs.take ch) := by rw [htl]; simp
        have hb0 := wfCh_bounds (ivs.take (ch - 1)) (cs.take ch) hweak e0 he0
        have hlt0 : e0.1 < em.1 := by
          have := hb0.2
          simpa [hiGtB] using this
        exact loLtB_of_loLeB_lt hb0.1 hlt0
    · simpa [hiGtB] using hembd.2
    · exact hmem

lemma splitChildStep_cons {i : K} {ivs : List K} {c : BNode K V} {cs : List (BNode K V)}
    {idx : Nat} {c' : BNode K V} :
    splitChildStep (i :: ivs) (c :: cs) (idx + 1) c' =
      (splitChildStep ivs cs idx c').map fun p => (i :: p.1, c :: p.2) := by
  by_cases hmax : MAX_ITEMS_IN_NODE < c'.len
  · cases hsp : c'.split with
    | none =>
      rw [splitChildStep, splitChildStep, if_pos hmax, if_pos hmax]
      simp only [hsp]
      rfl
    | some pr =>
      obtain ⟨cl, cr⟩ := pr
      cases hfr : cr.first with
      | none =>
        rw [splitChildStep, splitChildStep, if_pos hmax, if_pos hmax]
        simp only [hsp, hfr]
        rfl
      | some em =>
        obtain ⟨m, mv⟩ := em
        rw [splitChildStep, splitChildStep, if_pos hmax, if_pos hmax]
        simp only [hsp, hfr]
        by_cases hg : idx ≤ ivs.length ∧ idx + 1 ≤ cs.length
        · rw [if_pos hg, if_pos (show idx + 1 ≤ (i :: ivs).length ∧
              idx + 1 + 1 ≤ (c :: cs).length by
            simp only [List.length_cons]
            omega)]
          simp [List.insertIdx_succ_cons, List.set_cons_succ]
        · rw [if_neg hg, if_neg (show ¬(idx + 1 ≤ (i :: ivs).length ∧
              idx + 1 + 1 ≤ (c :: cs).length) by
            simp only [List.length_cons]
            omega)]
          rfl
  · rw [splitChildStep, splitChildStep, if_neg hmax, if_neg hmax]
    simp [List.set_cons_succ]

lemma wf_leaf_insUpd {es : List (K × V)} {lo hi : Option K} {k : K} {v : V}
    (h : wfNode lo hi (.leaf es) = true) (hlok : loLeB lo k = true)
    (hhik : hiGtB hi k = true) : wfNode lo hi (.leaf (insUpd k v es)) = true := by
  rw [wfNode, Bool.and_eq_true] at h ⊢
  have hs := ascKeys_iff.mp h.1
  have hbd := List.all_eq_true.mp h.2
  refine ⟨ascKeys_iff.mpr (insUpd_pairwise hs), List.all_eq_true.mpr fun e he => ?_⟩
  rcases mem_insUpd_key e he with hek | ⟨e2, he2, hee⟩
  · rw [inB, Bool.and_eq_true, hek]
    exact ⟨hlok, hhik⟩
  · have := hbd e2 he2
    rw [inB, Bool.and_eq_true, hee]
    rw [inB, Bool.and_eq_true] at this
    exact this

mutual

theorem insert_spec : ∀ (t : BNode K V) {lo hi : Option K} (k : K) (v : V),
    wfNode lo hi t = true → neB t = true →
    loLeB lo k = true → hiGtB hi k = true →
    ∃ t' prev, t.insert k v = some (t', prev) ∧
      wfNode lo hi t' = true ∧ neB t' = true ∧
      t'.toList = insUpd k v t.toList ∧
      prev = lookupKV t.toList k
  | .leaf es, lo, hi, k, v, h, _, hlok, hhik => by
    have hself := h
    rw [wfNode, Bool.and_eq_true] at h
    have hs := ascKeys_iff.mp h.1
    cases hbs : binSearch es k with
    | inl i =>
      obtain ⟨hi2, hk⟩ := binSearch_inl hs hbs
      have hset := set_eq_insUpd v hs hi2 hk
      refine ⟨.leaf (es.set i ((es[i]).1, v)), some (es[i]).2, ?_, ?_, ?_, ?_, ?_⟩
      · simp only [BNode.insert, hbs, List.getElem?_eq_getElem hi2]
      · rw [hset]
        exact wf_leaf_insUpd hself hlok hhik
      · rw [hset, neB]
        simpa using insUpd_ne_nil k v es
      · rw [BNode.toList, BNode.toList, hset]
      · rw [BNode.toList, lookupKV_getElem hs hi2 hk]
    | inr i =>
      obtain ⟨hrk, hnone⟩ := binSearch_inr hs hbs
      have hle : i ≤ es.length := by
        rw [hrk]
        exact rankLt_le_length k es
      have hins : es.insertIdx i (k, v) = insUpd k v es := by
        rw [hrk]
        exact insertIdx_rankLt_eq_insUpd v hnone
      refine ⟨.leaf (es.insertIdx i (k, v)), none, ?_, ?_, ?_, ?_, ?_⟩
      · simp only [BNode.insert, hbs, if_pos hle]
      · rw [hins]
        exact wf_leaf_insUpd hself hlok hhik
      · rw [hins, neB]
        simpa using insUpd_ne_nil k v es
      · rw [BNode.toList, BNode.toList, hins]
      · rw [BNode.toList, lookupKV_eq_none hnone]
  | .branch ivs cs, lo, hi, k, v, h, hne, hlok, hhik => by
    rw [wfNode] at h
    rw [neB] at hne
    have hlenr := wfCh_length h
    have hcsne : cs.isEmpty = false := by
      cases cs with
      | nil => simp at hlenr
      | cons a b => rfl
    obtain ⟨c', prev, ivs2, cs2, hic, hsc, hwf2, hne2, htl2, hprev, _⟩ :=
      insertCh_spec ivs cs k v h hne hlok hhik
    have hfind : find_idx_from_interval ivs k = rank k ivs :=
      find_idx_eq_rank (wfCh_ivs_sorted h) k
    by_cases hbig : MAX_ITEMS_IN_NODE < cs2.length
    · have hwn2 : wfNode lo hi (.branch ivs2 cs2) = true := by rwa [wfNode]
      have hnn2 : neB (.branch ivs2 cs2 : BNode K V) = true := by rwa [neB]
      obtain ⟨cl, cr, em, hsp, hfr, hwcl, hwcr, hnecl, hnecr, htlc, hlo2, hhi2, _⟩ :=
        split_wf hwn2 hnn2 (by
          have hb2 := hbig
          rw [show MAX_ITEMS_IN_NODE = 4 from rfl] at hb2
          rw [BNode.len]
          omega)
      obtain ⟨m, mv⟩ := em
      have hss : selfSplitStep ivs2 cs2 = some (.branch [m] [cl, cr]) := by
        rw [selfSplitStep, if_pos hbig]
        simp only [hsp, hfr]
      refine ⟨.branch [m] [cl, cr], prev, ?_, ?_, ?_, ?_, hprev⟩
      · simp only [BNode.insert, hcsne, Bool.false_eq_true, if_false, hfind, hic, hsc, hss]
      · rw [wfNode, wfCh_cons]
        simp only [Bool.and_eq_true]
        exact ⟨⟨⟨hlo2, hhi2⟩, hwcl⟩, by rw [wfCh_single]; exact hwcr⟩
      · rw [neB]
        rw [neChB, neChB, neChB]
        simp [hnecl, hnecr]
      · show toListCh [cl, cr] = insUpd k v (toListCh cs)
        rw [toListCh, toListCh, toListCh, List.append_nil, htlc]
        exact htl2
    · have hss : selfSplitStep ivs2 cs2 = some (.branch ivs2 cs2) := by
        rw [selfSplitStep, if_neg hbig]
      refine ⟨.branch ivs2 cs2, prev, ?_, ?_, ?_, ?_, hprev⟩
      · simp only [BNode.insert, hcsne, Bool.false_eq_true, if_false, hfind, hic, hsc, hss]
      · rw [wfNode]
        exact hwf2
      · rw [neB]
        exact hne2
      · show toListCh cs2 = insUpd k v (toListCh cs)
        exact htl2

theorem insertCh_spec : ∀ (ivs : List K) (cs : List (BNode K V)) {lo hi : Option K}
    (k : K) (v : V),
    wfCh lo hi ivs cs = true → neChB cs = true →
    loLeB lo k = true → hiGtB hi k = true →
    ∃ c' prev ivs2 cs2,
      insertChild cs (rank k ivs) k v = some (c', prev) ∧
      splitChildStep ivs cs (rank k ivs) c' = some (ivs2, cs2) ∧
      wfCh lo hi ivs2 cs2 = true ∧ neChB cs2 = true ∧
      toListCh cs2 = insUpd k v (toListCh cs) ∧
      prev = lookupKV (toListCh cs) k ∧
      cs2.length ≤ cs.length + 1
  | [], cs, lo, hi, k, v, h, hne, hlok, hhik => by
    rcases wfCh_cases h with ⟨c, _, rfl, hc⟩ | ⟨_, _, _, _, hcon, _, _⟩
    · rw [neChB, Bool.and_eq_true] at hne
      obtain ⟨c', prev, hins, hwf, hcne, htl, hprev⟩ := insert_spec c k v hc hne.1 hlok hhik
      rw [show rank k ([] : List K) = 0 from rfl]
      by_cases hbig : MAX_ITEMS_IN_NODE < c'.len
      · obtain ⟨cl, cr, em, hsp, hfr, hwcl, hwcr, hnecl, hnecr, htlc, hlo2, hhi2, _⟩ :=
          split_wf hwf hcne (by
            have hb2 := hbig
            rw [show MAX_ITEMS_IN_NODE = 4 from rfl] at hb2
            omega)
        obtain ⟨m, mv⟩ := em
        refine ⟨c', prev, [m], [cl, cr], ?_, ?_, ?_, ?_, ?_, ?_, ?_⟩
        · rw [show insertChild [c] 0 k v = c.insert k v from rfl, hins]
        · rw [splitChildStep, if_pos hbig]
          simp only [hsp, hfr]
          rw [if_pos (by constructor <;> simp)]
          rfl
        · rw [wfCh_cons]
          simp only [Bool.and_eq_true]
          exact ⟨⟨⟨hlo2, hhi2⟩, hwcl⟩, by rw [wfCh_single]; exact hwcr⟩
        · rw [neChB, neChB, neChB]
          simp [hnecl, hnecr]
        · rw [toListCh, toListCh, toListCh, List.append_nil, htlc, htl]
          rw [toListCh, toListCh, List.append_nil]
        · rw [hprev, toListCh, toListCh, List.append_nil]
        · simp
      · refine ⟨c', prev, [], [c'], ?_, ?_, ?_, ?_, ?_, ?_, ?_⟩
        · rw [show insertChild [c] 0 k v = c.insert k v from rfl, hins]
        · rw [splitChildStep, if_neg hbig]
          rfl
        · rw [wfCh_single]
          exact hwf
        · simp [neChB, hcne]
        · rw [toListCh, toListCh, List.append_nil, htl]
          rw [toListCh, toListCh, List.append_nil]
        · rw [hprev, toListCh, toListCh, List.append_nil]
        · simp
    · cases hcon
  | i :: ivs2, cs, lo, hi, k, v, h, hne, hlok, hhik => by
    rcases wfCh_cases h with ⟨c, hcon, _, _⟩ | ⟨i2, ivs3, c, cs3, hiv, rfl, h1, h2, h3, h4⟩
    · cases hcon
    · cases hiv
      rw [neChB, Bool.and_eq_true] at hne
      by_cases hik : i ≤ k
      · -- descend to the right of interval i
        have hrank : rank k (i :: ivs2) = rank k ivs2 + 1 := by rw [rank, if_pos hik]
        obtain ⟨c', prev, rivs, rcs, hic, hsc, hwf2, hne2, htl2, hprev, hlen2⟩ :=
          insertCh_spec ivs2 cs3 k v h4 hne.2 (by simp [loLeB, hik]) hhik
        have hcknek : ∀ e ∈ c.toList, e.1 ≠ k := by
          intro e he
          have := (wf_bounds c h3 e he).2
          simp only [hiGtB, decide_eq_true_eq] at this
          exact ne_of_lt (lt_of_lt_of_le this hik)
        refine ⟨c', prev, i :: rivs, c :: rcs, ?_, ?_, ?_, ?_, ?_, ?_, ?_⟩
        · rw [hrank]
          rw [show insertChild (c :: cs3) (rank k ivs2 + 1) k v =
            insertChild cs3 (rank k ivs2) k v from rfl]
          exact hic
        · rw [hrank, splitChildStep_cons, hsc]
          rfl
        · rw [wfCh_cons]
          simp only [Bool.and_eq_true]
          exact ⟨⟨⟨h1, h2⟩, h3⟩, hwf2⟩
        · rw [neChB]
          simp [hne.1, hne2]
        · rw [toListCh, toListCh, htl2]
          rw [insUpd_append_right]
          intro e he
          have := (wf_bounds c h3 e he).2
          simp only [hiGtB, decide_eq_true_eq] at this
          exact lt_of_lt_of_le this hik
        · rw [hprev, toListCh, lookupKV_append_right hcknek]
        · simp only [List.length_cons]
          omega
      · -- k goes into the head child
        have hrank : rank k (i :: ivs2) = 0 := by rw [rank, if_neg hik]
        have hki : k < i := not_le.mp hik
        obtain ⟨c', prev, hins, hwf, hcne, htl, hprev⟩ :=
          insert_spec c k v h3 hne.1 hlok (by simp [hiGtB, hki])
        have hrstne : ∀ e ∈ toListCh cs3, k < e.1 := by
          intro e he
          have := (wfCh_bounds ivs2 cs3 h4 e he).1
          simp only [loLeB, decide_eq_true_eq] at this
          exact lt_of_lt_of_le hki this
        by_cases hbig : MAX_ITEMS_IN_NODE < c'.len
        · obtain ⟨cl, cr, em, hsp, hfr, hwcl, hwcr, hnecl, hnecr, htlc, hlo2, hhi2, hmem⟩ :=
            split_wf hwf hcne (by
              have hb2 := hbig
              rw [show MAX_ITEMS_IN_NODE = 4 from rfl] at hb2
              omega)
          obtain ⟨m, mv⟩ := em
          have hemi : (m, mv).1 < i := by
            have hmem2 : (m, mv) ∈ c'.toList := by
              rw [← htlc]
              simp [hmem]
            rw [htl] at hmem2
            rcases mem_insUpd_key (m, mv) hmem2 with hek | ⟨e2, he2, hee⟩
            · rw [hek]
              exact hki
            · have := (wf_bounds c h3 e2 he2).2
              simp only [hiGtB, decide_eq_true_eq] at this
              rw [hee]
              exact this
          refine ⟨c', prev, m :: i :: ivs2, cl :: cr :: cs3, ?_, ?_, ?_, ?_, ?_, ?_, ?_⟩
          · rw [hrank]
            rw [show insertChild (c :: cs3) 0 k v = c.insert k v from rfl]
            exact hins
          · rw [hrank, splitChildStep, if_pos hbig]
            simp only [hsp, hfr]
            rw [if_pos (by constructor <;> simp)]
            rfl
          · rw [wfCh_cons]
            simp only [Bool.and_eq_true]
            refine ⟨⟨⟨hlo2, ?_⟩, hwcl⟩, ?_⟩
            · exact hiGtB_trans_lt h2 hemi
            · rw [wfCh_cons]
              simp only [Bool.and_eq_true]
              refine ⟨⟨⟨by simp [loLtB, hemi], h2⟩, hwcr⟩, h4⟩
          · rw [neChB, neChB]
            simp [hnecl, hnecr, hne.2]
          · show cl.toList ++ (cr.toList ++ toListCh cs3) =
              insUpd k v (c.toList ++ toListCh cs3)
            rw [← List.append_assoc, htlc, htl, insUpd_append_left hrstne]
          · rw [hprev, toListCh, lookupKV_append_left]
            intro e he
            exact (ne_of_lt (hrstne e he)).symm
          · simp only [List.length_cons]
            omega
        · refine ⟨c', prev, i :: ivs2, c' :: cs3, ?_, ?_, ?_, ?_, ?_, ?_, ?_⟩
          · rw [hrank]
            rw [show insertChild (c :: cs3) 0 k v = c.insert k v from rfl]
            exact hins
          · rw [hrank, splitChildStep, if_neg hbig]
            rfl
          · rw [wfCh_cons]
            simp only [Bool.and_eq_true]
            exact ⟨⟨⟨h1, h2⟩, hwf⟩, h4⟩
          · rw [neChB]
            simp [hcne, hne.2]
          · rw [toListCh, toListCh, htl, insUpd_append_left hrstne]
          · rw [hprev, toListCh, lookupKV_append_left]
            intro e he
            exact (ne_of_lt (hrstne e he)).symm
          · simp

end

/-! ## Remove machinery -/

lemma kindUniform_eq {cs : List (BNode K V)} (h : kindUniform cs = true)
    {a b : BNode K V} (ha : a ∈ cs) (hb : b ∈ cs) : isLeafB a = isLeafB b := by
  rw [kindUniform, Bool.or_eq_true, List.all_eq_true, List.all_eq_true] at h
  rcases h with h | h
  · rw [h a ha, h b hb]
  · have h1 := h a ha
    have h2 := h b hb
    simp only [Bool.not_eq_true'] at h1 h2
    rw [h1, h2]

lemma kindUniform_tail {c : BNode K V} {cs : List (BNode K V)}
    (h : kindUniform (c :: cs) = true) : kindUniform cs = true := by
  rw [kindUniform, Bool.or_eq_true, List.all_eq_true, List.all_eq_true] at h ⊢
  rcases h with h | h
  · exact Or.inl fun x hx => h x (List.mem_cons_of_mem c hx)
  · exact Or.inr fun x hx => h x (List.mem_cons_of_mem c hx)

lemma kindUniform_set {cs : List (BNode K V)} {idx : Nat} {c0 c' : BNode K V}
    (h : kindUniform cs = true) (hc : cs[idx]? = some c0)
    (hk : isLeafB c' = isLeafB c0) : kindUniform (cs.set idx c') = true := by
  have hmem : c0 ∈ cs := List.getElem?_mem hc
  rw [kindUniform, Bool.or_eq_true, List.all_eq_true, List.all_eq_true] at h ⊢
  rcases h with h | h
  · refine Or.inl fun x hx => ?_
    rcases List.mem_or_eq_of_mem_set hx with hx2 | heq
    · exact h x hx2
    · subst heq
      rw [hk]
      exact h c0 hmem
  · refine Or.inr fun x hx => ?_
    rcases List.mem_or_eq_of_mem_set hx with hx2 | heq
    · exact h x hx2
    · subst heq
      simp only [Bool.not_eq_true']
      rw [hk]
      simpa using h c0 hmem

lemma wf_leaf_eraseKV {es : List (K × V)} {lo hi : Option K} (k : K)
    (h : wfNode lo hi (.leaf es) = true) :
    wfNode lo hi (BNode.leaf (V := V) (eraseKV k es)) = true := by
  rw [wfNode, Bool.and_eq_true] at h ⊢
  refine ⟨ascKeys_iff.mpr
    (List.Pairwise.sublist (eraseKV_sublist k es) (ascKeys_iff.mp h.1)), ?_⟩
  exact List.all_eq_true.mpr fun e he =>
    List.all_eq_true.mp h.2 e ((eraseKV_sublist k es).subset he)

/-- Two well-formed child runs over adjacent windows glue into one run over
the union window, with the boundary key `x` as the joining interval. -/
lemma wfCh_glue {hi : Option K} {x : K} {bi : List K} {bc : List (BNode K V)}
    (hb : wfCh (some x) hi bi bc = true) (hhix : hiGtB hi x = true) :
    ∀ (ai : List K) (ac : List (BNode K V)) {lo : Option K},
      wfCh lo (some x) ai ac = true → loLtB lo x = true →
      wfCh lo hi (ai ++ x :: bi) (ac ++ bc) = true
  | [], ac, lo, ha, hlx => by
    rcases wfCh_cases ha with ⟨c, _, rfl, hc⟩ | ⟨_, _, _, _, hcon, _⟩
    · rw [List.nil_append, List.cons_append, List.nil_append, wfCh_cons]
      simp only [Bool.and_eq_true]
      exact ⟨⟨⟨hlx, hhix⟩, hc⟩, hb⟩
    · cases hcon
  | i :: ai2, ac, lo, ha, hlx => by
    rcases wfCh_cases ha with ⟨c, hcon, _⟩ | ⟨i2, ai3, c, ac3, hiv, rfl, h1, h2, h3, h4⟩
    · cases hcon
    · cases hiv
      have hix : i < x := by
        simpa [hiGtB] using h2
      rw [List.cons_append, List.cons_append, wfCh_cons]
      simp only [Bool.and_eq_true]
      refine ⟨⟨⟨h1, hiGtB_trans_lt hhix hix⟩, h3⟩, ?_⟩
      have hlix : loLtB (some i) x = true := by simp [loLtB, hix]
      exact wfCh_glue hb hhix ai2 ac3 h4 hlix

/-- `BNode::merged` on two same-kind siblings over adjacent windows succeeds
and produces a well-formed node over the union window whose contents are the
concatenation. -/
lemma merged_spec {a b : BNode K V} {lo hi : Option K} {s : K}
    (hk : isLeafB a = isLeafB b)
    (hwa : wfNode lo (some s) a = true) (hwb : wfNode (some s) hi b = true)
    (hna : neB a = true) (hnb : neB b = true) :
    ∃ m, a.merged b = some m ∧ wfNode lo hi m = true ∧ neB m = true ∧
      m.toList = a.toList ++ b.toList := by
  have hfb : b.first = b.toList.head? := first_eq_head b hwb hnb
  have hbne : b.toList ≠ [] := ne_toList b hwb hnb
  have hane : a.toList ≠ [] := ne_toList a hwa hna
  obtain ⟨bh, btl, hbl⟩ : ∃ bh btl, b.toList = bh :: btl := by
    cases hb2 : b.toList with
    | nil => exact absurd hb2 hbne
    | cons x xs => exact ⟨x, xs, rfl⟩
  obtain ⟨bk, bv⟩ := bh
  obtain ⟨ah, hamem⟩ := List.exists_mem_of_ne_nil a.toList hane
  have hfb2 : b.first = some (bk, bv) := by rw [hfb, hbl]; rfl
  have hbmem : (bk, bv) ∈ b.toList := by rw [hbl]; exact List.mem_cons_self _ _
  have hbdd := wf_bounds b hwb (bk, bv) hbmem
  have hsbk : s ≤ bk := by simpa [loLeB] using hbdd.1
  have hhibk : hiGtB hi bk = true := hbdd.2
  have habd := wf_bounds a hwa ah hamem
  have hahs : ah.1 < s := by simpa [hiGtB] using habd.2
  have hlobk : loLtB lo bk = true :=
    loLtB_of_loLeB_lt habd.1 (lt_of_lt_of_le hahs hsbk)
  cases a with
  | leaf aes =>
    cases b with
    | leaf bes =>
      refine ⟨.branch [bk] [.leaf aes, .leaf bes], ?_, ?_, ?_, ?_⟩
      · rw [BNode.merged]
        simp only [hfb2]
      · rw [wfNode, wfCh_cons]
        simp only [Bool.and_eq_true]
        refine ⟨⟨⟨hlobk, hhibk⟩, ?_⟩, ?_⟩
        · exact wf_mono _ hwa (loW_refl lo) hsbk
        · rw [wfCh_single]
          exact wf_strengthen_first _ hwb hnb hfb2
      · rw [neB, neChB, neChB, neChB, hna, hnb]
        rfl
      · show toListCh [BNode.leaf aes, BNode.leaf bes] = aes ++ bes
        rw [toListCh, toListCh, toListCh, List.append_nil]
        rfl
    | branch bi bc => simp [isLeafB] at hk
  | branch ai ac =>
    cases b with
    | leaf bes => simp [isLeafB] at hk
    | branch bi bc =>
      rw [wfNode] at hwa hwb
      rw [neB] at hna hnb
      refine ⟨.branch (ai ++ bk :: bi) (ac ++ bc), ?_, ?_, ?_, ?_⟩
      · rw [BNode.merged]
        simp only [hfb2]
      · rw [wfNode]
        refine wfCh_glue ?_ hhibk ai ac ?_ hlobk
        · exact wfCh_strengthen_first bi bc hwb hnb hfb2
        · exact wfCh_mono ai ac hwa (loW_refl lo) hsbk
      · rw [neB]
        rw [neChB_all] at hna hnb ⊢
        intro c hc
        rcases List.mem_append.mp hc with hc | hc
        · exact hna c hc
        · exact hnb c hc
      · show toListCh (ac ++ bc) = toListCh ac ++ toListCh bc
        exact toListCh_append ac bc

/-- Collapsing the first two children of a well-formed frame into their
merge preserves well-formedness and contents. -/
lemma wfCh_collapse2 {lo hi : Option K} {i0 : K} {irest : List K}
    {c0 c1 : BNode K V} {rest : List (BNode K V)}
    (hw : wfCh lo hi (i0 :: irest) (c0 :: c1 :: rest) = true)
    (hne : neChB (c0 :: c1 :: rest) = true)
    (hk : isLeafB c0 = isLeafB c1) :
    ∃ m, c0.merged c1 = some m ∧ wfCh lo hi irest (m :: rest) = true ∧
      neChB (m :: rest) = true ∧
      toListCh (m :: rest) = toListCh (c0 :: c1 :: rest) ∧
      m.toList = c0.toList ++ c1.toList := by
  rw [wfCh_cons] at hw
  simp only [Bool.and_eq_true] at hw
  obtain ⟨⟨⟨hl0, hh0⟩, hwc0⟩, hrest⟩ := hw
  rw [neChB, Bool.and_eq_true] at hne
  obtain ⟨hnc0, hne⟩ := hne
  rw [neChB, Bool.and_eq_true] at hne
  obtain ⟨hnc1, hnerest⟩ := hne
  cases irest with
  | nil =>
    rcases wfCh_cases hrest with ⟨c, _, hcs, hc⟩ | ⟨_, _, _, _, hcon, _⟩
    · cases hcs
      obtain ⟨m, hmg, hwm, hnm, htlm⟩ := merged_spec hk hwc0 hc hnc0 hnc1
      refine ⟨m, hmg, ?_, ?_, ?_, htlm⟩
      · rw [wfCh_single]
        exact hwm
      · rw [neChB, hnm]
        rfl
      · simp [toListCh, htlm]
    · cases hcon
  | cons i1 irest2 =>
    rcases wfCh_cases hrest with ⟨c, hcon, _⟩ | ⟨i1b, irest3, c, cs3, hiv, hcs, g1, g2, g3, g4⟩
    · cases hcon
    · cases hiv
      cases hcs
      have hi01 : i0 < i1 := by simpa [loLtB] using g1
      obtain ⟨m, hmg, hwm, hnm, htlm⟩ := merged_spec hk hwc0 g3 hnc0 hnc1
      refine ⟨m, hmg, ?_, ?_, ?_, htlm⟩
      · rw [wfCh_cons]
        simp only [Bool.and_eq_true]
        exact ⟨⟨⟨loLtB_trans_le hl0 (le_of_lt hi01), g2⟩, hwm⟩, g4⟩
      · rw [neChB, hnm, hnerest]
        rfl
      · simp only [toListCh, htlm, List.append_assoc]

/-- `mergeStep` commutes with consing a frame on the left once the index is
at least two (all accesses stay inside the tail). -/
lemma mergeStep_cons2 {i : K} {ivs : List K} {c : BNode K V} {cs : List (BNode K V)}
    {idx : Nat} :
    mergeStep (i :: ivs) (c :: cs) (idx + 2) =
      (mergeStep ivs cs (idx + 1)).map fun p => (i :: p.1, c :: p.2) := by
  have hidx : ((c :: cs)[idx + 2]? : Option (BNode K V)) = cs[idx + 1]? := by simp
  have ha : ((c :: cs)[idx + 2 - 1]? : Option (BNode K V)) = cs[idx]? := by simp
  have hb : ((cs[idx + 1 - 1]?) : Option (BNode K V)) = cs[idx]? := by simp
  cases h1 : cs[idx + 1]? with
  | none =>
    rw [mergeStep, mergeStep, hidx]
    simp only [h1]
    rfl
  | some c2 =>
    rw [mergeStep, mergeStep, hidx]
    simp only [h1]
    by_cases hmin : c2.len < MIN_ITEMS_IN_NODE
    · rw [if_pos hmin, if_pos hmin]
      rw [if_pos (show 0 < idx + 2 from Nat.succ_pos _),
        if_pos (show 0 < idx + 1 from Nat.succ_pos _)]
      rw [ha, hb]
      cases h2 : cs[idx]? with
      | none =>
        simp only [h2]
        rfl
      | some a =>
        simp only [h2]
        cases h3 : a.merged c2 with
        | none =>
          simp only [h3]
          rfl
        | some m =>
          simp only [h3]
          by_cases hc : idx < ivs.length
          · rw [if_pos (show idx + 2 - 1 < (i :: ivs).length by
                simp only [List.length_cons]; omega),
              if_pos (show idx + 1 - 1 < ivs.length by omega)]
            rfl
          · rw [if_neg (show ¬idx + 2 - 1 < (i :: ivs).length by
                simp only [List.length_cons]; omega),
              if_neg (show ¬idx + 1 - 1 < ivs.length by omega)]
            rfl
    · rw [if_neg hmin, if_neg hmin]
      rfl

/-- On a well-formed, kind-uniform frame with nonempty leaves the merge step
of `BNode::remove` always succeeds, keeps the frame well-formed and preserves
its contents. -/
lemma mergeStep_spec : ∀ (cs1 : List (BNode K V)) (ivs : List K) (idx : Nat)
    {lo hi : Option K},
    wfCh lo hi ivs cs1 = true → neChB cs1 = true → kindUniform cs1 = true →
    idx < cs1.length →
    ∃ ivs2 cs2, mergeStep ivs cs1 idx = some (ivs2, cs2) ∧
      wfCh lo hi ivs2 cs2 = true ∧ neChB cs2 = true ∧
      toListCh cs2 = toListCh cs1
  | [], ivs, idx, lo, hi, hw, hne, hku, hlt => by simp at hlt
  | c0 :: cs, ivs, 0, lo, hi, hw, hne, hku, hlt => by
    by_cases hmin : c0.len < MIN_ITEMS_IN_NODE
    · cases cs with
      | nil =>
        refine ⟨ivs, [c0], ?_, hw, hne, rfl⟩
        rw [mergeStep]
        simp only [List.getElem?_cons_zero]
        rw [if_pos hmin]
        rw [if_neg (Nat.lt_irrefl 0)]
        rw [if_neg (show ¬0 + 1 < ([c0] : List (BNode K V)).length by simp)]
      | cons c1 rest =>
        have hlen := wfCh_length hw
        cases ivs with
        | nil => simp at hlen
        | cons i0 irest =>
          have hk2 : isLeafB c0 = isLeafB c1 :=
            kindUniform_eq hku (by simp) (by simp)
          obtain ⟨m, hmg, hwm, hnm, htlm, _⟩ := wfCh_collapse2 hw hne hk2
          refine ⟨irest, m :: rest, ?_, hwm, hnm, htlm⟩
          rw [mergeStep]
          simp only [List.getElem?_cons_zero]
          rw [if_pos hmin]
          rw [if_neg (Nat.lt_irrefl 0)]
          rw [if_pos (show 0 + 1 < (c0 :: c1 :: rest).length by
            simp only [List.length_cons]; omega)]
          simp only [List.getElem?_cons_succ, List.getElem?_cons_zero]
          simp only [hmg]
          rw [if_pos (show 0 < (i0 :: irest).length by simp)]
          rfl
    · refine ⟨ivs, c0 :: cs, ?_, hw, hne, rfl⟩
      rw [mergeStep]
      simp only [List.getElem?_cons_zero]
      rw [if_neg hmin]
  | c0 :: cs, ivs, 1, lo, hi, hw, hne, hku, hlt => by
    cases cs with
    | nil => simp at hlt
    | cons c1 rest =>
      by_cases hmin : c1.len < MIN_ITEMS_IN_NODE
      · have hlen := wfCh_length hw
        cases ivs with
        | nil => simp at hlen
        | cons i0 irest =>
          have hk2 : isLeafB c0 = isLeafB c1 :=
            kindUniform_eq hku (by simp) (by simp)
          obtain ⟨m, hmg, hwm, hnm, htlm, _⟩ := wfCh_collapse2 hw hne hk2
          refine ⟨irest, m :: rest, ?_, hwm, hnm, htlm⟩
          rw [mergeStep]
          simp only [List.getElem?_cons_succ, List.getElem?_cons_zero]
          rw [if_pos hmin]
          rw [if_pos Nat.one_pos]
          simp only [Nat.sub_self, List.getElem?_cons_zero]
          simp only [hmg]
          rw [if_pos (show 1 - 1 < (i0 :: irest).length by simp)]
          rfl
      · refine ⟨ivs, c0 :: c1 :: rest, ?_, hw, hne, rfl⟩
        rw [mergeStep]
        simp only [List.getElem?_cons_succ, List.getElem?_cons_zero]
        rw [if_neg hmin]
  | c0 :: cs, ivs, (idx + 2), lo, hi, hw, hne, hku, hlt => by
    have hlen := wfCh_length hw
    cases ivs with
    | nil =>
      simp only [List.length_cons, List.length_nil] at hlen hlt
      omega
    | cons i0 irest =>
      rw [wfCh_cons] at hw
      simp only [Bool.and_eq_true] at hw
      obtain ⟨⟨⟨h1, h2⟩, h3⟩, h4⟩ := hw
      rw [neChB, Bool.and_eq_true] at hne
      obtain ⟨ivs2, cs2, hms, hwf2, hne2, htl2⟩ :=
        mergeStep_spec cs irest (idx + 1) h4 hne.2 (kindUniform_tail hku)
          (by simp only [List.length_cons] at hlt; omega)
      refine ⟨i0 :: ivs2, c0 :: cs2, ?_, ?_, ?_, ?_⟩
      · rw [mergeStep_cons2, hms]
        rfl
      · rw [wfCh_cons]
        simp only [Bool.and_eq_true]
        exact ⟨⟨⟨h1, h2⟩, h3⟩, hwf2⟩
      · rw [neChB, hne.1, hne2]
        rfl
      · simp only [toListCh, htl2]

lemma eraseIdx_ne_nil {α : Type} {l : List α} {i : Nat} (h : 2 ≤ l.length) :
    l.eraseIdx i ≠ [] := by
  cases l with
  | nil => simp at h
  | cons a l2 =>
    cases l2 with
    | nil => simp at h
    | cons b l3 =>
      cases i with
      | zero => simp [List.eraseIdx]
      | succ n => simp [List.eraseIdx]

mutual

/-- Functional correctness of a single `BNode::remove` on a tree that is
well-formed, has nonempty kind-uniform leaves of at least
`MIN_ITEMS_IN_NODE` entries: it succeeds (no panic), removes exactly the
entry keyed `k`, returns its value, keeps the node's kind and keeps the tree
well-formed. -/
theorem remove_spec : ∀ (t : BNode K V) {lo hi : Option K} (k : K),
    wfNode lo hi t = true → neB t = true → homB t = true → leavesMin2 t = true →
    loLeB lo k = true → hiGtB hi k = true →
    ∃ t' prev, t.remove k = some (t', prev) ∧
      wfNode lo hi t' = true ∧ neB t' = true ∧ isLeafB t' = isLeafB t ∧
      t'.toList = eraseKV k t.toList ∧
      prev = lookupKV t.toList k
  | .leaf es, lo, hi, k, h, hne, hhom, hlm, hlok, hhik => by
    have hself := h
    rw [wfNode, Bool.and_eq_true] at h
    have hs := ascKeys_iff.mp h.1
    rw [leavesMin2, decide_eq_true_eq] at hlm
    cases hbs : binSearch es k with
    | inl i =>
      obtain ⟨hi2, hk⟩ := binSearch_inl hs hbs
      have herase := eraseIdx_eq_eraseKV hs hi2 hk
      refine ⟨.leaf (es.eraseIdx i), some (es[i]).2, ?_, ?_, ?_, rfl, ?_, ?_⟩
      · simp only [BNode.remove, hbs, List.getElem?_eq_getElem hi2]
      · rw [herase]
        exact wf_leaf_eraseKV k hself
      · rw [neB]
        cases heq2 : es.eraseIdx i with
        | nil => exact absurd heq2 (eraseIdx_ne_nil hlm)
        | cons x xs => rfl
      · rw [BNode.toList, BNode.toList, herase]
      · rw [BNode.toList, lookupKV_getElem hs hi2 hk]
    | inr j =>
      obtain ⟨_, hnone⟩ := binSearch_inr hs hbs
      refine ⟨.leaf es, none, ?_, hself, hne, rfl, ?_, ?_⟩
      · simp only [BNode.remove, hbs]
      · show es = eraseKV k es
        rw [eraseKV_not_mem hnone]
      · rw [BNode.toList, lookupKV_eq_none hnone]
  | .branch ivs cs, lo, hi, k, h, hne, hhom, hlm, hlok, hhik => by
    rw [wfNode] at h
    rw [neB] at hne
    rw [homB, Bool.and_eq_true] at hhom
    rw [leavesMin2] at hlm
    have hlenr := wfCh_length h
    have hcsne : cs.isEmpty = false := by
      cases cs with
      | nil => simp at hlenr
      | cons a b => rfl
    obtain ⟨c', prev, hrc, hw2, hne2, htl2, hprev2, hlt, c0, hc0, hkind⟩ :=
      removeCh_spec ivs cs k h hne hhom.2 hlm hlok hhik
    have hfind : find_idx_from_interval ivs k = rank k ivs :=
      find_idx_eq_rank (wfCh_ivs_sorted h) k
    have hku2 : kindUniform (cs.set (rank k ivs) c') = true :=
      kindUniform_set hhom.1 hc0 hkind
    obtain ⟨ivs2, cs2, hms, hwf3, hne3, htl3⟩ :=
      mergeStep_spec (cs.set (rank k ivs) c') ivs (rank k ivs) hw2 hne2 hku2
        (by simpa using hlt)
    refine ⟨.branch ivs2 cs2, prev, ?_, ?_, ?_, rfl, ?_, ?_⟩
    · simp only [BNode.remove, hcsne, Bool.false_eq_true, if_false, hfind, hrc, hms]
    · rw [wfNode]
      exact hwf3
    · rw [neB]
      exact hne3
    · show toListCh cs2 = eraseKV k (toListCh cs)
      rw [htl3, htl2]
    · exact hprev2

/-- Child-level statement for `remove_spec`: removing below the selected
child keeps the updated frame well-formed, kind-compatible and erases
exactly the entry keyed `k`. -/
theorem removeCh_spec : ∀ (ivs : List K) (cs : List (BNode K V)) {lo hi : Option K}
    (k : K),
    wfCh lo hi ivs cs = true → neChB cs = true → homChB cs = true →
    leavesMin2Ch cs = true → loLeB lo k = true → hiGtB hi k = true →
    ∃ c' prev,
      removeChild cs (rank k ivs) k = some (c', prev) ∧
      wfCh lo hi ivs (cs.set (rank k ivs) c') = true ∧
      neChB (cs.set (rank k ivs) c') = true ∧
      toListCh (cs.set (rank k ivs) c') = eraseKV k (toListCh cs) ∧
      prev = lookupKV (toListCh cs) k ∧
      rank k ivs < cs.length ∧
      ∃ c0, cs[rank k ivs]? = some c0 ∧ isLeafB c' = isLeafB c0
  | [], cs, lo, hi, k, h, hne, hhom, hlm, hlok, hhik => by
    rcases wfCh_cases h with ⟨c, _, rfl, hc⟩ | ⟨_, _, _, _, hcon, _⟩
    · rw [neChB, Bool.and_eq_true] at hne
      rw [homChB, Bool.and_eq_true] at hhom
      rw [leavesMin2Ch, Bool.and_eq_true] at hlm
      obtain ⟨c', prev, hrm, hwf, hcne, hkind, htl, hprev⟩ :=
        remove_spec c k hc hne.1 hhom.1 hlm.1 hlok hhik
      rw [show rank k ([] : List K) = 0 from rfl]
      refine ⟨c', prev, ?_, ?_, ?_, ?_, ?_, by simp, c, rfl, hkind⟩
      · rw [show removeChild [c] 0 k = c.remove k from rfl, hrm]
      · rw [show ([c].set 0 c' : List (BNode K V)) = [c'] from rfl, wfCh_single]
        exact hwf
      · rw [show ([c].set 0 c' : List (BNode K V)) = [c'] from rfl, neChB, hcne]
        rfl
      · rw [show ([c].set 0 c' : List (BNode K V)) = [c'] from rfl]
        rw [toListCh, toListCh, List.append_nil, htl]
        rw [toListCh, toListCh, List.append_nil]
      · rw [hprev, toListCh, toListCh, List.append_nil]
    · cases hcon
  | i :: ivs2, cs, lo, hi, k, h, hne, hhom, hlm, hlok, hhik => by
    rcases wfCh_cases h with ⟨c, hcon, _⟩ | ⟨i2, ivs3, c, cs3, hiv, rfl, h1, h2, h3, h4⟩
    · cases hcon
    · cases hiv
      rw [neChB, Bool.and_eq_true] at hne
      rw [homChB, Bool.and_eq_true] at hhom
      rw [leavesMin2Ch, Bool.and_eq_true] at hlm
      by_cases hik : i ≤ k
      · have hrank : rank k (i :: ivs2) = rank k ivs2 + 1 := by rw [rank, if_pos hik]
        obtain ⟨c', prev, hrc, hw2, hne2, htl2, hprev2, hlt, c0, hc0, hkind⟩ :=
          removeCh_spec ivs2 cs3 k h4 hne.2 hhom.2 hlm.2 (by simp [loLeB, hik]) hhik
        have hcknek : ∀ e ∈ c.toList, e.1 ≠ k := by
          intro e he
          have := (wf_bounds c h3 e he).2
          simp only [hiGtB, decide_eq_true_eq] at this
          exact ne_of_lt (lt_of_lt_of_le this hik)
        refine ⟨c', prev, ?_, ?_, ?_, ?_, ?_, ?_, c0, ?_, hkind⟩
        · rw [hrank]
          rw [show removeChild (c :: cs3) (rank k ivs2 + 1) k =
            removeChild cs3 (rank k ivs2) k from rfl]
          exact hrc
        · rw [hrank, List.set_cons_succ, wfCh_cons]
          simp only [Bool.and_eq_true]
          exact ⟨⟨⟨h1, h2⟩, h3⟩, hw2⟩
        · rw [hrank, List.set_cons_succ, neChB, hne.1, hne2]
          rfl
        · rw [hrank, List.set_cons_succ]
          show c.toList ++ toListCh (cs3.set (rank k ivs2) c') =
            eraseKV k (c.toList ++ toListCh cs3)
          rw [htl2, eraseKV_append_right hcknek]
        · rw [hprev2, toListCh, lookupKV_append_right hcknek]
        · rw [hrank]
          simp only [List.length_cons]
          omega
        · rw [hrank, List.getElem?_cons_succ]
          exact hc0
      · have hrank : rank k (i :: ivs2) = 0 := by rw [rank, if_neg hik]
        have hki : k < i := not_le.mp hik
        obtain ⟨c', prev, hrm, hwf, hcne, hkind, htl, hprev⟩ :=
          remove_spec c k h3 hne.1 hhom.1 hlm.1 hlok (by simp [hiGtB, hki])
        have hrstne : ∀ e ∈ toListCh cs3, e.1 ≠ k := by
          intro e he
          have := (wfCh_bounds ivs2 cs3 h4 e he).1
          simp only [loLeB, decide_eq_true_eq] at this
          exact (ne_of_lt (lt_of_lt_of_le hki this)).symm
        refine ⟨c', prev, ?_, ?_, ?_, ?_, ?_, ?_, c, ?_, hkind⟩
        · rw [hrank]
          rw [show removeChild (c :: cs3) 0 k = c.remove k from rfl]
          exact hrm
        · rw [hrank, List.set_cons_zero, wfCh_cons]
          simp only [Bool.and_eq_true]
          exact ⟨⟨⟨h1, h2⟩, hwf⟩, h4⟩
        · rw [hrank, List.set_cons_zero, neChB, hcne, hne.2]
          rfl
        · rw [hrank, List.set_cons_zero]
          show c'.toList ++ toListCh cs3 = eraseKV k (c.toList ++ toListCh cs3)
          rw [htl, eraseKV_append_left hrstne]
        · rw [hprev, toListCh, lookupKV_append_left hrstne]
        · rw [hrank]
          simp
        · rw [hrank, List.getElem?_cons_zero]

end

/-! ## Claim C1 -/

/-- C1: for every key `k` and value `v`, on any tree satisfying the
specification's structural invariants, `insert(k, v)` succeeds, a subsequent
`get(k)` returns `v`, and the insert returns the previously associated value
(`none` when `k` was absent); a second `insert(k, v2)` then returns
`some v` and `get(k)` returns `v2`. -/
theorem c1_insert_get (t : BTree K V) (k : K) (v : V)
    (hwf : wfNode none none t.root = true) (hne : neB t.root = true) :
    ∃ t2 prev, t.insert k v = some (t2, prev) ∧
      t2.get k = some (some v) ∧
      prev = lookupKV t.root.toList k ∧
      ∀ v2, ∃ t3 prev2, t2.insert k v2 = some (t3, prev2) ∧
        prev2 = some v ∧ t3.get k = some (some v2) := by
  obtain ⟨r2, prev, hins, hwf2, hne2, htl2, hprev⟩ := insert_spec t.root k v hwf hne rfl rfl
  refine ⟨⟨r2⟩, prev, ?_, ?_, hprev, ?_⟩
  · rw [BTree.insert, hins]
  · show r2.get k = some (some v)
    rw [get_spec r2 k hwf2, htl2, lookupKV_insUpd_self]
  · intro v2
    obtain ⟨r3, prev2, hins3, hwf3, hne3, htl3, hprev3⟩ :=
      insert_spec r2 k v2 hwf2 hne2 rfl rfl
    refine ⟨⟨r3⟩, prev2, ?_, ?_, ?_⟩
    · show (match r2.insert k v2 with
        | none => none
        | some (r, prev) => some (BTree.mk r, prev)) = some (BTree.mk r3, prev2)
      rw [hins3]
    · rw [hprev3, htl2, lookupKV_insUpd_self]
    · show r3.get k = some (some v2)
      rw [get_spec r3 k hwf3, htl3, lookupKV_insUpd_self]

/-- C1 witness: the theorem applied to a concrete well-formed two-leaf tree. -/
theorem c1_insert_get_witness :
    (wfNode none none (BTree.mk (K := Nat) (V := Nat)
        (.branch [2] [.leaf [(0, 10), (1, 11)], .leaf [(2, 12), (3, 13)]])).root = true) ∧
    (∃ t2 prev,
      (BTree.mk (K := Nat) (V := Nat)
        (.branch [2] [.leaf [(0, 10), (1, 11)], .leaf [(2, 12), (3, 13)]])).insert 5 99 =
          some (t2, prev) ∧
      t2.get 5 = some (some 99) ∧
      prev = lookupKV (BTree.mk (K := Nat) (V := Nat)
        (.branch [2] [.leaf [(0, 10), (1, 11)], .leaf [(2, 12), (3, 13)]])).root.toList 5 ∧
      ∀ v2, ∃ t3 prev2, t2.insert 5 v2 = some (t3, prev2) ∧
        prev2 = some 99 ∧ t3.get 5 = some (some v2)) :=
  ⟨by decide, c1_insert_get _ 5 99 (by decide) (by decide)⟩

/-! ## Claim C2 -/

/-- C2 (amended): on a tree satisfying the specification's structural
invariants (ordering, nonempty kind-uniform leaves with at least
`MIN_ITEMS_IN_NODE` entries), `remove(k)` succeeds and returns the value
previously associated with `k` (absent if there was none), a subsequent
`get(k)` returns absent, and the stored contents are exactly the previous
contents with the entry keyed `k` erased — in particular the contents are
unchanged when `k` was absent.  The original claim's stronger clause that
the *tree* is unchanged when `k` is absent is false: the node structure can
be rebuilt even then (see the counterexample). -/
theorem c2_remove_get (t : BTree K V) (k : K)
    (hwf : wfNode none none t.root = true) (hne : neB t.root = true)
    (hhom : homB t.root = true) (hlm : leavesMin2 t.root = true) :
    ∃ t2 prev, t.remove k = some (t2, prev) ∧
      prev = lookupKV t.root.toList k ∧
      t2.get k = some none ∧
      t2.root.toList = eraseKV k t.root.toList := by
  obtain ⟨r2, prev, hrm, hwf2, hne2, _, htl2, hprev⟩ :=
    remove_spec t.root k hwf hne hhom hlm rfl rfl
  refine ⟨⟨r2⟩, prev, ?_, hprev, ?_, htl2⟩
  · rw [BTree.remove, hrm]
  · show r2.get k = some none
    rw [get_spec r2 k hwf2, htl2, lookupKV_eraseKV_self (wf_sorted t.root hwf)]

/-- C2 witness: the amended theorem applied to a concrete well-formed
two-leaf tree and a present key. -/
theorem c2_remove_get_witness :
    (wfNode none none (BTree.mk (K := Nat) (V := Nat)
        (.branch [2] [.leaf [(0, 10), (1, 11)], .leaf [(2, 12), (3, 13)]])).root = true) ∧
    (∃ t2 prev,
      (BTree.mk (K := Nat) (V := Nat)
        (.branch [2] [.leaf [(0, 10), (1, 11)], .leaf [(2, 12), (3, 13)]])).remove 1 =
          some (t2, prev) ∧
      prev = lookupKV (BTree.mk (K := Nat) (V := Nat)
        (.branch [2] [.leaf [(0, 10), (1, 11)], .leaf [(2, 12), (3, 13)]])).root.toList 1 ∧
      t2.get 1 = some none ∧
      t2.root.toList = eraseKV 1 (BTree.mk (K := Nat) (V := Nat)
        (.branch [2] [.leaf [(0, 10), (1, 11)], .leaf [(2, 12), (3, 13)]])).root.toList) :=
  ⟨by decide, c2_remove_get _ 1 (by decide) (by decide) (by decide) (by decide)⟩

/-- C2 counterexample: a tree satisfying every structural invariant of the
specification on which `remove(0)` reports "not found" (`none`) for the
absent key `0` yet rebuilds the tree: the root's child count drops from two
to one, so the tree is *not* unchanged. -/
theorem c2_remove_unchanged_counterexample :
    (BTree.mk (K := Nat) (V := Nat)
        (.branch [3] [.branch [] [.leaf [(1, 1), (2, 2)]],
          .branch [] [.leaf [(3, 3), (4, 4)]]])).remove 0 =
      some (BTree.mk
        (.branch [] [.branch [3] [.leaf [(1, 1), (2, 2)], .leaf [(3, 3), (4, 4)]]]), none) ∧
    lookupKV (BNode.branch (K := Nat) (V := Nat)
        [3] [.branch [] [.leaf [(1, 1), (2, 2)]],
          .branch [] [.leaf [(3, 3), (4, 4)]]]).toList 0 = none ∧
    wfNode none none (BNode.branch (K := Nat) (V := Nat)
        [3] [.branch [] [.leaf [(1, 1), (2, 2)]],
          .branch [] [.leaf [(3, 3), (4, 4)]]]) = true ∧
    neB (BNode.branch (K := Nat) (V := Nat)
        [3] [.branch [] [.leaf [(1, 1), (2, 2)]],
          .branch [] [.leaf [(3, 3), (4, 4)]]]) = true ∧
    homB (BNode.branch (K := Nat) (V := Nat)
        [3] [.branch [] [.leaf [(1, 1), (2, 2)]],
          .branch [] [.leaf [(3, 3), (4, 4)]]]) = true ∧
    leavesMin2 (BNode.branch (K := Nat) (V := Nat)
        [3] [.branch [] [.leaf [(1, 1), (2, 2)]],
          .branch [] [.leaf [(3, 3), (4, 4)]]]) = true ∧
    (BNode.branch (K := Nat) (V := Nat)
        [] [.branch [3] [.leaf [(1, 1), (2, 2)], .leaf [(3, 3), (4, 4)]]]).len ≠
      (BNode.branch (K := Nat) (V := Nat)
        [3] [.branch [] [.leaf [(1, 1), (2, 2)]],
          .branch [] [.leaf [(3, 3), (4, 4)]]]).len :=
  ⟨rfl, rfl, rfl, rfl, rfl, rfl, by decide⟩

/-! ## Maximum-occupancy preservation of insert (claim C4) -/

lemma maxOKChB_all {cs : List (BNode K V)} :
    maxOKChB cs = true ↔ ∀ c ∈ cs, maxOKB c = true := by
  induction cs with
  | nil => simp [maxOKChB]
  | cons c cs2 ih =>
    rw [maxOKChB, Bool.and_eq_true, ih]
    simp

lemma maxOKB_iff {t : BNode K V} :
    maxOKB t = true ↔ (t.len ≤ MAX_ITEMS_IN_NODE ∧ belowMaxOK t = true) := by
  cases t with
  | leaf es => simp [maxOKB, belowMaxOK, BNode.len]
  | branch ivs cs => simp [maxOKB, belowMaxOK, BNode.len, Bool.and_eq_true]

/-- Splitting a node of at most `MAX_ITEMS_IN_NODE + 1` entries whose strict
descendants are within bounds yields two halves fully within bounds. -/
lemma split_maxOK {t l r : BNode K V} (hsp : t.split = some (l, r))
    (hb : belowMaxOK t = true) (hlen : t.len ≤ MAX_ITEMS_IN_NODE + 1) :
    maxOKB l = true ∧ maxOKB r = true := by
  rw [show MAX_ITEMS_IN_NODE = 4 from rfl] at hlen
  cases t with
  | leaf es =>
    rw [BNode.len] at hlen
    simp only [BNode.split, Option.some.injEq, Prod.mk.injEq] at hsp
    obtain ⟨hl, hr⟩ := hsp
    subst hl
    subst hr
    constructor
    · rw [maxOKB, decide_eq_true_eq, List.length_take,
        show MAX_ITEMS_IN_NODE = 4 from rfl]
      omega
    · rw [maxOKB, decide_eq_true_eq, List.length_drop,
        show MAX_ITEMS_IN_NODE = 4 from rfl]
      omega
  | branch ivs cs =>
    rw [BNode.len] at hlen
    rw [belowMaxOK] at hb
    simp only [BNode.split] at hsp
    by_cases h0 : cs.length / 2 = 0
    · rw [if_pos h0] at hsp
      cases hsp
    · rw [if_neg h0] at hsp
      by_cases hg : cs.length / 2 - 1 < (ivs.take (cs.length / 2 - 1 + 1)).length
      · rw [if_pos hg] at hsp
        simp only [Option.some.injEq, Prod.mk.injEq] at hsp
        obtain ⟨hl, hr⟩ := hsp
        subst hl
        subst hr
        constructor
        · rw [maxOKB, Bool.and_eq_true, decide_eq_true_eq]
          refine ⟨?_, maxOKChB_all.mpr fun c hc =>
            maxOKChB_all.mp hb c (List.take_subset _ _ hc)⟩
          rw [List.length_take, show MAX_ITEMS_IN_NODE = 4 from rfl]
          omega
        · rw [maxOKB, Bool.and_eq_true, decide_eq_true_eq]
          refine ⟨?_, maxOKChB_all.mpr fun c hc =>
            maxOKChB_all.mp hb c (List.drop_subset _ _ hc)⟩
          rw [List.length_drop, show MAX_ITEMS_IN_NODE = 4 from rfl]
          omega
      · rw [if_neg hg] at hsp
        cases hsp

/-- The child-split step keeps all nodes of the frame within the maximum
bound and grows the frame by at most one child. -/
lemma splitChildStep_maxOK {ivs : List K} {cs : List (BNode K V)} {idx : Nat}
    {c' : BNode K V} {ivs2 : List K} {cs2 : List (BNode K V)}
    (hsc : splitChildStep ivs cs idx c' = some (ivs2, cs2))
    (hmax : maxOKChB cs = true) (hbc : belowMaxOK c' = true)
    (hcl : c'.len ≤ MAX_ITEMS_IN_NODE + 1) :
    maxOKChB cs2 = true ∧ cs2.length ≤ cs.length + 1 := by
  rw [splitChildStep] at hsc
  by_cases hbig : MAX_ITEMS_IN_NODE < c'.len
  · rw [if_pos hbig] at hsc
    cases hsp : c'.split with
    | none =>
      simp only [hsp] at hsc
      cases hsc
    | some pr =>
      obtain ⟨cl, cr⟩ := pr
      simp only [hsp] at hsc
      cases hfr : cr.first with
      | none =>
        simp only [hfr] at hsc
        cases hsc
      | some em =>
        obtain ⟨m, mv⟩ := em
        simp only [hfr] at hsc
        by_cases hg : idx ≤ ivs.length ∧ idx + 1 ≤ cs.length
        · rw [if_pos hg] at hsc
          simp only [Option.some.injEq, Prod.mk.injEq] at hsc
          obtain ⟨hi2, hc2⟩ := hsc
          subst hc2
          obtain ⟨hmcl, hmcr⟩ := split_maxOK hsp hbc hcl
          have hgset : idx + 1 ≤ (cs.set idx cl).length := by
            rw [List.length_set]
            exact hg.2
          constructor
          · rw [maxOKChB_all]
            intro c hc
            rcases (List.mem_insertIdx hgset).mp hc with heq | hc2
            · subst heq
              exact hmcr
            · rcases List.mem_or_eq_of_mem_set hc2 with hc3 | heq
              · exact maxOKChB_all.mp hmax c hc3
              · subst heq
                exact hmcl
          · rw [List.length_insertIdx _ _ hgset, List.length_set]
        · rw [if_neg hg] at hsc
          cases hsc
  · rw [if_neg hbig] at hsc
    simp only [Option.some.injEq, Prod.mk.injEq] at hsc
    obtain ⟨hi2, hc2⟩ := hsc
    subst hc2
    constructor
    · rw [maxOKChB_all]
      intro c hc
      rcases List.mem_or_eq_of_mem_set hc with hc2 | heq
      · exact maxOKChB_all.mp hmax c hc2
      · subst heq
        exact maxOKB_iff.mpr ⟨le_of_not_lt hbig, hbc⟩
    · rw [List.length_set]
      omega

/-- The self-split step produces a node fully within the maximum bound
whose child count does not exceed the input frame's. -/
lemma selfSplitStep_maxOK {ivs2 : List K} {cs2 : List (BNode K V)} {t' : BNode K V}
    (hss : selfSplitStep ivs2 cs2 = some t') (hmax : maxOKChB cs2 = true)
    (hlen : cs2.length ≤ MAX_ITEMS_IN_NODE + 1) :
    maxOKB t' = true ∧ t'.len ≤ cs2.length := by
  rw [selfSplitStep] at hss
  by_cases hbig : MAX_ITEMS_IN_NODE < cs2.length
  · rw [if_pos hbig] at hss
    cases hsp : BNode.split (.branch ivs2 cs2) with
    | none =>
      simp only [hsp] at hss
      cases hss
    | some pr =>
      obtain ⟨l, r⟩ := pr
      simp only [hsp] at hss
      cases hfr : r.first with
      | none =>
        simp only [hfr] at hss
        cases hss
      | some em =>
        obtain ⟨m, mv⟩ := em
        simp only [hfr] at hss
        simp only [Option.some.injEq] at hss
        subst hss
        obtain ⟨hml, hmr⟩ := split_maxOK hsp (by rw [belowMaxOK]; exact hmax)
          (by rw [BNode.len]; exact hlen)
        constructor
        · rw [maxOKB, Bool.and_eq_true, decide_eq_true_eq]
          refine ⟨?_, ?_⟩
          · rw [show MAX_ITEMS_IN_NODE = 4 from rfl]
            simp
          · rw [maxOKChB, maxOKChB, maxOKChB, hml, hmr]
            rfl
        · rw [BNode.len]
          rw [show MAX_ITEMS_IN_NODE = 4 from rfl] at hbig
          simp only [List.length_cons, List.length_nil]
          omega
  · rw [if_neg hbig] at hss
    simp only [Option.some.injEq] at hss
    subst hss
    refine ⟨?_, le_of_eq rfl⟩
    rw [maxOKB, Bool.and_eq_true, decide_eq_true_eq]
    exact ⟨le_of_not_lt hbig, hmax⟩

mutual

/-- A successful `BNode::insert` on a node whose every node is within
`MAX_ITEMS_IN_NODE` keeps all strict descendants within the bound, grows the
node by at most one entry, and for a branch keeps the node itself within the
bound (by virtue of the self-split step). -/
theorem insert_maxOK : ∀ (t : BNode K V) (k : K) (v : V) (t' : BNode K V)
    (prev : Option V),
    t.insert k v = some (t', prev) → maxOKB t = true →
    belowMaxOK t' = true ∧ t'.len ≤ t.len + 1 ∧
    (isLeafB t = false → maxOKB t' = true)
  | .leaf es, k, v, t', prev, hins, hmax => by
    simp only [BNode.insert] at hins
    cases hbs : binSearch es k with
    | inl i =>
      simp only [hbs] at hins
      cases hge : es[i]? with
      | none =>
        simp only [hge] at hins
        cases hins
      | some e =>
        simp only [hge, Option.some.injEq, Prod.mk.injEq] at hins
        obtain ⟨ht, hp⟩ := hins
        subst ht
        refine ⟨rfl, ?_, fun h => by simp [isLeafB] at h⟩
        rw [BNode.len, BNode.len, List.length_set]
        omega
    | inr i =>
      simp only [hbs] at hins
      by_cases hle : i ≤ es.length
      · rw [if_pos hle] at hins
        simp only [Option.some.injEq, Prod.mk.injEq] at hins
        obtain ⟨ht, hp⟩ := hins
        subst ht
        refine ⟨rfl, ?_, fun h => by simp [isLeafB] at h⟩
        rw [BNode.len, BNode.len, List.length_insertIdx _ _ hle]
      · rw [if_neg hle] at hins
        cases hins
  | .branch ivs cs, k, v, t', prev, hins, hmax => by
    simp only [BNode.insert] at hins
    rw [maxOKB, Bool.and_eq_true, decide_eq_true_eq] at hmax
    by_cases hemp : cs.isEmpty
    · rw [if_pos hemp] at hins
      simp only [Option.some.injEq, Prod.mk.injEq] at hins
      obtain ⟨ht, hp⟩ := hins
      subst ht
      have hcs : cs = [] := by
        cases cs with
        | nil => rfl
        | cons a b => simp [List.isEmpty] at hemp
      subst hcs
      refine ⟨rfl, by rw [BNode.len, BNode.len]; simp, fun _ => rfl⟩
    · rw [if_neg hemp] at hins
      cases hic : insertChild cs (find_idx_from_interval ivs k) k v with
      | none =>
        simp only [hic] at hins
        cases hins
      | some pr =>
        obtain ⟨c', prevv⟩ := pr
        simp only [hic] at hins
        cases hsc : splitChildStep ivs cs (find_idx_from_interval ivs k) c' with
        | none =>
          simp only [hsc] at hins
          cases hins
        | some pr2 =>
          obtain ⟨rivs, rcs⟩ := pr2
          simp only [hsc] at hins
          cases hss : selfSplitStep rivs rcs with
          | none =>
            simp only [hss] at hins
            cases hins
          | some t2 =>
            simp only [hss, Option.some.injEq, Prod.mk.injEq] at hins
            obtain ⟨ht, hp⟩ := hins
            subst ht
            obtain ⟨hbc', c0, hc0, hlc'⟩ :=
              insertCh_maxOK cs (find_idx_from_interval ivs k) k v c' prevv hic hmax.2
            have hc0max : maxOKB c0 = true :=
              maxOKChB_all.mp hmax.2 c0 (List.getElem?_mem hc0)
            have hc0len : c0.len ≤ MAX_ITEMS_IN_NODE := (maxOKB_iff.mp hc0max).1
            obtain ⟨hm2, hl2⟩ := splitChildStep_maxOK hsc hmax.2 hbc'
              (le_trans hlc' (Nat.add_le_add_right hc0len 1))
            obtain ⟨hmt, hlt2⟩ := selfSplitStep_maxOK hss hm2
              (le_trans hl2 (Nat.add_le_add_right hmax.1 1))
            refine ⟨(maxOKB_iff.mp hmt).2, ?_, fun _ => hmt⟩
            rw [BNode.len]
            exact le_trans hlt2 hl2

/-- `insertCh_maxOK`: the child-level form of `insert_maxOK`. -/
theorem insertCh_maxOK : ∀ (cs : List (BNode K V)) (idx : Nat) (k : K) (v : V)
    (c' : BNode K V) (prev : Option V),
    insertChild cs idx k v = some (c', prev) → maxOKChB cs = true →
    belowMaxOK c' = true ∧ ∃ c0, cs[idx]? = some c0 ∧ c'.len ≤ c0.len + 1
  | [], idx, k, v, c', prev, hins, hmax => by
    simp only [insertChild] at hins
    cases hins
  | c :: cs, 0, k, v, c', prev, hins, hmax => by
    rw [maxOKChB, Bool.and_eq_true] at hmax
    have hins2 : c.insert k v = some (c', prev) := hins
    obtain ⟨hb, hlen, _⟩ := insert_maxOK c k v c' prev hins2 hmax.1
    exact ⟨hb, c, List.getElem?_cons_zero, hlen⟩
  | c :: cs, idx + 1, k, v, c', prev, hins, hmax => by
    rw [maxOKChB, Bool.and_eq_true] at hmax
    have hins2 : insertChild cs idx k v = some (c', prev) := hins
    obtain ⟨hb, c0, hc0, hlen⟩ := insertCh_maxOK cs idx k v c' prev hins2 hmax.2
    refine ⟨hb, c0, ?_, hlen⟩
    rw [List.getElem?_cons_succ]
    exact hc0

end

/-! ## Claim C4 -/

/-- C4 (amended): the upper bound of the occupancy invariant is maintained
by insert: on a branch-rooted tree satisfying the ordering invariant whose
every node holds at most `MAX_ITEMS_IN_NODE = 4` entries, `insert` succeeds
and every node of the result (root included) again holds at most
`MAX_ITEMS_IN_NODE` entries.  Neither bound holds after *every* public
operation as claimed (see the counterexample): the first insert into a
fresh tree creates a non-root leaf with a single entry (`MIN ≤ len`
violated), and a public remove can merge a below-minimum one-child branch
with its four-child sibling into a five-child branch (`len ≤ MAX` violated
after remove). -/
theorem c4_insert_max (t : BTree K V) (k : K) (v : V)
    (hwf : wfNode none none t.root = true) (hne : neB t.root = true)
    (hroot : isLeafB t.root = false) (hmax : maxOKB t.root = true) :
    ∃ t2 prev, t.insert k v = some (t2, prev) ∧ maxOKB t2.root = true := by
  obtain ⟨r2, prev, hins, _, _, _, _⟩ := insert_spec t.root k v hwf hne rfl rfl
  obtain ⟨_, _, hfull⟩ := insert_maxOK t.root k v r2 prev hins hmax
  refine ⟨⟨r2⟩, prev, ?_, hfull hroot⟩
  rw [BTree.insert, hins]

/-- C4 witness: the amended theorem applied to a concrete full two-leaf
tree. -/
theorem c4_insert_max_witness :
    (maxOKB (BTree.mk (K := Nat) (V := Nat)
        (.branch [2] [.leaf [(0, 10), (1, 11)], .leaf [(2, 12), (3, 13)]])).root = true) ∧
    (∃ t2 prev,
      (BTree.mk (K := Nat) (V := Nat)
        (.branch [2] [.leaf [(0, 10), (1, 11)], .leaf [(2, 12), (3, 13)]])).insert 5 99 =
          some (t2, prev) ∧
      maxOKB t2.root = true) :=
  ⟨by decide, c4_insert_max _ 5 99 (by decide) (by decide) (by decide) (by decide)⟩

/-- C4 counterexample: neither occupancy bound survives every public
operation.  First, `MIN`: after the public operation `insert(1, 2)` on a
fresh tree the root's only child is a leaf holding a single entry, so a
non-root node violates `MIN_ITEMS_IN_NODE ≤ len` (the specification's
lower-bound invariant `minOKBelow` is false for the resulting root).
Second, `MAX` after remove: on a tree satisfying every structural invariant
*and* the upper bound (`maxOKB`), the public operation `remove(1)` leaves a
one-child branch below `MIN`, which `BNode::remove` merges with its
four-child sibling; `BNode::merged` concatenates the two child lists, so
the result contains a non-root branch with five children,
violating `len ≤ MAX_ITEMS_IN_NODE` (`maxOKB` of the result is false). -/
theorem c4_bounds_counterexample :
    ((BTree.new (K := Nat) (V := Nat)).insert 1 2 =
      some (BTree.mk (.branch [] [.leaf [(1, 2)]]), none) ∧
    (BNode.leaf (K := Nat) (V := Nat) [(1, 2)]).len < MIN_ITEMS_IN_NODE ∧
    minOKBelow (BNode.branch (K := Nat) (V := Nat) [] [.leaf [(1, 2)]]) = false) ∧
    (wfNode none none (BNode.branch (K := Nat) (V := Nat) [5]
        [.branch [] [.leaf [(0, 0), (1, 1)]],
         .branch [10, 20, 30] [.leaf [(5, 5), (6, 6)], .leaf [(10, 10), (11, 11)],
           .leaf [(20, 20), (21, 21)], .leaf [(30, 30), (31, 31)]]]) = true ∧
     neB (BNode.branch (K := Nat) (V := Nat) [5]
        [.branch [] [.leaf [(0, 0), (1, 1)]],
         .branch [10, 20, 30] [.leaf [(5, 5), (6, 6)], .leaf [(10, 10), (11, 11)],
           .leaf [(20, 20), (21, 21)], .leaf [(30, 30), (31, 31)]]]) = true ∧
     homB (BNode.branch (K := Nat) (V := Nat) [5]
        [.branch [] [.leaf [(0, 0), (1, 1)]],
         .branch [10, 20, 30] [.leaf [(5, 5), (6, 6)], .leaf [(10, 10), (11, 11)],
           .leaf [(20, 20), (21, 21)], .leaf [(30, 30), (31, 31)]]]) = true ∧
     leavesMin2 (BNode.branch (K := Nat) (V := Nat) [5]
        [.branch [] [.leaf [(0, 0), (1, 1)]],
         .branch [10, 20, 30] [.leaf [(5, 5), (6, 6)], .leaf [(10, 10), (11, 11)],
           .leaf [(20, 20), (21, 21)], .leaf [(30, 30), (31, 31)]]]) = true ∧
     maxOKB (BNode.branch (K := Nat) (V := Nat) [5]
        [.branch [] [.leaf [(0, 0), (1, 1)]],
         .branch [10, 20, 30] [.leaf [(5, 5), (6, 6)], .leaf [(10, 10), (11, 11)],
           .leaf [(20, 20), (21, 21)], .leaf [(30, 30), (31, 31)]]]) = true) ∧
    (BTree.mk (K := Nat) (V := Nat) (.branch [5]
        [.branch [] [.leaf [(0, 0), (1, 1)]],
         .branch [10, 20, 30] [.leaf [(5, 5), (6, 6)], .leaf [(10, 10), (11, 11)],
           .leaf [(20, 20), (21, 21)], .leaf [(30, 30), (31, 31)]]])).remove 1 =
      some (BTree.mk (.branch []
        [.branch [5, 10, 20, 30] [.leaf [(0, 0)], .leaf [(5, 5), (6, 6)],
           .leaf [(10, 10), (11, 11)], .leaf [(20, 20), (21, 21)],
           .leaf [(30, 30), (31, 31)]]]), some 1) ∧
    MAX_ITEMS_IN_NODE <
      (BNode.branch (K := Nat) (V := Nat) [5, 10, 20, 30]
        [.leaf [(0, 0)], .leaf [(5, 5), (6, 6)], .leaf [(10, 10), (11, 11)],
         .leaf [(20, 20), (21, 21)], .leaf [(30, 30), (31, 31)]]).len ∧
    maxOKB (BNode.branch (K := Nat) (V := Nat) []
        [.branch [5, 10, 20, 30] [.leaf [(0, 0)], .leaf [(5, 5), (6, 6)],
           .leaf [(10, 10), (11, 11)], .leaf [(20, 20), (21, 21)],
           .leaf [(30, 30), (31, 31)]]]) = false :=
  ⟨⟨rfl, by decide, rfl⟩, ⟨rfl, rfl, rfl, rfl, rfl⟩, rfl, by decide, rfl⟩

/-! ## Claim C5 -/

/-- C5 (amended): on a well-formed kind-uniform frame, when child `idx` has
fallen below `MIN_ITEMS_IN_NODE`, the merge step of `BNode::remove` fires:
it merges the child with its left sibling when one exists (`0 < idx`) and
otherwise with its right sibling, the parent loses one separator and one
child slot, and the merged node's *entries* are the concatenation of the two
siblings' entries.  The original claim's description of the merge result as
"one node" holding the concatenation is wrong: for two leaves `BNode::merged`
builds a two-child branch over the old nodes (see the counterexample), and
on a leaf/branch pair it panics (`todo!()`). -/
theorem c5_merge_behavior : ∀ (cs1 : List (BNode K V)) (ivs : List K) (idx : Nat)
    {lo hi : Option K} {c' : BNode K V},
    wfCh lo hi ivs cs1 = true → neChB cs1 = true → kindUniform cs1 = true →
    cs1[idx]? = some c' → c'.len < MIN_ITEMS_IN_NODE → 2 ≤ cs1.length →
    ∃ ivs2 cs2,
      mergeStep ivs cs1 idx = some (ivs2, cs2) ∧
      cs2.length + 1 = cs1.length ∧
      ivs2.length + 1 = ivs.length ∧
      toListCh cs2 = toListCh cs1 ∧
      (0 < idx →
        ∃ sib m, cs1[idx - 1]? = some sib ∧ sib.merged c' = some m ∧
          m.toList = sib.toList ++ c'.toList) ∧
      (idx = 0 →
        ∃ sib m, cs1[idx + 1]? = some sib ∧ c'.merged sib = some m ∧
          m.toList = c'.toList ++ sib.toList)
  | [], ivs, idx, lo, hi, c', hw, hne, hku, hc, hmin, hlen2 => by simp at hc
  | c0 :: cs, ivs, 0, lo, hi, c', hw, hne, hku, hc, hmin, hlen2 => by
    rw [List.getElem?_cons_zero, Option.some.injEq] at hc
    subst hc
    cases cs with
    | nil => simp at hlen2
    | cons c1 rest =>
      have hlen := wfCh_length hw
      cases ivs with
      | nil => simp at hlen
      | cons i0 irest =>
        have hk2 : isLeafB c0 = isLeafB c1 :=
          kindUniform_eq hku (by simp) (by simp)
        obtain ⟨m, hmg, hwm, hnm, htlm, htlm2⟩ := wfCh_collapse2 hw hne hk2
        refine ⟨irest, m :: rest, ?_, by simp, by simp, htlm, ?_, ?_⟩
        · rw [mergeStep]
          simp only [List.getElem?_cons_zero]
          rw [if_pos hmin]
          rw [if_neg (Nat.lt_irrefl 0)]
          rw [if_pos (show 0 + 1 < (c0 :: c1 :: rest).length by
            simp only [List.length_cons]; omega)]
          simp only [List.getElem?_cons_succ, List.getElem?_cons_zero]
          simp only [hmg]
          rw [if_pos (show 0 < (i0 :: irest).length by simp)]
          rfl
        · intro h
          exact absurd h (Nat.lt_irrefl 0)
        · intro _
          exact ⟨c1, m, by simp, hmg, htlm2⟩
  | c0 :: cs, ivs, 1, lo, hi, c', hw, hne, hku, hc, hmin, hlen2 => by
    cases cs with
    | nil => simp at hc
    | cons c1 rest =>
      simp only [List.getElem?_cons_succ, List.getElem?_cons_zero,
        Option.some.injEq] at hc
      subst hc
      have hlen := wfCh_length hw
      cases ivs with
      | nil => simp at hlen
      | cons i0 irest =>
        have hk2 : isLeafB c0 = isLeafB c1 :=
          kindUniform_eq hku (by simp) (by simp)
        obtain ⟨m, hmg, hwm, hnm, htlm, htlm2⟩ := wfCh_collapse2 hw hne hk2
        refine ⟨irest, m :: rest, ?_, by simp, by simp, htlm, ?_, ?_⟩
        · rw [mergeStep]
          simp only [List.getElem?_cons_succ, List.getElem?_cons_zero]
          rw [if_pos hmin]
          rw [if_pos Nat.one_pos]
          simp only [Nat.sub_self, List.getElem?_cons_zero]
          simp only [hmg]
          rw [if_pos (show 1 - 1 < (i0 :: irest).length by simp)]
          rfl
        · intro _
          exact ⟨c0, m, by simp, hmg, htlm2⟩
        · intro h
          exact absurd h one_ne_zero
  | c0 :: cs, ivs, (idx + 2), lo, hi, c', hw, hne, hku, hc, hmin, hlen2 => by
    rw [List.getElem?_cons_succ] at hc
    have hlt : idx + 1 < cs.length := by
      rcases List.getElem?_eq_some.mp hc with ⟨h2, _⟩
      exact h2
    have hlen := wfCh_length hw
    cases ivs with
    | nil =>
      simp at hlen
      subst hlen
      simp at hlt
    | cons i0 irest =>
      rw [wfCh_cons] at hw
      simp only [Bool.and_eq_true] at hw
      obtain ⟨⟨⟨h1, h2⟩, h3⟩, h4⟩ := hw
      rw [neChB, Bool.and_eq_true] at hne
      obtain ⟨ivs2, cs2, hms, hl1, hl2, htl, hleft, _⟩ :=
        c5_merge_behavior cs irest (idx + 1) h4 hne.2 (kindUniform_tail hku)
          hc hmin (by omega)
      refine ⟨i0 :: ivs2, c0 :: cs2, ?_, ?_, ?_, ?_, ?_, ?_⟩
      · rw [mergeStep_cons2, hms]
        rfl
      · simp only [List.length_cons]
        omega
      · simp only [List.length_cons]
        omega
      · simp only [toListCh, htl]
      · intro _
        obtain ⟨sib, m, hsib, hmg, hml⟩ := hleft (Nat.succ_pos idx)
        refine ⟨sib, m, ?_, hmg, hml⟩
        show (c0 :: cs)[idx + 1]? = some sib
        rw [List.getElem?_cons_succ]
        exact hsib
      · intro h
        exact absurd h (Nat.succ_ne_zero _)

/-- C5 witness: the amended theorem applied to a concrete frame whose first
child, a single-child branch, has fallen below `MIN_ITEMS_IN_NODE`; it is
merged with its right sibling. -/
theorem c5_merge_behavior_witness :
    (((([.branch [] [.leaf [(1, 1), (2, 2)]],
        .branch [] [.leaf [(3, 3), (4, 4)]]] : List (BNode Nat Nat)))[0]? =
      some (.branch [] [.leaf [(1, 1), (2, 2)]])) ∧
    (BNode.branch (K := Nat) (V := Nat) [] [.leaf [(1, 1), (2, 2)]]).len <
      MIN_ITEMS_IN_NODE) ∧
    (∃ ivs2 cs2,
      mergeStep [3] [.branch [] [.leaf [(1, 1), (2, 2)]],
        .branch [] [.leaf [(3, 3), (4, 4)]]] 0 = some (ivs2, cs2) ∧
      cs2.length + 1 = ([.branch [] [.leaf [(1, 1), (2, 2)]],
        .branch [] [.leaf [(3, 3), (4, 4)]]] : List (BNode Nat Nat)).length ∧
      ivs2.length + 1 = ([3] : List Nat).length ∧
      toListCh cs2 = toListCh [.branch [] [.leaf [(1, 1), (2, 2)]],
        .branch [] [.leaf [(3, 3), (4, 4)]]] ∧
      (0 < 0 →
        ∃ sib m, (([.branch [] [.leaf [(1, 1), (2, 2)]],
            .branch [] [.leaf [(3, 3), (4, 4)]]] : List (BNode Nat Nat)))[0 - 1]? =
            some sib ∧
          sib.merged (.branch [] [.leaf [(1, 1), (2, 2)]]) = some m ∧
          m.toList = sib.toList ++
            (BNode.branch (K := Nat) (V := Nat) [] [.leaf [(1, 1), (2, 2)]]).toList) ∧
      ((0 : Nat) = 0 →
        ∃ sib m, (([.branch [] [.leaf [(1, 1), (2, 2)]],
            .branch [] [.leaf [(3, 3), (4, 4)]]] : List (BNode Nat Nat)))[0 + 1]? =
            some sib ∧
          (BNode.branch (K := Nat) (V := Nat)
            [] [.leaf [(1, 1), (2, 2)]]).merged sib = some m ∧
          m.toList = (BNode.branch (K := Nat) (V := Nat)
            [] [.leaf [(1, 1), (2, 2)]]).toList ++ sib.toList)) :=
  ⟨⟨rfl, by decide⟩,
    c5_merge_behavior [.branch [] [.leaf [(1, 1), (2, 2)]],
        .branch [] [.leaf [(3, 3), (4, 4)]]] [3] 0
      (show wfCh none none [3] [.branch [] [.leaf [(1, 1), (2, 2)]],
        .branch [] [.leaf [(3, 3), (4, 4)]]] = true by decide)
      (by decide) (by decide) rfl (by decide) (by decide)⟩

/-- C5 counterexample: merging two leaves does not concatenate their entries
into one node: `BNode::merged` on two two-entry leaves returns a *branch*
over the two old leaves (its own `len` is 2 children, not 4 entries), and on
a leaf/branch pair it panics (the `todo!()`, modelled as `none`). -/
theorem c5_merged_one_node_counterexample :
    BNode.merged (K := Nat) (V := Nat) (.leaf [(0, 0), (1, 1)]) (.leaf [(2, 2), (3, 3)]) =
      some (.branch [2] [.leaf [(0, 0), (1, 1)], .leaf [(2, 2), (3, 3)]]) ∧
    isLeafB (BNode.branch (K := Nat) (V := Nat)
      [2] [.leaf [(0, 0), (1, 1)], .leaf [(2, 2), (3, 3)]]) = false ∧
    (BNode.branch (K := Nat) (V := Nat)
      [2] [.leaf [(0, 0), (1, 1)], .leaf [(2, 2), (3, 3)]]).len = 2 ∧
    BNode.merged (K := Nat) (V := Nat) (.leaf [(0, 0), (1, 1)])
      (.branch [3] [.leaf [(2, 2)], .leaf [(3, 3)]]) = none :=
  ⟨rfl, rfl, rfl, rfl⟩

/-! ## Iterator refinement (claim C8) -/

lemma size_ge_two : ∀ (t : BNode K V), 2 ≤ t.size
  | .leaf es => by
    rw [BNode.size]
    omega
  | .branch ivs cs => by
    rw [BNode.size]
    omega

lemma sizeCh_cons (c : BNode K V) (cs : List (BNode K V)) :
    sizeCh (c :: cs) = c.size + sizeCh cs := rfl

lemma frameWeight_zero (t : BNode K V) : frameWeight (t, 0) + 1 = t.size := by
  cases t with
  | leaf es =>
    rw [frameWeight, BNode.size, List.drop_zero]
    omega
  | branch ivs cs =>
    rw [frameWeight, BNode.size, List.drop_zero]
    omega

lemma frameWeight_pos (f : BNode K V × Nat) : 1 ≤ frameWeight f := by
  obtain ⟨t, i⟩ := f
  cases t with
  | leaf es =>
    rw [frameWeight]
    omega
  | branch ivs cs =>
    rw [frameWeight]
    omega

lemma stackWeight_cons (f : BNode K V × Nat) (rest : List (BNode K V × Nat)) :
    stackWeight (f :: rest) = frameWeight f + stackWeight rest := by
  rw [stackWeight, List.map_cons, List.sum_cons, stackWeight]

lemma stackRest_cons (f : BNode K V × Nat) (rest : List (BNode K V × Nat)) :
    stackRest (f :: rest) = restEnt f ++ stackRest rest := by
  rw [stackRest, List.flatMap_cons, stackRest]

lemma sizeCh_drop {cs : List (BNode K V)} {i : Nat} (h : i < cs.length) :
    sizeCh (cs.drop i) = (cs[i]).size + sizeCh (cs.drop (i + 1)) := by
  rw [List.drop_eq_getElem_cons h, sizeCh_cons]

lemma toListCh_drop {cs : List (BNode K V)} {i : Nat} (h : i < cs.length) :
    toListCh (cs.drop i) = (cs[i]).toList ++ toListCh (cs.drop (i + 1)) := by
  rw [List.drop_eq_getElem_cons h, toListCh]

lemma restEnt_zero (t : BNode K V) : restEnt (t, 0) = t.toList := by
  cases t with
  | leaf es => rw [restEnt, List.drop_zero, BNode.toList]
  | branch ivs cs => rw [restEnt, List.drop_zero, BNode.toList]

lemma stackWeight_zero_nil : ∀ {st : List (BNode K V × Nat)},
    stackWeight st = 0 → st = []
  | [], _ => rfl
  | f :: rest, h => by
    rw [stackWeight_cons] at h
    have := frameWeight_pos f
    omega

/-- One `BTreeIter::next` step: with enough fuel it either reports the
stack exhausted (and indeed no entries remain) or yields exactly the first
remaining entry, strictly decreasing the stack weight. -/
lemma iterNextGo_spec : ∀ (fuel : Nat) (st : List (BNode K V × Nat)),
    stackWeight st ≤ fuel →
    (iterNextGo fuel st = none ∧ stackRest st = []) ∨
    (∃ e st2, iterNextGo fuel st = some (e, st2) ∧
      stackRest st = e :: stackRest st2 ∧ stackWeight st2 < stackWeight st)
  | 0, st, h => by
    left
    have hnil : st = [] := stackWeight_zero_nil (Nat.le_zero.mp h)
    subst hnil
    exact ⟨rfl, rfl⟩
  | fuel + 1, [], _ => by
    left
    exact ⟨rfl, rfl⟩
  | fuel + 1, (n, i) :: rest, h => by
    cases n with
    | branch ivs cs =>
      by_cases hlt : i < cs.length
      · have hred : iterNextGo (fuel + 1) ((BNode.branch ivs cs, i) :: rest) =
            iterNextGo fuel ((cs[i], 0) :: (.branch ivs cs, i + 1) :: rest) := by
          rw [iterNextGo, dif_pos hlt]
        have hw2 : stackWeight ((cs[i], 0) :: (BNode.branch ivs cs, i + 1) :: rest) + 1 =
            stackWeight ((BNode.branch ivs cs, i) :: rest) := by
          rw [stackWeight_cons, stackWeight_cons, stackWeight_cons]
          rw [show frameWeight (BNode.branch ivs cs, i) = sizeCh (cs.drop i) + 1 from rfl]
          rw [show frameWeight (BNode.branch ivs cs, i + 1) =
            sizeCh (cs.drop (i + 1)) + 1 from rfl]
          have hfz := frameWeight_zero (cs[i])
          have hsd := sizeCh_drop hlt
          omega
        have hr2 : stackRest ((cs[i], 0) :: (BNode.branch ivs cs, i + 1) :: rest) =
            stackRest ((BNode.branch ivs cs, i) :: rest) := by
          rw [stackRest_cons, stackRest_cons, stackRest_cons]
          rw [show restEnt (BNode.branch ivs cs, i) = toListCh (cs.drop i) from rfl]
          rw [show restEnt (BNode.branch ivs cs, i + 1) = toListCh (cs.drop (i + 1)) from rfl]
          rw [restEnt_zero]
          rw [toListCh_drop hlt, List.append_assoc]
        rcases iterNextGo_spec fuel ((cs[i], 0) :: (.branch ivs cs, i + 1) :: rest)
            (by omega) with ⟨hn, hr⟩ | ⟨e, st2, hn, hr, hw⟩
        · left
          rw [hred, hn]
          rw [← hr2]
          exact ⟨rfl, hr⟩
        · right
          exact ⟨e, st2, by rw [hred]; exact hn, by rw [← hr2]; exact hr, by omega⟩
      · have hred : iterNextGo (fuel + 1) ((BNode.branch ivs cs, i) :: rest) =
            iterNextGo fuel rest := by
          rw [iterNextGo, dif_neg hlt]
        have hwc : stackWeight ((BNode.branch ivs cs, i) :: rest) =
            frameWeight (BNode.branch ivs cs, i) + stackWeight rest := stackWeight_cons _ _
        have hfp := frameWeight_pos (BNode.branch ivs cs, i)
        have hr2 : stackRest ((BNode.branch ivs cs, i) :: rest) = stackRest rest := by
          rw [stackRest_cons]
          rw [show restEnt (BNode.branch ivs cs, i) = toListCh (cs.drop i) from rfl]
          rw [List.drop_eq_nil_of_le (le_of_not_lt hlt)]
          rw [toListCh, List.nil_append]
        rcases iterNextGo_spec fuel rest (by omega) with ⟨hn, hr⟩ | ⟨e, st2, hn, hr, hw⟩
        · left
          rw [hred, hn, hr2]
          exact ⟨rfl, hr⟩
        · right
          exact ⟨e, st2, by rw [hred]; exact hn, by rw [hr2]; exact hr, by omega⟩
    | leaf es =>
      by_cases hlt : i < es.length
      · right
        refine ⟨es[i], (.leaf es, i + 1) :: rest, ?_, ?_, ?_⟩
        · rw [iterNextGo, dif_pos hlt]
        · rw [stackRest_cons, stackRest_cons]
          rw [show restEnt (BNode.leaf es, i) = es.drop i from rfl]
          rw [show restEnt (BNode.leaf es, i + 1) = es.drop (i + 1) from rfl]
          rw [List.drop_eq_getElem_cons hlt]
          rfl
        · rw [stackWeight_cons, stackWeight_cons]
          rw [show frameWeight (BNode.leaf es, i) = (es.drop i).length + 1 from rfl]
          rw [show frameWeight (BNode.leaf es, i + 1) = (es.drop (i + 1)).length + 1 from rfl]
          rw [List.length_drop, List.length_drop]
          omega
      · have hred : iterNextGo (fuel + 1) ((BNode.leaf es, i) :: rest) =
            iterNextGo fuel rest := by
          rw [iterNextGo, dif_neg hlt]
        have hwc : stackWeight ((BNode.leaf es, i) :: rest) =
            frameWeight (BNode.leaf es, i) + stackWeight rest := stackWeight_cons _ _
        have hfp := frameWeight_pos (BNode.leaf es, i)
        have hr2 : stackRest ((BNode.leaf es, i) :: rest) = stackRest rest := by
          rw [stackRest_cons]
          rw [show restEnt (BNode.leaf es, i) = es.drop i from rfl]
          rw [List.drop_eq_nil_of_le (le_of_not_lt hlt), List.nil_append]
        rcases iterNextGo_spec fuel rest (by omega) with ⟨hn, hr⟩ | ⟨e, st2, hn, hr, hw⟩
        · left
          rw [hred, hn, hr2]
          exact ⟨rfl, hr⟩
        · right
          exact ⟨e, st2, by rw [hred]; exact hn, by rw [hr2]; exact hr, by omega⟩

/-- Draining the iterator yields exactly the entries the stack still has to
deliver. -/
lemma iterToListGo_spec : ∀ (fuel : Nat) (st : List (BNode K V × Nat)),
    stackWeight st < fuel → iterToListGo fuel st = stackRest st
  | 0, st, h => by omega
  | fuel + 1, st, h => by
    rw [iterToListGo, iterNext]
    rcases iterNextGo_spec (stackWeight st) st le_rfl with ⟨hn, hr⟩ | ⟨e, st2, hn, hr, hw⟩
    · rw [hn, hr]
    · simp only [hn]
      rw [iterToListGo_spec fuel st2 (by omega), hr]

/-- The collected iterator output is exactly the in-order entry list. -/
lemma iterList_eq_toList (t : BTree K V) : t.iterList = t.root.toList := by
  rw [BTree.iterList, iterToList, iterToListGo_spec _ _ (by omega)]
  rw [stackRest_cons, stackRest, restEnt_zero]
  rw [List.flatMap_nil, List.append_nil]

/-! ## Claim C8 -/

/-- C8: on every tree satisfying the ordering invariant, `iter()` yields the
finite in-order entry list of the tree: its keys are strictly ascending, and
it contains exactly the keys present, each with its currently associated
value (`get` agrees with first-match lookup in the iterator output). -/
theorem c8_iter_inorder (t : BTree K V) (hwf : wfNode none none t.root = true) :
    t.iterList = t.root.toList ∧
    (t.iterList.map Prod.fst).Pairwise (· < ·) ∧
    ∀ k, t.get k = some (lookupKV t.iterList k) := by
  have heq := iterList_eq_toList t
  refine ⟨heq, ?_, fun k => ?_⟩
  · rw [heq]
    exact (List.pairwise_map).mpr (wf_sorted t.root hwf)
  · rw [heq, BTree.get, get_spec t.root k hwf]

/-- C8 witness: the theorem applied to a concrete well-formed tree. -/
theorem c8_iter_inorder_witness :
    (wfNode none none (BTree.mk (K := Nat) (V := Nat)
        (.branch [2] [.leaf [(0, 10), (1, 11)], .leaf [(2, 12), (3, 13)]])).root = true) ∧
    ((BTree.mk (K := Nat) (V := Nat)
        (.branch [2] [.leaf [(0, 10), (1, 11)], .leaf [(2, 12), (3, 13)]])).iterList =
      (BTree.mk (K := Nat) (V := Nat)
        (.branch [2] [.leaf [(0, 10), (1, 11)], .leaf [(2, 12), (3, 13)]])).root.toList ∧
    ((BTree.mk (K := Nat) (V := Nat)
        (.branch [2] [.leaf [(0, 10), (1, 11)], .leaf [(2, 12), (3, 13)]])).iterList.map
        Prod.fst).Pairwise (· < ·) ∧
    ∀ k, (BTree.mk (K := Nat) (V := Nat)
        (.branch [2] [.leaf [(0, 10), (1, 11)], .leaf [(2, 12), (3, 13)]])).get k =
      some (lookupKV (BTree.mk (K := Nat) (V := Nat)
        (.branch [2] [.leaf [(0, 10), (1, 11)], .leaf [(2, 12), (3, 13)]])).iterList k)) :=
  ⟨by decide, c8_iter_inorder _ (by decide)⟩

/-! ## Claim C6 -/

lemma rank_char {k : K} : ∀ (l : List K), l.Pairwise (· < ·) →
    ∀ (j : Nat) (hj : j < l.length), (l[j] ≤ k ↔ j < rank k l)
  | [], _, j, hj => by simp at hj
  | i :: l2, hs, 0, hj => by
    show i ≤ k ↔ 0 < rank k (i :: l2)
    rw [rank]
    by_cases hik : i ≤ k
    · rw [if_pos hik]
      simp [hik]
    · rw [if_neg hik]
      simp [hik]
  | i :: l2, hs, j + 1, hj => by
    obtain ⟨hhead, htail⟩ := List.pairwise_cons.mp hs
    have hj2 : j < l2.length := by simpa using hj
    show l2[j] ≤ k ↔ j + 1 < rank k (i :: l2)
    rw [rank]
    by_cases hik : i ≤ k
    · rw [if_pos hik]
      rw [rank_char l2 htail j hj2]
      omega
    · rw [if_neg hik]
      constructor
      · intro hle
        exact absurd (le_trans (le_of_lt (hhead _ (List.getElem_mem hj2))) hle) hik
      · intro h0
        exact absurd h0 (by omega)

/-- C6: child selection.  `find_idx_from_interval` of `src/memtree.rs` on a
branch entry list whose first interval is the sentinel (never compared)
returns the number of non-sentinel separators that are `≤ key`; that index
is in range, it is `0` for a single-child branch, and it is characterized as
the largest index `j ≥ 1` with `entries[j].interval ≤ key` (ties going to
the higher index: an equal separator satisfies `≤`, so the key descends into
that separator's child).  The recursive body agrees with the reference
tree's `find_idx_from_interval` (`rank`). -/
theorem c6_child_selection (entries : List (K × Nat)) (k : K)
    (hne : entries ≠ [])
    (hs : ((entries.drop 1).map Prod.fst).Pairwise (· < ·)) :
    ∃ idx, memFindIdx entries k = some idx ∧
      idx = rank k ((entries.drop 1).map Prod.fst) ∧
      idx < entries.length ∧
      (entries.length = 1 → idx = 0) ∧
      (∀ j e, 1 ≤ j → entries[j]? = some e → (e.1 ≤ k ↔ j ≤ idx)) := by
  cases entries with
  | nil => exact absurd rfl hne
  | cons e0 tail =>
    refine ⟨rank k (tail.map Prod.fst), ?_, rfl, ?_, ?_, ?_⟩
    · rw [memFindIdx]
      exact congrArg some (find_idx_eq_rank hs k)
    · have := rank_le_length k (tail.map Prod.fst)
      simp only [List.length_map] at this
      simp only [List.length_cons]
      omega
    · intro h1
      have htn : tail = [] := by
        cases tail with
        | nil => rfl
        | cons a b => simp at h1
      subst htn
      rfl
    · intro j e hj hje
      cases j with
      | zero => omega
      | succ j2 =>
        rw [List.getElem?_cons_succ] at hje
        obtain ⟨hjl, hkey⟩ := List.getElem?_eq_some.mp hje
        have hjm : j2 < (tail.map Prod.fst).length := by simpa using hjl
        have hmk : (tail.map Prod.fst)[j2] = e.1 := by
          rw [List.getElem_map, hkey]
        have hchar : (tail.map Prod.fst)[j2] ≤ k ↔ j2 < rank k (tail.map Prod.fst) :=
          rank_char (tail.map Prod.fst) hs j2 hjm
        rw [hmk] at hchar
        rw [hchar]
        omega

/-- C6 witness: the theorem applied to concrete branch entries
`[(0, sentinel), (3, ·), (5, ·)]` and key `4`. -/
theorem c6_child_selection_witness :
    (([((0 : Nat), (7 : Nat)), (3, 8), (5, 9)] : List (Nat × Nat)) ≠ [] ∧
      ((([((0 : Nat), (7 : Nat)), (3, 8), (5, 9)] : List (Nat × Nat)).drop 1).map
        Prod.fst).Pairwise (· < ·)) ∧
    (∃ idx, memFindIdx ([((0 : Nat), (7 : Nat)), (3, 8), (5, 9)] : List (Nat × Nat)) 4 =
        some idx ∧
      idx = rank 4 ((([((0 : Nat), (7 : Nat)), (3, 8), (5, 9)] :
        List (Nat × Nat)).drop 1).map Prod.fst) ∧
      idx < ([((0 : Nat), (7 : Nat)), (3, 8), (5, 9)] : List (Nat × Nat)).length ∧
      (([((0 : Nat), (7 : Nat)), (3, 8), (5, 9)] : List (Nat × Nat)).length = 1 →
        idx = 0) ∧
      (∀ j e, 1 ≤ j →
        (([((0 : Nat), (7 : Nat)), (3, 8), (5, 9)] : List (Nat × Nat)))[j]? = some e →
        (e.1 ≤ 4 ↔ j ≤ idx))) :=
  ⟨⟨by decide, by decide⟩,
    c6_child_selection [(0, 7), (3, 8), (5, 9)] 4 (by decide) (by decide)⟩

/-! ## Claim C7 -/

/-- C7: the claim that `get` on a freshly created buffer-backed tree returns
absent (and never fails) is wrong in the code: `get` calls
`find_idx_from_interval` *before* its `idx >= branch.children.len()` guard,
and that function takes `&entries[1..]` of the root branch's empty entry
slice, which panics.  On the fresh tree, `get(&1)` panics (`none`, not
`some none`) for every descent fuel. -/
theorem c7_get_fresh_tree_panics :
    ∃ t0 : MTree Nat Nat, memNew 16 = some t0 ∧
      ∀ fuel, MTree.get fuel t0 1 = none := by
  refine ⟨⟨⟨[(0, .mbranch [])], 1, 15, true, 0⟩, 0⟩, rfl, ?_⟩
  intro fuel
  cases fuel with
  | zero => rfl
  | succ n => rfl

/-! ## Claim C9 -/

/-- C9: the claim that insert is atomic on allocation failure is wrong in
the code: `alloc_leaf`/`alloc_branch` `assert!` that the raw allocation
succeeded, so an out-of-space condition is a panic, not an unwinding error,
and nothing is freed.  Concretely, with capacity for exactly one further
allocation, inserting into the fresh (empty-root) tree first allocates the
new leaf, then panics allocating the new root branch; the state at the
panic still holds the freshly allocated leaf (id 1), which was absent
before the operation — the partial node is not freed and the tree is not
restored to its pre-operation state. -/
theorem c9_alloc_failure_not_atomic :
    memNew (K := Nat) (V := Nat) 2 =
      some ⟨⟨[(0, .mbranch [])], 1, 1, true, 0⟩, 0⟩ ∧
    memInsertGo 9
      (⟨[(0, .mbranch [])], 1, 1, true, 0⟩ : MState Nat Nat) 0 1 2 =
      (none, ⟨[(1, .mleaf [(1, 2)]), (0, .mbranch [])], 2, 0, true, 0⟩) ∧
    lookupStore [((1 : Nat), MNode.mleaf (K := Nat) [((1 : Nat), (2 : Nat))]),
      (0, .mbranch [])] 1 = some (.mleaf [(1, 2)]) ∧
    lookupStore [((0 : Nat), MNode.mbranch (K := Nat) (V := Nat) [])] 1 = none :=
  ⟨rfl, rfl, rfl, rfl⟩

/-! ## Claim C10 -/

lemma storeUpd_map_fst (id : Nat) (n : MNode K V) :
    ∀ l : List (Nat × MNode K V), (storeUpd id n l).map Prod.fst = l.map Prod.fst
  | [] => rfl
  | e :: l => by
    rw [storeUpd]
    by_cases h : e.1 = id
    · rw [if_pos h]
      simp
    · rw [if_neg h]
      simp [storeUpd_map_fst id n l]

/-- When `get` finds `k` (with value `w`), `insert(k, v)` takes the in-place
overwrite path all the way down: it returns `(None, Some w)` — no new node
id — and the state keeps exactly the same allocated ids, allocation cursor,
remaining capacity and control block. -/
lemma memInsert_present_go : ∀ (fuel : Nat) (st : MState K V) (id : Nat) (k : K)
    (v w : V), memGetGo fuel st id k = some (some w) →
    ∃ st2, memInsertGo fuel st id k v = (some (none, some w), st2) ∧
      st2.store.map Prod.fst = st.store.map Prod.fst ∧
      st2.nextId = st.nextId ∧ st2.cap = st.cap ∧
      st2.magic = st.magic ∧ st2.rootRec = st.rootRec
  | 0, st, id, k, v, w, hget => by
    rw [memGetGo] at hget
    cases hget
  | fuel + 1, st, id, k, v, w, hget => by
    rw [memGetGo] at hget
    rw [memInsertGo]
    cases hl : lookupStore st.store id with
    | none =>
      simp only [hl] at hget
      cases hget
    | some nd =>
      cases nd with
      | mleaf es =>
        simp only [hl] at hget ⊢
        cases hbs : binSearch es k with
        | inl i =>
          simp only [hbs] at hget ⊢
          cases hge : es[i]? with
          | none =>
            simp only [hge] at hget
            cases hget
          | some e =>
            simp only [hge] at hget ⊢
            simp only [Option.some.injEq] at hget
            subst hget
            refine ⟨_, rfl, ?_, rfl, rfl, rfl, rfl⟩
            rw [storeSet]
            exact storeUpd_map_fst id _ st.store
        | inr j =>
          simp only [hbs] at hget
          simp only [Option.some.injEq] at hget
          cases hget
      | mbranch entries =>
        simp only [hl] at hget ⊢
        cases hfi : memFindIdx entries k with
        | none =>
          simp only [hfi] at hget
          cases hget
        | some idx =>
          simp only [hfi] at hget ⊢
          by_cases hlen : entries.length ≤ idx
          · rw [if_pos hlen] at hget
            simp only [Option.some.injEq] at hget
            cases hget
          · rw [if_neg hlen] at hget
            cases hge : entries[idx]? with
            | none =>
              simp only [hge] at hget
              cases hget
            | some e =>
              simp only [hge] at hget
              have hne0 : ¬entries.length = 0 := by
                intro h0
                cases entries with
                | nil => rw [memFindIdx] at hfi; cases hfi
                | cons a b => simp at h0
              rw [if_neg hne0]
              obtain ⟨st2, hrec, hmap, hni, hcap, hmg, hrr⟩ :=
                memInsert_present_go fuel st e.2 k v w hget
              simp only [hge, hrec]
              exact ⟨st2, rfl, hmap, hni, hcap, hmg, hrr⟩

/-- C10: inserting a key that is already present overwrites the value inside
the existing leaf entry in place: the insert returns the previous value, no
node is allocated or freed (the allocation cursor, the remaining capacity
and the set of live node ids are unchanged), and every node id — the root
included — is unchanged. -/
theorem c10_insert_present_in_place (t : MTree K V) (fuel : Nat) (k : K) (v w : V)
    (hget : MTree.get fuel t k = some (some w)) :
    ∃ t2, MTree.insert fuel t k v = (some (some w), t2) ∧
      t2.root = t.root ∧
      t2.st.store.map Prod.fst = t.st.store.map Prod.fst ∧
      t2.st.nextId = t.st.nextId ∧ t2.st.cap = t.st.cap ∧
      t2.st.magic = t.st.magic ∧ t2.st.rootRec = t.st.rootRec := by
  obtain ⟨st2, hins, hmap, hni, hcap, hmg, hrr⟩ :=
    memInsert_present_go fuel t.st t.root k v w hget
  refine ⟨⟨st2, t.root⟩, ?_, rfl, hmap, hni, hcap, hmg, hrr⟩
  rw [MTree.insert, hins]

/-- C10 witness: the theorem applied to a concrete two-node tree in which
key `2` is present with value `6`. -/
theorem c10_insert_present_in_place_witness :
    (MTree.get 2 (⟨⟨[(0, .mbranch [(1, 1)]), (1, .mleaf [(1, 5), (2, 6)])], 2, 8,
        true, 0⟩, 0⟩ : MTree Nat Nat) 2 = some (some 6)) ∧
    (∃ t2, MTree.insert 2 (⟨⟨[(0, .mbranch [(1, 1)]), (1, .mleaf [(1, 5), (2, 6)])],
        2, 8, true, 0⟩, 0⟩ : MTree Nat Nat) 2 99 = (some (some 6), t2) ∧
      t2.root = (⟨⟨[(0, .mbranch [(1, 1)]), (1, .mleaf [(1, 5), (2, 6)])], 2, 8,
        true, 0⟩, 0⟩ : MTree Nat Nat).root ∧
      t2.st.store.map Prod.fst =
        (⟨⟨[(0, .mbranch [(1, 1)]), (1, .mleaf [(1, 5), (2, 6)])], 2, 8,
          true, 0⟩, 0⟩ : MTree Nat Nat).st.store.map Prod.fst ∧
      t2.st.nextId = (⟨⟨[(0, .mbranch [(1, 1)]), (1, .mleaf [(1, 5), (2, 6)])], 2, 8,
        true, 0⟩, 0⟩ : MTree Nat Nat).st.nextId ∧
      t2.st.cap = (⟨⟨[(0, .mbranch [(1, 1)]), (1, .mleaf [(1, 5), (2, 6)])], 2, 8,
        true, 0⟩, 0⟩ : MTree Nat Nat).st.cap ∧
      t2.st.magic = (⟨⟨[(0, .mbranch [(1, 1)]), (1, .mleaf [(1, 5), (2, 6)])], 2, 8,
        true, 0⟩, 0⟩ : MTree Nat Nat).st.magic ∧
      t2.st.rootRec = (⟨⟨[(0, .mbranch [(1, 1)]), (1, .mleaf [(1, 5), (2, 6)])], 2, 8,
        true, 0⟩, 0⟩ : MTree Nat Nat).st.rootRec) :=
  ⟨rfl, c10_insert_present_in_place _ 2 2 99 6 rfl⟩

/-! ## Claim C3 -/

lemma mAlloc_ctrl {st : MState K V} {n : MNode K V} {id2 : Nat} {st1 : MState K V}
    (h : mAlloc st n = some (id2, st1)) :
    st1.magic = st.magic ∧ st1.rootRec = st.rootRec := by
  rw [mAlloc] at h
  by_cases h0 : st.cap = 0
  · rw [if_pos h0] at h
    cases h
  · rw [if_neg h0] at h
    simp only [Option.some.injEq, Prod.mk.injEq] at h
    obtain ⟨_, h2⟩ := h
    subst h2
    exact ⟨rfl, rfl⟩

/-- The recursive insert never touches the tree control block. -/
lemma memInsertGo_ctrl : ∀ (fuel : Nat) (st : MState K V) (id : Nat) (k : K) (v : V)
    (res : Option (Option Nat × Option V)) (st2 : MState K V),
    memInsertGo fuel st id k v = (res, st2) →
    st2.magic = st.magic ∧ st2.rootRec = st.rootRec
  | 0, st, id, k, v, res, st2, h => by
    rw [memInsertGo] at h
    cases h
    exact ⟨rfl, rfl⟩
  | fuel + 1, st, id, k, v, res, st2, h => by
    rw [memInsertGo] at h
    cases hl : lookupStore st.store id with
    | none =>
      simp only [hl] at h
      cases h
      exact ⟨rfl, rfl⟩
    | some nd =>
      cases nd with
      | mleaf es =>
        simp only [hl] at h
        cases hbs : binSearch es k with
        | inl i =>
          simp only [hbs] at h
          cases hge : es[i]? with
          | none =>
            simp only [hge] at h
            cases h
            exact ⟨rfl, rfl⟩
          | some e =>
            simp only [hge] at h
            cases h
            exact ⟨rfl, rfl⟩
        | inr i =>
          simp only [hbs] at h
          by_cases hle : i ≤ es.length
          · rw [if_pos hle] at h
            cases hma : mAlloc st (.mleaf (es.insertIdx i (k, v))) with
            | none =>
              simp only [hma] at h
              cases h
              exact ⟨rfl, rfl⟩
            | some pr =>
              obtain ⟨nid, st1⟩ := pr
              simp only [hma] at h
              cases h
              exact mAlloc_ctrl hma
          · rw [if_neg hle] at h
            cases h
            exact ⟨rfl, rfl⟩
      | mbranch entries =>
        simp only [hl] at h
        by_cases h0 : entries.length = 0
        · rw [if_pos h0] at h
          cases hma1 : mAlloc st (.mleaf [(k, v)]) with
          | none =>
            simp only [hma1] at h
            cases h
            exact ⟨rfl, rfl⟩
          | some pr1 =>
            obtain ⟨lid, st1⟩ := pr1
            simp only [hma1] at h
            cases hma2 : mAlloc st1 (.mbranch [(k, lid)]) with
            | none =>
              simp only [hma2] at h
              cases h
              exact mAlloc_ctrl hma1
            | some pr2 =>
              obtain ⟨bid, stB⟩ := pr2
              simp only [hma2] at h
              cases h
              obtain ⟨hm1, hr1⟩ := mAlloc_ctrl hma1
              obtain ⟨hm2, hr2⟩ := mAlloc_ctrl hma2
              exact ⟨hm2.trans hm1, hr2.trans hr1⟩
        · rw [if_neg h0] at h
          cases hfi : memFindIdx entries k with
          | none =>
            simp only [hfi] at h
            cases h
            exact ⟨rfl, rfl⟩
          | some idx =>
            simp only [hfi] at h
            cases hge : entries[idx]? with
            | none =>
              simp only [hge] at h
              cases h
              exact ⟨rfl, rfl⟩
            | some e =>
              simp only [hge] at h
              cases hrec : memInsertGo fuel st e.2 k v with
              | mk res2 stR =>
                have ih := memInsertGo_ctrl fuel st e.2 k v res2 stR hrec
                simp only [hrec] at h
                cases res2 with
                | none =>
                  cases h
                  exact ih
                | some pr =>
                  obtain ⟨nc, prev⟩ := pr
                  cases nc with
                  | none =>
                    cases h
                    exact ih
                  | some ncid =>
                    cases h
                    exact ih

/-- The recursive remove never touches the tree control block. -/
lemma memRemoveGo_ctrl : ∀ (fuel : Nat) (st : MState K V) (id : Nat) (k : K)
    (res : Option (Option Nat × Option V)) (st2 : MState K V),
    memRemoveGo fuel st id k = (res, st2) →
    st2.magic = st.magic ∧ st2.rootRec = st.rootRec
  | 0, st, id, k, res, st2, h => by
    rw [memRemoveGo] at h
    cases h
    exact ⟨rfl, rfl⟩
  | fuel + 1, st, id, k, res, st2, h => by
    rw [memRemoveGo] at h
    cases hl : lookupStore st.store id with
    | none =>
      simp only [hl] at h
      cases h
      exact ⟨rfl, rfl⟩
    | some nd =>
      cases nd with
      | mleaf es =>
        simp only [hl] at h
        cases hbs : binSearch es k with
        | inl i =>
          simp only [hbs] at h
          cases hge : es[i]? with
          | none =>
            simp only [hge] at h
            cases h
            exact ⟨rfl, rfl⟩
          | some e =>
            simp only [hge] at h
            cases h
            exact ⟨rfl, rfl⟩
        | inr i =>
          simp only [hbs] at h
          cases h
          exact ⟨rfl, rfl⟩
      | mbranch entries =>
        simp only [hl] at h
        by_cases h0 : entries.isEmpty
        · rw [if_pos h0] at h
          cases h
          exact ⟨rfl, rfl⟩
        · rw [if_neg h0] at h
          cases hfi : memFindIdx entries k with
          | none =>
            simp only [hfi] at h
            cases h
            exact ⟨rfl, rfl⟩
          | some idx =>
            simp only [hfi] at h
            cases hge : entries[idx]? with
            | none =>
              simp only [hge] at h
              cases h
              exact ⟨rfl, rfl⟩
            | some e =>
              simp only [hge] at h
              cases hrec : memRemoveGo fuel st e.2 k with
              | mk res2 stR =>
                have ih := memRemoveGo_ctrl fuel st e.2 k res2 stR hrec
                simp only [hrec] at h
                cases res2 with
                | none =>
                  cases h
                  exact ih
                | some pr =>
                  cases h
                  exact ih

/-- The public insert keeps the root record in sync with the handle's root
and keeps the magic tag set. -/
lemma mtree_insert_sync (t : MTree K V) (fuel : Nat) (k : K) (v : V)
    (h1 : t.st.rootRec = t.root) (h2 : t.st.magic = true) :
    (MTree.insert fuel t k v).2.st.rootRec = (MTree.insert fuel t k v).2.root ∧
    (MTree.insert fuel t k v).2.st.magic = true := by
  rw [MTree.insert]
  cases hq : memInsertGo fuel t.st t.root k v with
  | mk res st2 =>
    have hctrl := memInsertGo_ctrl fuel t.st t.root k v res st2 hq
    cases res with
    | none => exact ⟨hctrl.2.trans h1, hctrl.1.trans h2⟩
    | some pr =>
      obtain ⟨nc, prev⟩ := pr
      cases nc with
      | none => exact ⟨hctrl.2.trans h1, hctrl.1.trans h2⟩
      | some nr => exact ⟨rfl, hctrl.1.trans h2⟩

/-- The public remove keeps the root record in sync with the handle's root
and keeps the magic tag set. -/
lemma mtree_remove_sync (t : MTree K V) (fuel : Nat) (k : K)
    (h1 : t.st.rootRec = t.root) (h2 : t.st.magic = true) :
    (MTree.remove fuel t k).2.st.rootRec = (MTree.remove fuel t k).2.root ∧
    (MTree.remove fuel t k).2.st.magic = true := by
  rw [MTree.remove]
  cases hq : memRemoveGo fuel t.st t.root k with
  | mk res st2 =>
    have hctrl := memRemoveGo_ctrl fuel t.st t.root k res st2 hq
    cases res with
    | none => exact ⟨hctrl.2.trans h1, hctrl.1.trans h2⟩
    | some pr =>
      obtain ⟨nc, prev⟩ := pr
      cases nc with
      | none => exact ⟨hctrl.2.trans h1, hctrl.1.trans h2⟩
      | some nr => exact ⟨rfl, hctrl.1.trans h2⟩

/-- Any sequence of public operations keeps the root record in sync. -/
lemma applyMOps_sync (fuel : Nat) : ∀ (ops : List (MOp K V)) (t : MTree K V),
    t.st.rootRec = t.root → t.st.magic = true →
    (applyMOps fuel ops t).st.rootRec = (applyMOps fuel ops t).root ∧
    (applyMOps fuel ops t).st.magic = true
  | [], t, h1, h2 => ⟨h1, h2⟩
  | .ins k v :: ops, t, h1, h2 => by
    rw [applyMOps]
    obtain ⟨g1, g2⟩ := mtree_insert_sync t fuel k v h1 h2
    exact applyMOps_sync fuel ops _ g1 g2
  | .del k :: ops, t, h1, h2 => by
    rw [applyMOps]
    obtain ⟨g1, g2⟩ := mtree_remove_sync t fuel k h1 h2
    exact applyMOps_sync fuel ops _ g1 g2

/-- C3: round-trip persistence.  After any finite sequence of insert/remove
operations on a tree created by `new`, `load` of the underlying buffer
succeeds (the magic tag is still set) and yields a handle over the very same
state with the very same root — so its `iter()` output and all its `get`
results are identical to the original handle's.  (`load`, the root record
it reads and `iter()` of the buffer-backed tree are modelled from the
specification: the source's `load`/`iter` are referenced by the tests but
missing from `src/`.) -/
theorem c3_load_round_trip (cap fuel : Nat) (ops : List (MOp K V)) (t0 : MTree K V)
    (hnew : memNew cap = some t0) :
    ∃ t2, memLoad (applyMOps fuel ops t0).st = some t2 ∧
      (∀ n, memIterGo n t2.st t2.root =
        memIterGo n (applyMOps fuel ops t0).st (applyMOps fuel ops t0).root) ∧
      (∀ n k, MTree.get n t2 k = MTree.get n (applyMOps fuel ops t0) k) := by
  rw [memNew] at hnew
  cases hma : mAlloc
      (⟨[], 0, cap, false, 0⟩ : MState K V) (.mbranch []) with
  | none =>
    rw [hma] at hnew
    cases hnew
  | some pr =>
    obtain ⟨rootId, st1⟩ := pr
    rw [hma] at hnew
    simp only [Option.some.injEq] at hnew
    subst hnew
    obtain ⟨g1, g2⟩ := applyMOps_sync fuel ops
      ⟨{ st1 with magic := true, rootRec := rootId }, rootId⟩ rfl rfl
    set T := applyMOps fuel ops
      (⟨{ st1 with magic := true, rootRec := rootId }, rootId⟩ : MTree K V) with hT
    refine ⟨⟨T.st, T.st.rootRec⟩, ?_, ?_, ?_⟩
    · rw [memLoad, if_pos g2]
    · intro n
      rw [g1]
    · intro n k
      rw [MTree.get, MTree.get, g1]

/-- C3 witness: the theorem applied to a concrete buffer, one insert and one
remove. -/
theorem c3_load_round_trip_witness :
    (memNew 8 = some (⟨⟨[(0, .mbranch [])], 1, 7, true, 0⟩, 0⟩ : MTree Nat Nat)) ∧
    (∃ t2, memLoad (applyMOps 9 [.ins 1 2, .del 3]
        (⟨⟨[(0, .mbranch [])], 1, 7, true, 0⟩, 0⟩ : MTree Nat Nat)).st = some t2 ∧
      (∀ n, memIterGo n t2.st t2.root =
        memIterGo n (applyMOps 9 [.ins 1 2, .del 3]
          (⟨⟨[(0, .mbranch [])], 1, 7, true, 0⟩, 0⟩ : MTree Nat Nat)).st
          (applyMOps 9 [.ins 1 2, .del 3]
            (⟨⟨[(0, .mbranch [])], 1, 7, true, 0⟩, 0⟩ : MTree Nat Nat)).root) ∧
      (∀ n k, MTree.get n t2 k = MTree.get n (applyMOps 9 [.ins 1 2, .del 3]
        (⟨⟨[(0, .mbranch [])], 1, 7, true, 0⟩, 0⟩ : MTree Nat Nat)) k)) :=
  ⟨rfl, c3_load_round_trip 8 9 [.ins 1 2, .del 3] _ rfl⟩

end Catalog
